import Mathlib

/-!
# Aho–Corasick automaton (`aho_corasick.hpp`)

A shallow embedding of the class template `AhoCorasick<T>`.

* `State` objects live on a heap, modelled as a list of states; a `State*` is an index
  into that list.  Index `0` is the member `m_root`; a node created by `new State` gets the
  next free index.  A null pointer is `none`.
* `std::map<value_type, std::unique_ptr<State>>` is a key-ordered association list.
* A `const pattern_type*` always points into the `std::list` `m_patterns`, whose elements
  are never modified or erased; it is modelled by the pattern it points to.
* The input range `[begin, end)` is a list; the iterator handed to the callback is its
  offset from the initial `begin`.
* The callback is a function of the pattern and the position; `match` returns the list of
  callback invocations it makes.
* `none` is the result of a run that the C++ program does not complete: a failed `assert`,
  a null pointer dereference, or a recursion that does not terminate.
-/

set_option autoImplicit false
set_option linter.unusedSectionVars false
set_option linter.unusedVariables false

/-- One trie node, `AhoCorasick::State`. -/
structure AhoCorasick.State (α : Type) where
  /-- The element on the edge from the parent; never initialised for the root. -/
  m_label : Option α
  /-- Back-reference to the parent; null for the root. -/
  m_parent : Option Nat
  /-- The children, keyed by element. -/
  m_next : List (α × Nat)
  /-- The failure transition; null until prepared. -/
  m_failTransition : Option Nat
  /-- The output list. -/
  m_patterns : List (List α)
deriving DecidableEq, Repr

/-- The automaton, `AhoCorasick<T>`: the pattern collection, the states (index 0 is
`m_root`) and the prepared flag. -/
structure AhoCorasick (α : Type) where
  m_patterns : List (List α)
  heap : List (AhoCorasick.State α)
  m_prepaired : Bool
deriving DecidableEq, Repr

namespace AhoCorasick

variable {α : Type}

/-- The constructor `State()`: no parent, failure transition to itself. -/
def State.root : State α :=
  { m_label := none, m_parent := none, m_next := [], m_failTransition := some 0,
    m_patterns := [] }

/-- The constructor `State(label, parent)`. -/
def State.mkChild (label : α) (parent : Nat) : State α :=
  { m_label := some label, m_parent := some parent, m_next := [], m_failTransition := none,
    m_patterns := [] }

/-- The method `State::isRoot`: the parent pointer is null. -/
def State.isRoot (st : State α) : Bool := st.m_parent.isNone

/-- The call `std::map::emplace` with a key and a value: the map is ordered by key and an
existing key keeps its value. -/
def mapEmplace [LinearOrder α] (k : α) (v : Nat) : List (α × Nat) → List (α × Nat)
  | [] => [(k, v)]
  | e :: m =>
    if k < e.1 then (k, v) :: e :: m
    else if k = e.1 then e :: m
    else e :: mapEmplace k v m

/-- The lookup `state->m_next.find(label)` on the state at address `state`; `none` is
`std::end(m_next)`. -/
def findNext [LinearOrder α] (heap : List (State α)) (state : Nat) (label : α) : Option Nat :=
  match heap[state]? with
  | some st => st.m_next.lookup label
  | none => none

/-- The method `State::addNext`: allocate a child and emplace it in `m_next`; returns the
address of the child stored under `label`. -/
def State.addNext [LinearOrder α] (heap : List (State α)) (this : Nat) (label : α) :
    List (State α) × Nat :=
  match heap[this]? with
  | none => (heap, this)
  | some st =>
    match st.m_next.lookup label with
    | some n => (heap, n)
    | none =>
      ((heap.set this { st with m_next := mapEmplace label heap.length st.m_next })
          ++ [State.mkChild label this], heap.length)

/-- The method `AhoCorasick::updateChain`: walk the pattern from `state`, creating the
missing states; returns the new heap and the state reached. -/
def updateChain [LinearOrder α] : List α → List (State α) → Nat → List (State α) × Nat
  | [], heap, state => (heap, state)
  | c :: cs, heap, state =>
    match findNext heap state c with
    | none =>
      let r := State.addNext heap state c
      updateChain cs r.1 r.2
    | some n => updateChain cs heap n

/-- The method `AhoCorasick::findState`: walk the sequence from `state` along existing
edges; `none` is the null pointer. -/
def findState [LinearOrder α] (heap : List (State α)) : List α → Nat → Option Nat
  | [], state => some state
  | c :: cs, state =>
    match findNext heap state c with
    | some n => findState heap cs n
    | none => none

/-- The constructor `AhoCorasick()`. -/
def new : AhoCorasick α :=
  { m_patterns := [], heap := [State.root], m_prepaired := false }

/-- The method `AhoCorasick::addPattern`: an empty pattern ends at the root and returns
early; otherwise the pattern is stored, attached to the state reached and the flag is
cleared. -/
def addPattern [LinearOrder α] (a : AhoCorasick α) (pattern : List α) : AhoCorasick α :=
  let r := updateChain pattern a.heap 0
  match r.1[r.2]? with
  | none => { a with heap := r.1 }
  | some st =>
    if st.isRoot then { a with heap := r.1 }
    else
      { m_patterns := a.m_patterns ++ [pattern],
        heap := r.1.set r.2 { st with m_patterns := st.m_patterns ++ [pattern] },
        m_prepaired := false }

/-- The method `AhoCorasick::failSuffix`: the labels from `state` up to, and without, the
child of the root, pushed to the front of `suffix`; the recursion is bounded by `fuel`. -/
def failSuffix (heap : List (State α)) : Nat → Nat → List α → Option (List α)
  | 0, _, _ => none
  | fuel + 1, state, suffix =>
    match heap[state]? with
    | none => none
    | some st =>
      match st.m_parent with
      | none => none
      | some p =>
        match heap[p]? with
        | none => none
        | some pst =>
          if pst.isRoot then some suffix
          else
            match st.m_label with
            | none => none
            | some l => failSuffix heap fuel p (l :: suffix)

/-- The `while (!suffix.empty())` loop of `prepareState` together with the final
`if (suffix.empty())`. -/
def prepareStateLoop [LinearOrder α] (heap : List (State α)) (state : Nat) (st : State α) :
    List α → Option (List (State α))
  | [] => some (heap.set state { st with m_failTransition := some 0 })
  | c :: cs =>
    match findState heap (c :: cs) 0 with
    | some transition =>
      match heap[transition]? with
      | none => none
      | some tst =>
        some (heap.set state
          { st with m_failTransition := some transition,
                    m_patterns := st.m_patterns ++ tst.m_patterns })
    | none => prepareStateLoop heap state st cs

/-- The method `AhoCorasick::prepareState`. -/
def prepareState [LinearOrder α] (heap : List (State α)) (state : Nat) :
    Option (List (State α)) :=
  match heap[state]? with
  | none => none
  | some st =>
    if st.isRoot then some heap
    else
      match st.m_parent with
      | none => none
      | some p =>
        match heap[p]? with
        | none => none
        | some pst =>
          if pst.isRoot then some (heap.set state { st with m_failTransition := some 0 })
          else
            match failSuffix heap heap.length state [] with
            | none => none
            | some suffix => prepareStateLoop heap state st suffix

/-- The loop `for (auto& next : state->m_next) prepared += body(next.second.get())`. -/
def forEachNext (body : List (State α) → Nat → Option (List (State α) × Nat)) :
    List (α × Nat) → List (State α) → Nat → Option (List (State α) × Nat)
  | [], heap, prepared => some (heap, prepared)
  | next :: rest, heap, prepared =>
    match body heap next.2 with
    | none => none
    | some r => forEachNext body rest r.1 (prepared + r.2)

/-- The method `AhoCorasick::prepareRecurcive`: returns the new heap and the number of
states prepared; the recursion is bounded by `fuel`. -/
def prepareRecurcive [LinearOrder α] :
    Nat → List (State α) → Nat → Nat → Nat → Option (List (State α) × Nat)
  | 0, _, _, _, _ => none
  | fuel + 1, heap, state, lvl, max_lvl =>
    if lvl = max_lvl then
      match prepareState heap state with
      | none => none
      | some h => some (h, 1)
    else
      match heap[state]? with
      | none => none
      | some st =>
        forEachNext (fun h n => prepareRecurcive fuel h n (lvl + 1) max_lvl) st.m_next heap 0

/-- The loop `while (prepareRecurcive(&m_root, 0, max_lvl) > 0) ++max_lvl;`, bounded by
`fuel`. -/
def prepareLoop [LinearOrder α] : Nat → List (State α) → Nat → Option (List (State α))
  | 0, _, _ => none
  | fuel + 1, heap, max_lvl =>
    match prepareRecurcive (max_lvl + 1) heap 0 0 max_lvl with
    | none => none
    | some r => if r.2 > 0 then prepareLoop fuel r.1 (max_lvl + 1) else some r.1

/-- The method `AhoCorasick::prepare`.  A trie with `n` states has fewer than `n` levels,
so a loop that is still running after `n + 1` passes does not terminate. -/
def prepare [LinearOrder α] (a : AhoCorasick α) : Option (AhoCorasick α) :=
  if a.m_prepaired then some a
  else
    match prepareLoop (a.heap.length + 1) a.heap 1 with
    | none => none
    | some h => some { a with heap := h, m_prepaired := true }

/-- The method `AhoCorasick::matcher`: constructing the `Matcher` prepares the automaton.
The handle itself only holds a reference to the automaton, so the result is the automaton
the handle refers to. -/
def matcher [LinearOrder α] (a : AhoCorasick α) : Option (AhoCorasick α) := a.prepare

/-- The method `State::next`; the recursion along failure transitions is bounded by
`fuel`. -/
def State.next [LinearOrder α] (heap : List (State α)) : Nat → Nat → α → Option Nat
  | 0, _, _ => none
  | fuel + 1, this, next_label =>
    match heap[this]? with
    | none => none
    | some st =>
      match st.m_next.lookup next_label with
      | some n => some n
      | none =>
        if st.isRoot then some this
        else
          match st.m_failTransition with
          | none => none
          | some t => State.next heap fuel t next_label

/-- The `for (auto pattern : m_patterns)` loop of `applyPatterns`: the invocations made
and whether the callback asked to stop. -/
def applyLoop (f : List α → Int → Bool) (i : Int) :
    List (List α) → List (List α × Int) × Bool
  | [] => ([], false)
  | pattern :: rest =>
    let pos := i - ((pattern.length : Int) - 1)
    if f pattern pos then ([(pattern, pos)], true)
    else ((pattern, pos) :: (applyLoop f i rest).1, (applyLoop f i rest).2)

/-- The method `State::applyPatterns`. -/
def State.applyPatterns (st : State α) (f : List α → Int → Bool) (i : Int) :
    List (List α × Int) × Bool :=
  if st.isRoot then ([], false) else applyLoop f i st.m_patterns

/-- The `for (; begin != end; ++begin)` loop of `match`. -/
def matchLoop [LinearOrder α] (heap : List (State α)) (f : List α → Int → Bool) :
    List α → Nat → Int → Option (List (List α × Int))
  | [], _, _ => some []
  | c :: cs, state, begin =>
    match State.next heap heap.length state c with
    | none => none
    | some state1 =>
      match heap[state1]? with
      | none => none
      | some st =>
        if (st.applyPatterns f begin).2 then some (st.applyPatterns f begin).1
        else
          match matchLoop heap f cs state1 (begin + 1) with
          | none => none
          | some tr => some ((st.applyPatterns f begin).1 ++ tr)

/-- The method `AhoCorasick::match`: `assert(m_prepaired)`, then the traversal from the
root.  A chain of failure transitions longer than the number of states is cyclic, which
bounds the recursion of `next`. -/
def match_ [LinearOrder α] (a : AhoCorasick α) (f : List α → Int → Bool) (s : List α) :
    Option (List (List α × Int)) :=
  if a.m_prepaired then matchLoop a.heap f s 0 0 else none

/-- The method `Matcher::match`: forwards to the automaton the handle refers to, in its
current state. -/
def Matcher.match_ [LinearOrder α] (m_automation : AhoCorasick α) (f : List α → Int → Bool)
    (s : List α) : Option (List (List α × Int)) :=
  m_automation.match_ f s

/-! ## Specification-level definitions -/

/-- Shape invariant of the heap: index 0 is the root, every other state is the child of
its parent under its label, and `path` gives each state its sequence of edge labels. -/
structure WF [LinearOrder α] (heap : List (State α)) (path : Nat → List α) : Prop where
  root : ∃ r, heap[0]? = some r ∧ r.m_parent = none
  path_root : path 0 = []
  parent : ∀ (j : Nat) (st : State α), heap[j]? = some st → j ≠ 0 →
    ∃ (p : Nat) (pst : State α) (c : α), st.m_parent = some p ∧ st.m_label = some c ∧
      p < j ∧ heap[p]? = some pst ∧ pst.m_next.lookup c = some j ∧ path j = path p ++ [c]
  child : ∀ (i : Nat) (st : State α) (c : α) (j : Nat), heap[i]? = some st →
    (c, j) ∈ st.m_next →
    ∃ stj : State α, heap[j]? = some stj ∧ stj.m_parent = some i ∧ stj.m_label = some c
  keys : ∀ (i : Nat) (st : State α), heap[i]? = some st → (st.m_next.map Prod.fst).Nodup

/-- The heap `h2` (with paths `path2`) extends `h1`: the old states keep their address,
path, label, parent, failure transition, output list and children; the states at new
addresses have an empty output list and no failure transition. -/
structure Ext (h1 : List (State α)) (path1 : Nat → List α) (h2 : List (State α))
    (path2 : Nat → List α) : Prop where
  length_le : h1.length ≤ h2.length
  path_eq : ∀ k, k < h1.length → path2 k = path1 k
  old : ∀ (k : Nat) (st : State α), h1[k]? = some st →
    ∃ st2 : State α, h2[k]? = some st2 ∧ st2.m_patterns = st.m_patterns ∧
      st2.m_failTransition = st.m_failTransition ∧ st2.m_parent = st.m_parent ∧
      st2.m_label = st.m_label ∧ ∀ x ∈ st.m_next, x ∈ st2.m_next
  fresh : ∀ k, h1.length ≤ k → k < h2.length →
    ∃ st2 : State α, h2[k]? = some st2 ∧ st2.m_patterns = [] ∧ st2.m_failTransition = none

/-- The state of the longest suffix of `suffix` that is a path of the trie; the root when
no non-empty suffix is. -/
def longestSuffixState [LinearOrder α] (heap : List (State α)) : List α → Nat
  | [] => 0
  | c :: cs =>
    match findState heap (c :: cs) 0 with
    | some t => t
    | none => longestSuffixState heap cs

/-- Two heaps with the same trie: the same labels, parents and children at every
address. -/
def SameShape (h1 h2 : List (State α)) : Prop :=
  h1.length = h2.length ∧
  ∀ (k : Nat) (st1 : State α), h1[k]? = some st1 →
    ∃ st2 : State α, h2[k]? = some st2 ∧ st2.m_label = st1.m_label ∧
      st2.m_parent = st1.m_parent ∧ st2.m_next = st1.m_next

/-- What preparation establishes: failure transitions go to the longest proper suffix,
every output list holds every registered pattern that is a suffix of the path, and a
pattern comes before its proper suffixes. -/
structure Prepared [LinearOrder α] (pats : List (List α)) (heap : List (State α))
    (path : Nat → List α) : Prop where
  fail : ∀ (j : Nat) (st : State α), heap[j]? = some st → j ≠ 0 →
    st.m_failTransition = some (longestSuffixState heap (path j).tail)
  complete : ∀ (j : Nat) (st : State α) (q : List α), heap[j]? = some st → q ∈ pats →
    q <:+ path j → q ∈ st.m_patterns
  ordered : ∀ (j : Nat) (st : State α) (p q : List α), heap[j]? = some st → p ∈ pats →
    q ∈ pats → q <:+ p → q ≠ p → p <:+ path j →
    ∃ l1 l2 l3 : List (List α), st.m_patterns = l1 ++ p :: l2 ++ q :: l3

/-- Invariant of every automaton built by `addPattern` and `matcher` calls. -/
structure Inv [LinearOrder α] (a : AhoCorasick α) (path : Nat → List α) : Prop where
  wf : WF a.heap path
  nonempty : [] ∉ a.m_patterns
  rootFail : ∀ r : State α, a.heap[0]? = some r → r.m_failTransition = some 0
  own : ∀ q ∈ a.m_patterns, ∃ (k : Nat) (st : State α),
    a.heap[k]? = some st ∧ path k = q ∧ q ∈ st.m_patterns
  sound : ∀ (j : Nat) (st : State α) (q : List α), a.heap[j]? = some st →
    q ∈ st.m_patterns → q ∈ a.m_patterns ∧ q <:+ path j
  prepared : a.m_prepaired = true → Prepared a.m_patterns a.heap path

/-- Invariant of an automaton on which only `addPattern` was called so far: every output
list holds exactly the registrations of the state's own path, in registration order. -/
structure Fresh [LinearOrder α] (a : AhoCorasick α) (path : Nat → List α) : Prop where
  wf : WF a.heap path
  nonempty : [] ∉ a.m_patterns
  rootFail : ∀ r : State α, a.heap[0]? = some r → r.m_failTransition = some 0
  node : ∀ q ∈ a.m_patterns, ∃ k : Nat, k < a.heap.length ∧ path k = q
  outputs : ∀ (j : Nat) (st : State α), a.heap[j]? = some st →
    st.m_patterns = a.m_patterns.filter (fun q => decide (q = path j))
  flag : a.m_prepaired = false

/-- The state `k` lies at depth `L` in the subtree of the state `i`. -/
def InSub (len : Nat) (path : Nat → List α) (i L k : Nat) : Prop :=
  k < len ∧ (path k).length = L ∧ path i <+: path k

/-- The state `j` of `h` is the state of `h0` after `prepareState`: the failure transition
is set and the outputs of the failure target are appended. -/
def Done [LinearOrder α] (h0 h : List (State α)) (path : Nat → List α) (j : Nat) : Prop :=
  ∃ st0 st tst : State α, h0[j]? = some st0 ∧ h[j]? = some st ∧
    h[longestSuffixState h0 (path j).tail]? = some tst ∧
    st.m_failTransition = some (longestSuffixState h0 (path j).tail) ∧
    st.m_patterns = st0.m_patterns ++ tst.m_patterns

/-- The state `j` of `h` still has the output list it has in `h0`. -/
def Untouched (h0 h : List (State α)) (j : Nat) : Prop :=
  ∃ st0 st : State α, h0[j]? = some st0 ∧ h[j]? = some st ∧ st.m_patterns = st0.m_patterns

/-- The registrations that are suffixes of `π`, longest first and in registration order
among equal ones. -/
def outputsOf [LinearOrder α] (pats : List (List α)) (π : List α) : List (List α) :=
  π.tails.flatMap (fun σ => pats.filter (fun q => decide (q = σ)))

/-- The output list of the state at address `t`. -/
def outputsAt (heap : List (State α)) (t : Nat) : List (List α) :=
  match heap[t]? with
  | some st => st.m_patterns
  | none => []

/-- The invocations for the output list `ps` when the current input position is `i`. -/
def fire (i : Int) (ps : List (List α)) : List (List α × Int) :=
  ps.map (fun p => (p, i - ((p.length : Int) - 1)))

/-- The invocations of a traversal that is never stopped, after the input `pre` has been
consumed and with `s` still to come. -/
def traceFrom [LinearOrder α] (heap : List (State α)) :
    List α → List α → List (List α × Int)
  | _, [] => []
  | pre, c :: cs =>
    fire pre.length (outputsAt heap (longestSuffixState heap (pre ++ [c])))
      ++ traceFrom heap (pre ++ [c]) cs

/-- The prefix of a sequence of invocations up to and including the first one on which the
callback returns true; the whole sequence when there is none. -/
def untilStop (f : List α → Int → Bool) : List (List α × Int) → List (List α × Int)
  | [] => []
  | x :: xs => if f x.1 x.2 then [x] else x :: untilStop f xs

/-- The calls `addPattern(p1)`, ..., `addPattern(pn)` in this order. -/
def addPatterns [LinearOrder α] (a : AhoCorasick α) (pats : List (List α)) : AhoCorasick α :=
  pats.foldl addPattern a

/-- The invocations expected when the input consumed so far is `σ`: for every start
position `i` from left to right (longer occurrences first), every registration equal to
the rest of `σ` from `i`, in registration order, reported at position `i`. -/
def firedAt [LinearOrder α] (pats : List (List α)) (σ : List α) : List (List α × Int) :=
  (List.range σ.length).flatMap (fun i =>
    (pats.filter (fun p => decide (p = σ.drop i))).map (fun p => (p, (i : Int))))

/-- The invocations expected over the whole input: those of every end position, from
left to right. -/
def expectedTrace [LinearOrder α] (pats : List (List α)) (s : List α) : List (List α × Int) :=
  (List.range s.length).flatMap (fun j => firedAt pats (s.take (j + 1)))

/-- The automaton states a program can reach through `addPattern` and `matcher` calls. -/
inductive Reachable [LinearOrder α] : AhoCorasick α → Prop
  | new : Reachable AhoCorasick.new
  | addPattern {a : AhoCorasick α} (p : List α) : Reachable a → Reachable (a.addPattern p)
  | matcher {a a1 : AhoCorasick α} : Reachable a → a.matcher = some a1 → Reachable a1

/-- The patterns of `example.cpp`, in the order of its `addPattern` calls. -/
def examplePatterns : List (List Char) :=
  [['q', 'u', 'i', 'c', 'k'], ['c', 'k'], ['a', 'z', 'y'], ['o', 'w', 'n'],
   ['b', 'r', 'o', 'w', 'n']]

/-- The input of `example.cpp`. -/
def exampleInput : List Char :=
  String.toList "quick red fox jumps over lazy brown dog that owns brown house"

/-- The automaton of `example.cpp` after `automation.matcher()`. -/
def exampleAutomaton : AhoCorasick Char :=
  ((AhoCorasick.new.addPatterns examplePatterns).matcher).getD AhoCorasick.new

/-- The automaton with `"ck"` registered before `"quick"`, after `matcher()`. -/
def overlapAutomaton : AhoCorasick Char :=
  ((AhoCorasick.new.addPatterns [['c', 'k'], ['q', 'u', 'i', 'c', 'k']]).matcher).getD
    AhoCorasick.new

/-- The loop of `match` with a log of the values taken by its local variable `state`: one
entry for every element of the input that the loop consumes, in order. -/
def matchLoopLog [LinearOrder α] (heap : List (State α)) (f : List α → Int → Bool) :
    List α → Nat → Int → Option (List (List α × Int) × List Nat)
  | [], _, _ => some ([], [])
  | c :: cs, state, begin =>
    match State.next heap heap.length state c with
    | none => none
    | some state1 =>
      match heap[state1]? with
      | none => none
      | some st =>
        if (st.applyPatterns f begin).2 then some ((st.applyPatterns f begin).1, [state1])
        else
          match matchLoopLog heap f cs state1 (begin + 1) with
          | none => none
          | some r => some ((st.applyPatterns f begin).1 ++ r.1, state1 :: r.2)

/-- The method `AhoCorasick::match` with the log of the values of `state`. -/
def matchLog [LinearOrder α] (a : AhoCorasick α) (f : List α → Int → Bool) (s : List α) :
    Option (List (List α × Int) × List Nat) :=
  if a.m_prepaired then matchLoopLog a.heap f s 0 0 else none

/-- One step along a failure transition: `t` is the `m_failTransition` of the state `m`. -/
def failStep (heap : List (State α)) (m t : Nat) : Prop :=
  ∃ st : State α, heap[m]? = some st ∧ st.m_failTransition = some t

/-- The loop of `match` instantiated with an iterator over another element type `β`: the
call `state->next(*begin)` converts each element to `value_type`, here by `conv`. -/
def matchLoopAs [LinearOrder α] {β : Type} (conv : β → α) (heap : List (State α))
    (f : List α → Int → Bool) : List β → Nat → Int → Option (List (List α × Int))
  | [], _, _ => some []
  | c :: cs, state, begin =>
    match State.next heap heap.length state (conv c) with
    | none => none
    | some state1 =>
      match heap[state1]? with
      | none => none
      | some st =>
        if (st.applyPatterns f begin).2 then some (st.applyPatterns f begin).1
        else
          match matchLoopAs conv heap f cs state1 (begin + 1) with
          | none => none
          | some tr => some ((st.applyPatterns f begin).1 ++ tr)

/-- The method `AhoCorasick::match` instantiated with an iterator over `β`. -/
def matchAs [LinearOrder α] {β : Type} (conv : β → α) (a : AhoCorasick α)
    (f : List α → Int → Bool) (s : List β) : Option (List (List α × Int)) :=
  if a.m_prepaired then matchLoopAs conv a.heap f s 0 0 else none

/-- The values of the C++ type `char`: the 256 consecutive integers from `lo`, which is
`-128` where `char` is signed and `0` where it is unsigned; ordered by value, as `<` on
`char` orders the keys of `m_next`. -/
abbrev CChar (lo : Int) : Type := { n : Int // lo ≤ n ∧ n < lo + 256 }

/-- The conversion from `char` to `int` made by `std::copy` into the `int` container: the
value is kept, so a negative `char` gives a negative `int`. -/
def charToInt {lo : Int} (c : CChar lo) : Int := c.val

/-- The conversion from `int` to `char` made by the call `next(*begin)`, whose parameter is
a `value_type`: the value is reduced modulo `2 ^ 8` into the range of `char`. -/
def intToChar (lo : Int) (n : Int) : CChar lo :=
  ⟨lo + (n - lo) % 256, by constructor <;> omega⟩

/-- The `char` that holds the code of a character of the source text. -/
def asChar (lo : Int) (c : Char) : CChar lo := intToChar lo (c.toNat : Int)

/-- The automaton of `example.cpp` after `automation.matcher()`, over `char` values of a
platform with signed `char`. -/
def exampleAutomatonC : AhoCorasick (CChar (-128)) :=
  ((AhoCorasick.new.addPatterns
    (examplePatterns.map (List.map (asChar (-128))))).matcher).getD AhoCorasick.new

/-- The method `State::next` as a step on the states: the method is not `const`, so the
call is given the states and returns them together with its result. -/
def State.nextS [LinearOrder α] :
    List (State α) → Nat → Nat → α → Option (List (State α) × Nat)
  | _, 0, _, _ => none
  | heap, fuel + 1, this, next_label =>
    match heap[this]? with
    | none => none
    | some st =>
      match st.m_next.lookup next_label with
      | some n => some (heap, n)
      | none =>
        if st.isRoot then some (heap, this)
        else
          match st.m_failTransition with
          | none => none
          | some t => State.nextS heap fuel t next_label

/-- The loop of `applyPatterns` for a callback with a state of its own (its captures): the
callback is given its state and returns the new one with its answer.  The result is the
state of the callback after the loop, the invocations made and whether it asked to
stop. -/
def applyLoopS {σ : Type} (f : σ → List α → Int → σ × Bool) (i : Int) :
    List (List α) → σ → σ × List (List α × Int) × Bool
  | [], c => (c, [], false)
  | pattern :: rest, c =>
    let pos := i - ((pattern.length : Int) - 1)
    if (f c pattern pos).2 then ((f c pattern pos).1, [(pattern, pos)], true)
    else
      ((applyLoopS f i rest (f c pattern pos).1).1,
        (pattern, pos) :: (applyLoopS f i rest (f c pattern pos).1).2.1,
        (applyLoopS f i rest (f c pattern pos).1).2.2)

/-- The method `State::applyPatterns` for a callback with a state of its own; the method
is `const`, so it only reads the state of the automaton it is called on. -/
def State.applyPatternsS {σ : Type} (st : State α) (f : σ → List α → Int → σ × Bool)
    (i : Int) (c : σ) : σ × List (List α × Int) × Bool :=
  if st.isRoot then (c, [], false) else applyLoopS f i st.m_patterns c

/-- The loop of `match` as a step on the states of the automaton and the state of the
callback: every call of `next` is given the states left by the previous one. -/
def matchLoopS [LinearOrder α] {σ : Type} (f : σ → List α → Int → σ × Bool) :
    List α → List (State α) → Nat → Int → σ →
      Option (List (State α) × σ × List (List α × Int))
  | [], heap, _, _, c => some (heap, c, [])
  | x :: xs, heap, state, begin, c =>
    match State.nextS heap heap.length state x with
    | none => none
    | some r =>
      match r.1[r.2]? with
      | none => none
      | some st =>
        if (st.applyPatternsS f begin c).2.2 then
          some (r.1, (st.applyPatternsS f begin c).1, (st.applyPatternsS f begin c).2.1)
        else
          match matchLoopS f xs r.1 r.2 (begin + 1) (st.applyPatternsS f begin c).1 with
          | none => none
          | some q => some (q.1, q.2.1, (st.applyPatternsS f begin c).2.1 ++ q.2.2)

/-- The method `AhoCorasick::match` as a step: the automaton and the state of the callback
after the call, and the invocations made.  The pattern collection and the flag are not
assigned by `match`. -/
def matchS [LinearOrder α] {σ : Type} (a : AhoCorasick α)
    (f : σ → List α → Int → σ × Bool) (s : List α) (c : σ) :
    Option (AhoCorasick α × σ × List (List α × Int)) :=
  if a.m_prepaired then
    match matchLoopS f s a.heap 0 0 c with
    | none => none
    | some r => some ({ a with heap := r.1 }, r.2.1, r.2.2)
  else none

/-- A sequence of `match` calls, each with its callback and input: every call is made on
the automaton and with the callback state that the previous call left. -/
def matchCallsS [LinearOrder α] {σ : Type} :
    AhoCorasick α → List ((σ → List α → Int → σ × Bool) × List α) → σ →
      Option (AhoCorasick α × σ × List (List (List α × Int)))
  | a, [], c => some (a, c, [])
  | a, call :: rest, c =>
    match matchS a call.1 call.2 c with
    | none => none
    | some r =>
      match matchCallsS r.1 rest r.2.1 with
      | none => none
      | some q => some (q.1, q.2.1, r.2.2 :: q.2.2)

/-- The length of the longest prefix of a sequence that can be walked from `state` along
existing edges. -/
def walkLen [LinearOrder α] (heap : List (State α)) : List α → Nat → Nat
  | [], _ => 0
  | c :: cs, state =>
    match findNext heap state c with
    | some n => walkLen heap cs n + 1
    | none => 0

/-- The `while (!suffix.empty())` loop of `prepareState` together with the number of times
its body runs. -/
def prepareStateLoopIters [LinearOrder α] (heap : List (State α)) (state : Nat)
    (st : State α) : List α → Option (List (State α) × Nat)
  | [] => some (heap.set state { st with m_failTransition := some 0 }, 0)
  | c :: cs =>
    match findState heap (c :: cs) 0 with
    | some transition =>
      match heap[transition]? with
      | none => none
      | some tst =>
        some (heap.set state
          { st with m_failTransition := some transition,
                    m_patterns := st.m_patterns ++ tst.m_patterns }, 1)
    | none =>
      match prepareStateLoopIters heap state st cs with
      | none => none
      | some r => some (r.1, r.2 + 1)

/-- The method `prepareState` together with the number of iterations of its suffix-search
loop. -/
def prepareStateIters [LinearOrder α] (heap : List (State α)) (state : Nat) :
    Option (List (State α) × Nat) :=
  match heap[state]? with
  | none => none
  | some st =>
    if st.isRoot then some (heap, 0)
    else
      match st.m_parent with
      | none => none
      | some p =>
        match heap[p]? with
        | none => none
        | some pst =>
          if pst.isRoot then some (heap.set state { st with m_failTransition := some 0 }, 0)
          else
            match failSuffix heap heap.length state [] with
            | none => none
            | some suffix => prepareStateLoopIters heap state st suffix

/-- The loop over the children in `prepareRecurcive`, with a log of the `prepareState`
calls: each entry is the state passed and the heap at the time of the call. -/
def forEachNextLog
    (body : List (State α) → Nat → Option (List (State α) × Nat × List (Nat × List (State α)))) :
    List (α × Nat) → List (State α) → Nat → List (Nat × List (State α)) →
      Option (List (State α) × Nat × List (Nat × List (State α)))
  | [], heap, prepared, log => some (heap, prepared, log)
  | next :: rest, heap, prepared, log =>
    match body heap next.2 with
    | none => none
    | some r => forEachNextLog body rest r.1 (prepared + r.2.1) (log ++ r.2.2)

/-- The method `prepareRecurcive` with a log of its `prepareState` calls, in the order in
which they are made. -/
def prepareRecurciveLog [LinearOrder α] :
    Nat → List (State α) → Nat → Nat → Nat →
      Option (List (State α) × Nat × List (Nat × List (State α)))
  | 0, _, _, _, _ => none
  | fuel + 1, heap, state, lvl, max_lvl =>
    if lvl = max_lvl then
      match prepareState heap state with
      | none => none
      | some h => some (h, 1, [(state, heap)])
    else
      match heap[state]? with
      | none => none
      | some st =>
        forEachNextLog (fun h n => prepareRecurciveLog fuel h n (lvl + 1) max_lvl)
          st.m_next heap 0 []

/-- The level loop of `prepare` with the log of every pass, in the order of the passes. -/
def prepareLoopLog [LinearOrder α] :
    Nat → List (State α) → Nat →
      Option (List (State α) × List (List (Nat × List (State α))))
  | 0, _, _ => none
  | fuel + 1, heap, max_lvl =>
    match prepareRecurciveLog (max_lvl + 1) heap 0 0 max_lvl with
    | none => none
    | some r =>
      if r.2.1 > 0 then
        match prepareLoopLog fuel r.1 (max_lvl + 1) with
        | none => none
        | some q => some (q.1, r.2.2 :: q.2)
      else some (r.1, [r.2.2])

/-- The method `prepare` with the log of every pass of its level loop; no pass is made
when the flag is set. -/
def prepareLog [LinearOrder α] (a : AhoCorasick α) :
    Option (AhoCorasick α × List (List (Nat × List (State α)))) :=
  if a.m_prepaired then some (a, [])
  else
    match prepareLoopLog (a.heap.length + 1) a.heap 1 with
    | none => none
    | some r => some ({ a with heap := r.1, m_prepaired := true }, r.2)

/-! ## Proofs -/

section lookup

variable [LinearOrder α]

theorem lookup_mem {l : List (α × Nat)} {c : α} {j : Nat} (h : l.lookup c = some j) :
    (c, j) ∈ l := by
  induction l with
  | nil => simp at h
  | cons e l ih =>
    obtain ⟨k, v⟩ := e
    rw [List.lookup_cons] at h
    by_cases hk : c = k
    · subst hk; simp at h; subst h; exact List.mem_cons_self _ _
    · have : (c == k) = false := by simpa using hk
      rw [this] at h
      exact List.mem_cons_of_mem _ (ih h)

theorem mem_lookup {l : List (α × Nat)} {c : α} {j : Nat} (hn : (l.map Prod.fst).Nodup)
    (h : (c, j) ∈ l) : l.lookup c = some j := by
  induction l with
  | nil => simp at h
  | cons e l ih =>
    obtain ⟨k, v⟩ := e
    rw [List.map_cons, List.nodup_cons] at hn
    rw [List.lookup_cons]
    rcases List.mem_cons.1 h with h1 | h1
    · cases h1; simp
    · have hk : c ≠ k := by
        rintro rfl
        exact hn.1 (List.mem_map.2 ⟨(c, j), h1, rfl⟩)
      have : (c == k) = false := by simpa using hk
      rw [this]
      exact ih hn.2 h1

theorem lookup_none {l : List (α × Nat)} {c : α} :
    l.lookup c = none ↔ c ∉ l.map Prod.fst := by
  induction l with
  | nil => simp
  | cons e l ih =>
    obtain ⟨k, v⟩ := e
    rw [List.lookup_cons]
    by_cases hk : c = k
    · subst hk; simp
    · have : (c == k) = false := by simpa using hk
      rw [this]; simp only [List.map_cons, List.mem_cons, hk, false_or]; exact ih

end lookup

section findState

variable [LinearOrder α] {heap : List (State α)} {path : Nat → List α}

theorem findNext_eq_some {i j : Nat} {c : α} (h : findNext heap i c = some j) :
    ∃ st, heap[i]? = some st ∧ st.m_next.lookup c = some j := by
  unfold findNext at h
  cases hi : heap[i]? with
  | none => rw [hi] at h; cases h
  | some st => rw [hi] at h; exact ⟨st, rfl, h⟩

theorem findNext_of_lookup {i j : Nat} {c : α} {st : State α} (hi : heap[i]? = some st)
    (h : st.m_next.lookup c = some j) : findNext heap i c = some j := by
  unfold findNext; rw [hi]; exact h

theorem WF.findNext_spec (wf : WF heap path) {i j : Nat} {c : α}
    (h : findNext heap i c = some j) :
    j < heap.length ∧ j ≠ 0 ∧ path j = path i ++ [c] := by
  obtain ⟨st, hi, hl⟩ := findNext_eq_some h
  obtain ⟨stj, hj, hp, hlab⟩ := wf.child i st c j hi (lookup_mem hl)
  have hjlt : j < heap.length := (List.getElem?_eq_some.1 hj).1
  have hj0 : j ≠ 0 := by
    rintro rfl
    obtain ⟨r, hr, hrp⟩ := wf.root
    rw [hj] at hr; cases hr; rw [hrp] at hp; cases hp
  obtain ⟨p, pst, c1, hp1, hl1, _, _, _, hpath⟩ := wf.parent j stj hj hj0
  rw [hp] at hp1; cases hp1; rw [hlab] at hl1; cases hl1
  exact ⟨hjlt, hj0, hpath⟩

theorem findState_append (π ρ : List α) (i : Nat) :
    findState heap (π ++ ρ) i = (findState heap π i).bind (findState heap ρ) := by
  induction π generalizing i with
  | nil => rfl
  | cons c cs ih =>
    simp only [List.cons_append, findState]
    cases findNext heap i c with
    | none => rfl
    | some n => exact ih n

theorem WF.findState_path (wf : WF heap path) {π : List α} {i j : Nat}
    (hi : i < heap.length) (h : findState heap π i = some j) :
    j < heap.length ∧ path j = path i ++ π := by
  induction π generalizing i with
  | nil => simp only [findState, Option.some.injEq] at h; subst h; simp [hi]
  | cons c cs ih =>
    simp only [findState] at h
    cases hn : findNext heap i c with
    | none => rw [hn] at h; cases h
    | some n =>
      rw [hn] at h
      obtain ⟨hnlt, _, hp⟩ := wf.findNext_spec hn
      obtain ⟨h1, h2⟩ := ih hnlt h
      exact ⟨h1, by rw [h2, hp]; simp⟩

theorem WF.length_pos (wf : WF heap path) : 0 < heap.length := by
  obtain ⟨r, hr, -⟩ := wf.root
  exact (List.getElem?_eq_some.1 hr).1

theorem WF.findState_of_path (wf : WF heap path) (j : Nat) (hj : j < heap.length) :
    findState heap (path j) 0 = some j := by
  induction j using Nat.strong_induction_on with
  | _ j ih =>
    by_cases hj0 : j = 0
    · subst hj0; rw [wf.path_root]; rfl
    · obtain ⟨p, pst, c, -, -, hpj, hp, hl, hpath⟩ :=
        wf.parent j _ (List.getElem?_eq_getElem hj) hj0
      rw [hpath, findState_append, ih p hpj (lt_trans hpj hj)]
      simp only [Option.some_bind, findState, findNext_of_lookup hp hl]

theorem WF.path_inj (wf : WF heap path) {i j : Nat} (hi : i < heap.length)
    (hj : j < heap.length) (h : path i = path j) : i = j := by
  have h1 := wf.findState_of_path i hi
  have h2 := wf.findState_of_path j hj
  rw [h] at h1; rw [h1] at h2; exact Option.some.inj h2

theorem WF.findState_iff (wf : WF heap path) {π : List α} {j : Nat} :
    findState heap π 0 = some j ↔ j < heap.length ∧ path j = π := by
  constructor
  · intro h
    have := wf.findState_path wf.length_pos h
    rw [wf.path_root] at this
    simpa using this
  · rintro ⟨hj, rfl⟩; exact wf.findState_of_path j hj

theorem WF.path_eq_nil (wf : WF heap path) {j : Nat} (hj : j < heap.length) :
    path j = [] ↔ j = 0 := by
  constructor
  · intro h; exact wf.path_inj hj wf.length_pos (by rw [h, wf.path_root])
  · rintro rfl; exact wf.path_root

theorem WF.path_length_le (wf : WF heap path) (j : Nat) (hj : j < heap.length) :
    (path j).length ≤ j := by
  induction j using Nat.strong_induction_on with
  | _ j ih =>
    by_cases hj0 : j = 0
    · subst hj0; rw [wf.path_root]; simp
    · obtain ⟨p, pst, c, -, -, hpj, hp, hl, hpath⟩ :=
        wf.parent j _ (List.getElem?_eq_getElem hj) hj0
      have := ih p hpj (lt_trans hpj hj)
      rw [hpath]; simp; omega

theorem WF.isRoot_iff (wf : WF heap path) {j : Nat} {st : State α} (h : heap[j]? = some st) :
    st.isRoot = true ↔ j = 0 := by
  constructor
  · intro hr
    by_contra hj0
    obtain ⟨p, pst, c, hp, -⟩ := wf.parent j st h hj0
    simp [State.isRoot, hp] at hr
  · rintro rfl
    obtain ⟨r, hr, hrp⟩ := wf.root
    rw [h] at hr; cases hr; simp [State.isRoot, hrp]

end findState

section emplace

variable [LinearOrder α]

theorem mem_mapEmplace {k : α} {v : Nat} {m : List (α × Nat)} (hk : k ∉ m.map Prod.fst)
    (x : α × Nat) : x ∈ mapEmplace k v m ↔ x = (k, v) ∨ x ∈ m := by
  induction m with
  | nil => simp [mapEmplace]
  | cons e m ih =>
    simp only [List.map_cons, List.mem_cons, not_or] at hk
    unfold mapEmplace
    split_ifs with h1 h2
    · simp
    · exact absurd h2 hk.1
    · simp only [List.mem_cons, ih hk.2]; tauto

theorem keys_mapEmplace {k : α} {v : Nat} {m : List (α × Nat)} (hk : k ∉ m.map Prod.fst) :
    ((mapEmplace k v m).map Prod.fst).Perm (k :: m.map Prod.fst) := by
  induction m with
  | nil => simp [mapEmplace]
  | cons e m ih =>
    simp only [List.map_cons, List.mem_cons, not_or] at hk
    unfold mapEmplace
    split_ifs with h1 h2
    · simp
    · exact absurd h2 hk.1
    · simp only [List.map_cons]
      exact ((ih hk.2).cons e.1).trans (List.Perm.swap _ _ _)

theorem nodup_mapEmplace {k : α} {v : Nat} {m : List (α × Nat)} (hk : k ∉ m.map Prod.fst)
    (hn : (m.map Prod.fst).Nodup) : ((mapEmplace k v m).map Prod.fst).Nodup :=
  (keys_mapEmplace hk).nodup_iff.2 (List.nodup_cons.2 ⟨hk, hn⟩)

theorem lookup_mapEmplace {k : α} {v : Nat} {m : List (α × Nat)} (hk : k ∉ m.map Prod.fst)
    (hn : (m.map Prod.fst).Nodup) (c : α) :
    (mapEmplace k v m).lookup c = if c = k then some v else m.lookup c := by
  split_ifs with h
  · subst h
    exact mem_lookup (nodup_mapEmplace hk hn) ((mem_mapEmplace hk _).2 (Or.inl rfl))
  · cases hl : m.lookup c with
    | none =>
      rw [lookup_none] at hl ⊢
      intro hc
      have := (@keys_mapEmplace _ _ k v m hk).mem_iff.1 hc
      simp only [List.mem_cons] at this
      rcases this with h1 | h1
      · exact h h1
      · exact hl h1
    | some j =>
      exact mem_lookup (nodup_mapEmplace hk hn) ((mem_mapEmplace hk _).2 (Or.inr (lookup_mem hl)))

end emplace

theorem Ext.refl_ext (h : List (State α)) (path : Nat → List α) : Ext h path h path where
  length_le := le_refl _
  path_eq := fun _ _ => rfl
  old := fun k st hk => ⟨st, hk, rfl, rfl, rfl, rfl, fun _ hx => hx⟩
  fresh := fun k h1 h2 => absurd h2 (not_lt.2 h1)

theorem Ext.trans_ext {h1 h2 h3 : List (State α)} {p1 p2 p3 : Nat → List α}
    (e1 : Ext h1 p1 h2 p2) (e2 : Ext h2 p2 h3 p3) : Ext h1 p1 h3 p3 where
  length_le := le_trans e1.length_le e2.length_le
  path_eq := fun k hk => by
    rw [e2.path_eq k (lt_of_lt_of_le hk e1.length_le), e1.path_eq k hk]
  old := fun k st hk => by
    obtain ⟨st2, h2, a1, a2, a3, a4, a5⟩ := e1.old k st hk
    obtain ⟨st3, h3, b1, b2, b3, b4, b5⟩ := e2.old k st2 h2
    exact ⟨st3, h3, b1.trans a1, b2.trans a2, b3.trans a3, b4.trans a4,
      fun x hx => b5 x (a5 x hx)⟩
  fresh := fun k hk1 hk3 => by
    by_cases hk2 : k < h2.length
    · obtain ⟨st2, h2, a1, a2⟩ := e1.fresh k hk1 hk2
      obtain ⟨st3, h3, b1, b2, -⟩ := e2.old k st2 h2
      exact ⟨st3, h3, b1.trans a1, b2.trans a2⟩
    · exact e2.fresh k (not_lt.1 hk2) hk3

section addNext

variable [LinearOrder α] {heap : List (State α)} {path : Nat → List α}

theorem getElem?_set_append (h : List (State α)) (i : Nat) (st1 x : State α)
    (hi : i < h.length) (k : Nat) :
    ((h.set i st1) ++ [x])[k]? =
      if k = h.length then some x else if k = i then some st1 else h[k]? := by
  rw [List.getElem?_append, List.length_set]
  by_cases hk : k < h.length
  · rw [if_pos hk, if_neg (ne_of_lt hk), List.getElem?_set]
    by_cases hik : i = k
    · subst hik; simp [hi]
    · rw [if_neg hik, if_neg (Ne.symm hik)]
  · rw [if_neg hk]
    by_cases hk2 : k = h.length
    · subst hk2; simp
    · rw [if_neg hk2, if_neg (by omega)]
      have h1 : h.length ≤ k := not_lt.1 hk
      rw [List.getElem?_eq_none h1]
      have : 0 < k - h.length := by omega
      rw [List.getElem?_eq_none (by simp; omega)]

theorem addNext_eq {i : Nat} {c : α} {st : State α} (hi : heap[i]? = some st)
    (hc : st.m_next.lookup c = none) :
    State.addNext heap i c =
      ((heap.set i { st with m_next := mapEmplace c heap.length st.m_next })
          ++ [State.mkChild c i], heap.length) := by
  unfold State.addNext; rw [hi]; simp only [hc]

theorem WF.addNext (wf : WF heap path) {i : Nat} {c : α} {st : State α}
    (hi : heap[i]? = some st) (hc : st.m_next.lookup c = none) :
    WF (State.addNext heap i c).1 (Function.update path heap.length (path i ++ [c])) ∧
    Ext heap path (State.addNext heap i c).1 (Function.update path heap.length (path i ++ [c])) ∧
    (State.addNext heap i c).2 = heap.length ∧
    (State.addNext heap i c).1.length = heap.length + 1 := by
  have hilt : i < heap.length := (List.getElem?_eq_some.1 hi).1
  have hine : i ≠ heap.length := ne_of_lt hilt
  have hkey : c ∉ st.m_next.map Prod.fst := lookup_none.1 hc
  have hnd := wf.keys i st hi
  rw [addNext_eq hi hc]
  set st1 : State α := { st with m_next := mapEmplace c heap.length st.m_next } with hst1
  set n := heap.length with hn
  have hget := getElem?_set_append heap i st1 (State.mkChild c i) hilt
  have hpath : ∀ k, k < n → Function.update path n (path i ++ [c]) k = path k := by
    intro k hk; rw [Function.update_noteq (ne_of_lt hk)]
  have hpathn : Function.update path n (path i ++ [c]) n = path i ++ [c] := by simp
  -- how an old state looks in the new heap
  have hold : ∀ (k : Nat) (stk : State α), heap[k]? = some stk →
      ∃ st2 : State α, ((heap.set i st1) ++ [State.mkChild c i])[k]? = some st2 ∧
        st2.m_patterns = stk.m_patterns ∧ st2.m_failTransition = stk.m_failTransition ∧
        st2.m_parent = stk.m_parent ∧ st2.m_label = stk.m_label ∧
        (∀ x ∈ stk.m_next, x ∈ st2.m_next) ∧
        (∀ c1, stk.m_next.lookup c1 ≠ none →
          st2.m_next.lookup c1 = stk.m_next.lookup c1) := by
    intro k stk hk
    have hklt : k < n := (List.getElem?_eq_some.1 hk).1
    rw [hget, if_neg (ne_of_lt hklt)]
    by_cases hki : k = i
    · subst hki
      rw [hi] at hk; cases hk
      refine ⟨st1, by simp, rfl, rfl, rfl, rfl, ?_, ?_⟩
      · intro x hx; exact (mem_mapEmplace hkey x).2 (Or.inr hx)
      · intro c1 hc1
        show (mapEmplace c n st.m_next).lookup c1 = _
        rw [lookup_mapEmplace hkey hnd, if_neg]
        rintro rfl; exact hc1 hc
    · exact ⟨stk, by simp [hki, hk], rfl, rfl, rfl, rfl, fun _ hx => hx, fun _ _ => rfl⟩
  refine ⟨⟨?_, ?_, ?_, ?_, ?_⟩, ⟨?_, ?_, ?_, ?_⟩, rfl, by simp [hn]⟩
  · -- root
    obtain ⟨r, hr, hrp⟩ := wf.root
    obtain ⟨r2, hr2, -, -, hp2, -⟩ := hold 0 r hr
    exact ⟨r2, hr2, hp2.trans hrp⟩
  · rw [hpath 0 wf.length_pos]; exact wf.path_root
  · -- parent
    intro j stj hj hj0
    rw [hget] at hj
    by_cases hjn : j = n
    · subst hjn
      rw [if_pos rfl] at hj; cases hj
      refine ⟨i, st1, c, rfl, rfl, hilt, by rw [hget]; simp [hine], ?_, ?_⟩
      · show (mapEmplace c n st.m_next).lookup c = _
        rw [lookup_mapEmplace hkey hnd, if_pos rfl]
      · rw [hpathn, hpath i hilt]
    · rw [if_neg hjn] at hj
      have hjlt : j < n := by
        by_cases hji : j = i
        · rw [hji]; exact hilt
        · rw [if_neg hji] at hj; exact (List.getElem?_eq_some.1 hj).1
      obtain ⟨p, pst, c1, hp1, hl1, hpj, hp, hl, hpp⟩ :=
        wf.parent j _ (List.getElem?_eq_getElem hjlt) hj0
      obtain ⟨pst2, hp2, -, -, -, -, -, hlk⟩ := hold p pst hp
      have hstj : stj.m_parent = (heap[j]).m_parent ∧ stj.m_label = (heap[j]).m_label := by
        by_cases hji : j = i
        · subst hji
          rw [if_pos rfl] at hj; cases hj
          have : heap[j] = st := by
            rw [List.getElem?_eq_getElem hjlt] at hi; exact Option.some.inj hi
          rw [this]; exact ⟨rfl, rfl⟩
        · rw [if_neg hji, List.getElem?_eq_getElem hjlt] at hj
          cases hj; exact ⟨rfl, rfl⟩
      refine ⟨p, pst2, c1, hstj.1.trans hp1, hstj.2.trans hl1, hpj, hp2, ?_, ?_⟩
      · rw [hlk c1 (by rw [hl]; simp), hl]
      · rw [hpath j hjlt, hpath p (lt_trans hpj hjlt), hpp]
  · -- child
    intro k stk c1 j hk hmem
    rw [hget] at hk
    by_cases hkn : k = n
    · rw [if_pos hkn] at hk; cases hk; simp [State.mkChild] at hmem
    · rw [if_neg hkn] at hk
      have key : ∀ stk0 : State α, heap[k]? = some stk0 → (c1, j) ∈ stk0.m_next →
          ∃ stj : State α, ((heap.set i st1) ++ [State.mkChild c i])[j]? = some stj ∧
            stj.m_parent = some k ∧ stj.m_label = some c1 := by
        intro stk0 hk0 hm0
        obtain ⟨stj, hj, hjp, hjl⟩ := wf.child k stk0 c1 j hk0 hm0
        obtain ⟨stj2, hj2, -, -, hp2, hl2, -⟩ := hold j stj hj
        exact ⟨stj2, hj2, hp2.trans hjp, hl2.trans hjl⟩
      by_cases hki : k = i
      · subst hki
        rw [if_pos rfl] at hk; cases hk
        rcases (mem_mapEmplace hkey _).1 hmem with h1 | h1
        · cases h1
          exact ⟨State.mkChild c k, by rw [hget, if_pos rfl], rfl, rfl⟩
        · exact key st hi h1
      · rw [if_neg hki] at hk
        exact key stk hk hmem
  · -- keys
    intro k stk hk
    rw [hget] at hk
    by_cases hkn : k = n
    · rw [if_pos hkn] at hk; cases hk; simp [State.mkChild]
    · rw [if_neg hkn] at hk
      by_cases hki : k = i
      · rw [if_pos hki] at hk; cases hk
        exact nodup_mapEmplace hkey hnd
      · rw [if_neg hki] at hk
        exact wf.keys k stk hk
  · simp
  · exact hpath
  · intro k stk hk
    obtain ⟨st2, h2, a1, a2, a3, a4, a5, -⟩ := hold k stk hk
    exact ⟨st2, h2, a1, a2, a3, a4, a5⟩
  · intro k hk1 hk2
    have hkn : k = n := by
      simp only [List.length_append, List.length_set, List.length_singleton] at hk2; omega
    subst hkn
    exact ⟨State.mkChild c i, by rw [hget, if_pos rfl], rfl, rfl⟩

theorem WF.updateChain (wf : WF heap path) (π : List α) {i : Nat} (hi : i < heap.length) :
    ∃ path2 : Nat → List α,
      WF (updateChain π heap i).1 path2 ∧ Ext heap path (updateChain π heap i).1 path2 ∧
      (updateChain π heap i).2 < (updateChain π heap i).1.length ∧
      path2 (updateChain π heap i).2 = path i ++ π := by
  induction π generalizing heap path i with
  | nil => exact ⟨path, wf, Ext.refl_ext _ _, hi, by simp [AhoCorasick.updateChain]⟩
  | cons c cs ih =>
    simp only [AhoCorasick.updateChain]
    cases hn : findNext heap i c with
    | some n =>
      simp only
      obtain ⟨hnlt, -, hp⟩ := wf.findNext_spec hn
      obtain ⟨path2, w2, e2, hlt, hpath⟩ := ih wf hnlt
      exact ⟨path2, w2, e2, hlt, by rw [hpath, hp]; simp⟩
    | none =>
      simp only
      have hget := List.getElem?_eq_getElem hi
      have hc : (heap[i]).m_next.lookup c = none := by
        unfold findNext at hn; rw [hget] at hn; exact hn
      obtain ⟨w1, e1, h2, hlen⟩ := wf.addNext hget hc
      have hi2 : (State.addNext heap i c).2 < (State.addNext heap i c).1.length := by
        rw [h2, hlen]; exact Nat.lt_succ_self _
      obtain ⟨path2, w2, e2, hlt, hpath⟩ := ih w1 hi2
      refine ⟨path2, w2, e1.trans_ext e2, hlt, ?_⟩
      rw [hpath, h2]; simp

end addNext

section shape

variable [LinearOrder α] {h1 h2 : List (State α)} {path : Nat → List α}

theorem SameShape.refl_shape (h : List (State α)) : SameShape h h :=
  ⟨rfl, fun _ st hk => ⟨st, hk, rfl, rfl, rfl⟩⟩

theorem SameShape.symm (s : SameShape h1 h2) : SameShape h2 h1 := by
  refine ⟨s.1.symm, fun k st2 hk => ?_⟩
  have hklt : k < h1.length := by rw [s.1]; exact (List.getElem?_eq_some.1 hk).1
  obtain ⟨st2', h2', a, b, c⟩ := s.2 k _ (List.getElem?_eq_getElem hklt)
  rw [hk] at h2'; cases h2'
  exact ⟨_, List.getElem?_eq_getElem hklt, a.symm, b.symm, c.symm⟩

theorem SameShape.trans_shape {h3 : List (State α)} (s : SameShape h1 h2) (t : SameShape h2 h3) :
    SameShape h1 h3 := by
  refine ⟨s.1.trans t.1, fun k st1 hk => ?_⟩
  obtain ⟨st2, hk2, a, b, c⟩ := s.2 k st1 hk
  obtain ⟨st3, hk3, a3, b3, c3⟩ := t.2 k st2 hk2
  exact ⟨st3, hk3, a3.trans a, b3.trans b, c3.trans c⟩

theorem SameShape.set (h : List (State α)) {j : Nat} {st st1 : State α}
    (hj : h[j]? = some st) (hl : st1.m_label = st.m_label) (hp : st1.m_parent = st.m_parent)
    (hn : st1.m_next = st.m_next) : SameShape h (h.set j st1) := by
  refine ⟨by simp, fun k stk hk => ?_⟩
  rw [List.getElem?_set]
  by_cases hjk : j = k
  · subst hjk
    rw [hj] at hk; cases hk
    rw [if_pos rfl, if_pos (List.getElem?_eq_some.1 hj).1]
    exact ⟨st1, rfl, hl, hp, hn⟩
  · rw [if_neg hjk]; exact ⟨stk, hk, rfl, rfl, rfl⟩

theorem WF.of_sameShape (wf : WF h1 path) (s : SameShape h1 h2) : WF h2 path := by
  have s' := s.symm
  refine ⟨?_, wf.path_root, ?_, ?_, ?_⟩
  · obtain ⟨r, hr, hrp⟩ := wf.root
    obtain ⟨r2, hr2, -, hp, -⟩ := s.2 0 r hr
    exact ⟨r2, hr2, hp.trans hrp⟩
  · intro j st2 hj hj0
    obtain ⟨st1, hj1, a, b, c⟩ := s'.2 j st2 hj
    obtain ⟨p, pst, c1, x1, x2, x3, x4, x5, x6⟩ := wf.parent j st1 hj1 hj0
    obtain ⟨pst2, hp2, -, -, cn⟩ := s.2 p pst x4
    exact ⟨p, pst2, c1, by rw [← b, x1], by rw [← a, x2], x3, hp2, by rw [cn, x5], x6⟩
  · intro i st2 c j hi hm
    obtain ⟨st1, hi1, a, b, cn⟩ := s'.2 i st2 hi
    obtain ⟨stj, hj, y1, y2⟩ := wf.child i st1 c j hi1 (by rw [cn]; exact hm)
    obtain ⟨stj2, hj2, a2, b2, -⟩ := s.2 j stj hj
    exact ⟨stj2, hj2, b2.trans y1, a2.trans y2⟩
  · intro i st2 hi
    obtain ⟨st1, hi1, -, -, cn⟩ := s'.2 i st2 hi
    rw [← cn]; exact wf.keys i st1 hi1

theorem SameShape.findNext (s : SameShape h1 h2) (i : Nat) (c : α) :
    findNext h2 i c = findNext h1 i c := by
  unfold AhoCorasick.findNext
  cases hi : h1[i]? with
  | none =>
    have : h2[i]? = none := by
      rw [List.getElem?_eq_none_iff] at hi ⊢; rw [← s.1]; exact hi
    rw [this]
  | some st =>
    obtain ⟨st2, hi2, -, -, cn⟩ := s.2 i st hi
    rw [hi2]; simp only [cn]

theorem SameShape.findState (s : SameShape h1 h2) (π : List α) (i : Nat) :
    findState h2 π i = findState h1 π i := by
  induction π generalizing i with
  | nil => rfl
  | cons c cs ih =>
    simp only [AhoCorasick.findState, s.findNext]
    cases AhoCorasick.findNext h1 i c with
    | none => rfl
    | some n => exact ih n

theorem SameShape.longestSuffixState (s : SameShape h1 h2) (π : List α) :
    longestSuffixState h2 π = longestSuffixState h1 π := by
  induction π with
  | nil => rfl
  | cons c cs ih =>
    simp only [AhoCorasick.longestSuffixState, s.findState, ih]

end shape

section addPattern

variable [LinearOrder α] {a : AhoCorasick α} {path : Nat → List α}

theorem addPattern_nil (wf : WF a.heap path) : a.addPattern [] = a := by
  obtain ⟨r, hr, hrp⟩ := wf.root
  unfold addPattern
  simp only [updateChain, hr, State.isRoot, hrp, Option.isNone_none, if_true]

/-- The effect of `addPattern` with a non-empty pattern, state by state. -/
theorem addPattern_cons (wf : WF a.heap path) (rf : ∀ r : State α, a.heap[0]? = some r →
    r.m_failTransition = some 0) {p : List α} (hp : p ≠ []) :
    ∃ (path1 : Nat → List α) (j : Nat),
      WF (a.addPattern p).heap path1 ∧
      (a.addPattern p).m_patterns = a.m_patterns ++ [p] ∧
      (a.addPattern p).m_prepaired = false ∧
      a.heap.length ≤ (a.addPattern p).heap.length ∧
      j < (a.addPattern p).heap.length ∧ path1 j = p ∧
      (∀ k, k < a.heap.length → path1 k = path k) ∧
      (∀ r : State α, (a.addPattern p).heap[0]? = some r → r.m_failTransition = some 0) ∧
      (∀ (k : Nat) (st0 : State α), a.heap[k]? = some st0 →
        ∃ st2 : State α, (a.addPattern p).heap[k]? = some st2 ∧
          st2.m_patterns = st0.m_patterns ++ (if k = j then [p] else [])) ∧
      (∀ (k : Nat) (st2 : State α), (a.addPattern p).heap[k]? = some st2 →
          a.heap.length ≤ k →
          st2.m_patterns = (if k = j then [p] else [])) := by
  obtain ⟨path1, w1, e1, hlt, hpath⟩ := wf.updateChain p wf.length_pos
  rw [wf.path_root, List.nil_append] at hpath
  set r := updateChain p a.heap 0 with hr
  have hget := List.getElem?_eq_getElem hlt
  have hj0 : r.2 ≠ 0 := by
    intro h0
    have := (w1.path_eq_nil hlt).2 h0
    rw [hpath] at this; exact hp this
  have hroot : (r.1[r.2]).isRoot = false := by
    cases hb : (r.1[r.2]).isRoot with
    | false => rfl
    | true => exact absurd ((w1.isRoot_iff hget).1 hb) hj0
  have heq : a.addPattern p =
      { m_patterns := a.m_patterns ++ [p],
        heap := r.1.set r.2 { r.1[r.2] with m_patterns := (r.1[r.2]).m_patterns ++ [p] },
        m_prepaired := false } := by
    unfold addPattern
    simp only [← hr, hget, hroot, Bool.false_eq_true, if_false]
  have hshape : SameShape r.1 (a.addPattern p).heap := by
    rw [heq]; exact SameShape.set r.1 hget rfl rfl rfl
  have hnew : ∀ (k : Nat) (st1 : State α), r.1[k]? = some st1 →
      ∃ st2 : State α, (a.addPattern p).heap[k]? = some st2 ∧
        st2.m_patterns = st1.m_patterns ++ (if k = r.2 then [p] else []) ∧
        st2.m_failTransition = st1.m_failTransition := by
    intro k st1 hk
    rw [heq]; simp only [List.getElem?_set]
    by_cases hjk : r.2 = k
    · subst hjk
      rw [hget] at hk; cases hk
      rw [if_pos rfl, if_pos hlt]
      exact ⟨_, rfl, by simp, rfl⟩
    · rw [if_neg hjk, if_neg (Ne.symm hjk)]
      exact ⟨st1, hk, by simp, rfl⟩
  refine ⟨path1, r.2, w1.of_sameShape hshape, by rw [heq], by rw [heq], ?_, ?_, hpath,
    e1.path_eq, ?_, ?_, ?_⟩
  · rw [← hshape.1]; exact e1.length_le
  · rw [← hshape.1]; exact hlt
  · intro r2 hr2
    obtain ⟨r0, hr0, -⟩ := wf.root
    obtain ⟨r1, hr1, -, hf1, -⟩ := e1.old 0 r0 hr0
    obtain ⟨r2', hr2', -, hf2⟩ := hnew 0 r1 hr1
    rw [hr2] at hr2'; cases hr2'
    rw [hf2, hf1]; exact rf r0 hr0
  · intro k st0 hk
    obtain ⟨st1, hk1, hp1, -⟩ := e1.old k st0 hk
    obtain ⟨st2, hk2, hp2, -⟩ := hnew k st1 hk1
    exact ⟨st2, hk2, by rw [hp2, hp1]⟩
  · intro k st2 hk2 hle
    have hklt : k < r.1.length := by rw [hshape.1]; exact (List.getElem?_eq_some.1 hk2).1
    obtain ⟨st1, hk1, hp1, -⟩ := e1.fresh k hle hklt
    obtain ⟨st2', hk2', hp2, -⟩ := hnew k st1 hk1
    rw [hk2] at hk2'; cases hk2'
    rw [hp2, hp1]; simp

theorem Inv.init_inv : Inv (AhoCorasick.new : AhoCorasick α) (fun _ => []) where
  wf := {
    root := ⟨State.root, rfl, rfl⟩
    path_root := rfl
    parent := fun j st hj hj0 => by
      have : j < 1 := (List.getElem?_eq_some.1 hj).1
      omega
    child := fun i st c j hi hm => by
      have h1 : i < 1 := (List.getElem?_eq_some.1 hi).1
      have h0 : i = 0 := by omega
      subst h0
      simp [AhoCorasick.new, State.root] at hi
      subst hi; simp at hm
    keys := fun i st hi => by
      have h1 : i < 1 := (List.getElem?_eq_some.1 hi).1
      have h0 : i = 0 := by omega
      subst h0
      simp [AhoCorasick.new, State.root] at hi
      subst hi; simp }
  nonempty := by simp [AhoCorasick.new]
  rootFail := fun r hr => by
    simp [AhoCorasick.new, State.root] at hr
    subst hr; rfl
  own := fun q hq => by simp [AhoCorasick.new] at hq
  sound := fun j st q hj hq => by
    have h1 : j < 1 := (List.getElem?_eq_some.1 hj).1
    have h0 : j = 0 := by omega
    subst h0
    simp [AhoCorasick.new, State.root] at hj
    subst hj; simp at hq
  prepared := fun h => by simp [AhoCorasick.new] at h

theorem Fresh.init_fresh : Fresh (AhoCorasick.new : AhoCorasick α) (fun _ => []) where
  wf := Inv.init_inv.wf
  nonempty := Inv.init_inv.nonempty
  rootFail := Inv.init_inv.rootFail
  node := fun q hq => by simp [AhoCorasick.new] at hq
  outputs := fun j st hj => by
    have h1 : j < 1 := (List.getElem?_eq_some.1 hj).1
    have h0 : j = 0 := by omega
    subst h0
    simp [AhoCorasick.new, State.root] at hj
    subst hj; simp [AhoCorasick.new]
  flag := rfl

theorem Inv.addPattern_inv (inv : Inv a path) (p : List α) :
    ∃ path1 : Nat → List α, Inv (a.addPattern p) path1 := by
  by_cases hp : p = []
  · subst hp; rw [addPattern_nil inv.wf]; exact ⟨path, inv⟩
  obtain ⟨path1, j, w1, hpats, hflag, hlen, hjlt, hpj, hpath, hrf, hold, hfresh⟩ :=
    addPattern_cons inv.wf inv.rootFail hp
  have hstate : ∀ (k : Nat) (st2 : State α), (a.addPattern p).heap[k]? = some st2 →
      ∀ q ∈ st2.m_patterns, (k < a.heap.length ∧ ∃ st0 : State α, a.heap[k]? = some st0 ∧
        q ∈ st0.m_patterns) ∨ (k = j ∧ q = p) := by
    intro k st2 hk2 q hq
    by_cases hk : k < a.heap.length
    · obtain ⟨st2', hk2', hp2⟩ := hold k _ (List.getElem?_eq_getElem hk)
      rw [hk2] at hk2'; cases hk2'
      rw [hp2, List.mem_append] at hq
      rcases hq with hq | hq
      · exact Or.inl ⟨hk, _, List.getElem?_eq_getElem hk, hq⟩
      · split_ifs at hq with hkj
        · exact Or.inr ⟨hkj, by simpa using hq⟩
        · simp at hq
    · rw [hfresh k st2 hk2 (not_lt.1 hk)] at hq
      split_ifs at hq with hkj
      · exact Or.inr ⟨hkj, by simpa using hq⟩
      · simp at hq
  refine ⟨path1, ⟨w1, ?_, hrf, ?_, ?_, ?_⟩⟩
  · rw [hpats]; simp only [List.mem_append, List.mem_singleton, not_or]
    exact ⟨inv.nonempty, fun h => hp h.symm⟩
  · intro q hq
    rw [hpats, List.mem_append, List.mem_singleton] at hq
    rcases hq with hq | rfl
    · obtain ⟨k, st0, hk, hpk, hqm⟩ := inv.own q hq
      obtain ⟨st2, hk2, hp2⟩ := hold k st0 hk
      exact ⟨k, st2, hk2, by rw [hpath k (List.getElem?_eq_some.1 hk).1, hpk],
        by rw [hp2]; exact List.mem_append_left _ hqm⟩
    · have hget := List.getElem?_eq_getElem hjlt
      refine ⟨j, _, hget, hpj, ?_⟩
      by_cases hk : j < a.heap.length
      · obtain ⟨st2, hk2, hp2⟩ := hold j _ (List.getElem?_eq_getElem hk)
        rw [hget] at hk2; cases hk2
        rw [hp2]; simp
      · rw [hfresh j _ hget (not_lt.1 hk)]; simp
  · intro k st2 q hk2 hq
    rw [hpats]
    rcases hstate k st2 hk2 q hq with ⟨hk, st0, hk0, hq0⟩ | ⟨rfl, rfl⟩
    · obtain ⟨h1, h2⟩ := inv.sound k st0 q hk0 hq0
      exact ⟨List.mem_append_left _ h1, by rw [hpath k hk]; exact h2⟩
    · exact ⟨by simp, by rw [hpj]⟩
  · intro h; rw [hflag] at h; cases h

theorem Fresh.addPattern_fresh (inv : Fresh a path) (p : List α) :
    ∃ path1 : Nat → List α, Fresh (a.addPattern p) path1 ∧
      (a.addPattern p).m_patterns = a.m_patterns ++ (if p = [] then [] else [p]) := by
  by_cases hp : p = []
  · subst hp; rw [addPattern_nil inv.wf]; exact ⟨path, inv, by simp⟩
  obtain ⟨path1, j, w1, hpats, hflag, hlen, hjlt, hpj, hpath, hrf, hold, hfresh⟩ :=
    addPattern_cons inv.wf inv.rootFail hp
  have hinj : ∀ k, k < (a.addPattern p).heap.length → (path1 k = p ↔ k = j) := by
    intro k hk
    constructor
    · intro h; exact w1.path_inj hk hjlt (by rw [h, hpj])
    · rintro rfl; exact hpj
  have hnone : ∀ k, k < (a.addPattern p).heap.length → a.heap.length ≤ k →
      a.m_patterns.filter (fun q => decide (q = path1 k)) = [] := by
    intro k hk hle
    rw [List.filter_eq_nil_iff]
    intro q hq hd
    have hd : q = path1 k := by simpa using hd
    obtain ⟨k0, hk0, hp0⟩ := inv.node q hq
    have := w1.path_inj (lt_of_lt_of_le hk0 hlen) hk (by rw [hpath k0 hk0, hp0, hd])
    omega
  refine ⟨path1, ⟨w1, ?_, hrf, ?_, ?_, hflag⟩, by rw [hpats, if_neg hp]⟩
  · rw [hpats]; simp only [List.mem_append, List.mem_singleton, not_or]
    exact ⟨inv.nonempty, fun h => hp h.symm⟩
  · intro q hq
    rw [hpats, List.mem_append, List.mem_singleton] at hq
    rcases hq with hq | rfl
    · obtain ⟨k0, hk0, hp0⟩ := inv.node q hq
      exact ⟨k0, lt_of_lt_of_le hk0 hlen, by rw [hpath k0 hk0, hp0]⟩
    · exact ⟨j, hjlt, hpj⟩
  · intro k st2 hk2
    have hklt := (List.getElem?_eq_some.1 hk2).1
    rw [hpats, List.filter_append]
    have hlast : List.filter (fun q => decide (q = path1 k)) [p] = if k = j then [p] else [] := by
      by_cases hkj : k = j
      · subst hkj; simp [hpj]
      · have : ¬ p = path1 k := fun h => hkj ((hinj k hklt).1 h.symm)
        simp [hkj, this]
    rw [hlast]
    by_cases hk : k < a.heap.length
    · obtain ⟨st2', hk2', hp2⟩ := hold k _ (List.getElem?_eq_getElem hk)
      rw [hk2] at hk2'; cases hk2'
      rw [hp2, inv.outputs k _ (List.getElem?_eq_getElem hk), hpath k hk]
    · rw [hfresh k st2 hk2 (not_lt.1 hk), hnone k hklt (not_lt.1 hk)]; simp

end addPattern

section lss

variable [LinearOrder α] {heap : List (State α)} {path : Nat → List α}

theorem WF.lss_spec (wf : WF heap path) (σ : List α) :
    longestSuffixState heap σ < heap.length ∧ path (longestSuffixState heap σ) <:+ σ := by
  induction σ with
  | nil => exact ⟨wf.length_pos, by rw [longestSuffixState, wf.path_root]⟩
  | cons c cs ih =>
    unfold longestSuffixState
    cases hf : findState heap (c :: cs) 0 with
    | none => exact ⟨ih.1, ih.2.trans (List.suffix_cons _ _)⟩
    | some t =>
      obtain ⟨h1, h2⟩ := wf.findState_iff.1 hf
      exact ⟨h1, by simp only [h2]; exact List.suffix_refl _⟩

theorem WF.lss_max (wf : WF heap path) (σ : List α) {k : Nat} (hk : k < heap.length)
    (hs : path k <:+ σ) : path k <:+ path (longestSuffixState heap σ) := by
  induction σ with
  | nil =>
    rw [longestSuffixState, wf.path_root]; exact hs
  | cons c cs ih =>
    unfold longestSuffixState
    cases hf : findState heap (c :: cs) 0 with
    | none =>
      simp only
      rcases List.suffix_cons_iff.1 hs with h1 | h1
      · rw [← h1, wf.findState_of_path k hk] at hf; cases hf
      · exact ih h1
    | some t =>
      obtain ⟨-, h2⟩ := wf.findState_iff.1 hf
      simp only [h2]; exact hs

theorem WF.lss_path (wf : WF heap path) {k : Nat} (hk : k < heap.length) :
    longestSuffixState heap (path k) = k := by
  have h1 := wf.lss_spec (path k)
  have h2 := wf.lss_max (path k) hk (List.suffix_refl _)
  exact wf.path_inj h1.1 hk (h1.2.eq_of_length_le h2.length_le)

theorem WF.lss_eq_zero (wf : WF heap path) {σ : List α}
    (h : longestSuffixState heap σ = 0) {k : Nat} (hk : k < heap.length)
    (hs : path k <:+ σ) : k = 0 := by
  have := wf.lss_max σ hk hs
  rw [h, wf.path_root] at this
  exact (wf.path_eq_nil hk).1 (List.suffix_nil.1 this)

/-- Appending an element: the longest suffix of `ρ ++ [c]` in the trie extends a suffix
of the longest suffix of `ρ` in the trie. -/
theorem WF.lss_append (wf : WF heap path) (ρ : List α) (c : α) :
    longestSuffixState heap (ρ ++ [c]) =
      longestSuffixState heap (path (longestSuffixState heap ρ) ++ [c]) := by
  induction ρ with
  | nil => rw [longestSuffixState, wf.path_root]
  | cons e ρ ih =>
    cases hf : findState heap (e :: ρ) 0 with
    | some t =>
      obtain ⟨-, h2⟩ := wf.findState_iff.1 hf
      rw [show longestSuffixState heap (e :: ρ) = t by
        simp only [longestSuffixState, hf], h2]
    | none =>
      have h1 : longestSuffixState heap (e :: ρ) = longestSuffixState heap ρ := by
        simp only [longestSuffixState, hf]
      have h2 : findState heap (e :: ρ ++ [c]) 0 = none := by
        rw [findState_append, hf]; rfl
      rw [h1, ← ih]
      simp only [List.cons_append] at h2 ⊢
      simp only [longestSuffixState, h2]

end lss

section prepareState

variable [LinearOrder α] {heap : List (State α)} {path : Nat → List α}

theorem WF.failSuffix (wf : WF heap path) (fuel : Nat) (j : Nat) (acc : List α)
    (hj : j < heap.length) (hj0 : j ≠ 0) (hf : (path j).length ≤ fuel) :
    failSuffix heap fuel j acc = some ((path j).tail ++ acc) := by
  induction fuel generalizing j acc with
  | zero =>
    have : path j = [] := List.length_eq_zero.1 (Nat.le_zero.1 hf)
    exact absurd ((wf.path_eq_nil hj).1 this) hj0
  | succ fuel ih =>
    have hget := List.getElem?_eq_getElem hj
    obtain ⟨p, pst, c, hp1, hl1, hpj, hp, hl, hpp⟩ := wf.parent j _ hget hj0
    have hplt : p < heap.length := lt_trans hpj hj
    unfold AhoCorasick.failSuffix
    simp only [hget, hp1, hp, hl1]
    by_cases hp0 : p = 0
    · have hr : pst.isRoot = true := (wf.isRoot_iff hp).2 hp0
      rw [if_pos hr, hpp, hp0, wf.path_root]; rfl
    · have hr : ¬ pst.isRoot = true := fun h => hp0 ((wf.isRoot_iff hp).1 h)
      rw [if_neg hr]
      have hne : path p ≠ [] := fun h => hp0 ((wf.path_eq_nil hplt).1 h)
      rw [ih p (c :: acc) hplt hp0 (by rw [hpp] at hf; simp at hf; omega), hpp]
      rw [List.tail_append_of_ne_nil hne]; simp

theorem WF.prepareStateLoop (wf : WF heap path)
    (hroot : ∀ r : State α, heap[0]? = some r → r.m_patterns = [])
    (j : Nat) (st : State α) (σ : List α) :
    ∃ tst : State α, heap[longestSuffixState heap σ]? = some tst ∧
      prepareStateLoop heap j st σ = some (heap.set j
        { st with m_failTransition := some (longestSuffixState heap σ),
                  m_patterns := st.m_patterns ++ tst.m_patterns }) := by
  induction σ with
  | nil =>
    obtain ⟨r, hr, -⟩ := wf.root
    refine ⟨r, hr, ?_⟩
    simp only [AhoCorasick.prepareStateLoop, longestSuffixState, hroot r hr, List.append_nil]
  | cons c cs ih =>
    unfold AhoCorasick.prepareStateLoop longestSuffixState
    cases hf : findState heap (c :: cs) 0 with
    | none => exact ih
    | some t =>
      obtain ⟨ht, -⟩ := wf.findState_iff.1 hf
      refine ⟨heap[t], List.getElem?_eq_getElem ht, ?_⟩
      simp only [List.getElem?_eq_getElem ht]

theorem WF.prepareState (wf : WF heap path)
    (hroot : ∀ r : State α, heap[0]? = some r → r.m_patterns = [])
    {j : Nat} {st : State α} (hj : heap[j]? = some st) (hj0 : j ≠ 0) :
    ∃ tst : State α, heap[longestSuffixState heap (path j).tail]? = some tst ∧
      prepareState heap j = some (heap.set j
        { st with m_failTransition := some (longestSuffixState heap (path j).tail),
                  m_patterns := st.m_patterns ++ tst.m_patterns }) := by
  have hjlt : j < heap.length := (List.getElem?_eq_some.1 hj).1
  obtain ⟨p, pst, c, hp1, hl1, hpj, hp, hl, hpp⟩ := wf.parent j st hj hj0
  have hnr : ¬ st.isRoot = true := fun h => hj0 ((wf.isRoot_iff hj).1 h)
  unfold AhoCorasick.prepareState
  simp only [hj, if_neg hnr, hp1, hp]
  by_cases hp0 : p = 0
  · have hr : pst.isRoot = true := (wf.isRoot_iff hp).2 hp0
    obtain ⟨r, hr0, -⟩ := wf.root
    rw [if_pos hr]
    have : (path j).tail = [] := by rw [hpp, hp0, wf.path_root]; rfl
    refine ⟨r, by rw [this]; exact hr0, ?_⟩
    simp only [this, longestSuffixState, hroot r hr0, List.append_nil]
  · have hr : ¬ pst.isRoot = true := fun h => hp0 ((wf.isRoot_iff hp).1 h)
    rw [if_neg hr, wf.failSuffix heap.length j [] hjlt hj0
      (le_trans (wf.path_length_le j hjlt) (le_of_lt hjlt))]
    simp only [List.append_nil]
    obtain ⟨tst, h1, h2⟩ := wf.prepareStateLoop hroot j st (path j).tail
    exact ⟨tst, h1, by simpa only [hp1] using h2⟩

end prepareState

section traversal

variable [LinearOrder α] {h0 : List (State α)} {path : Nat → List α}

theorem WF.inSub_self (wf : WF h0 path) {i L : Nat} (hi : i < h0.length)
    (hL : (path i).length = L) (k : Nat) : InSub h0.length path i L k ↔ k = i := by
  constructor
  · rintro ⟨hk, hlen, hpre⟩
    exact wf.path_inj hk hi (hpre.eq_of_length (hL.trans hlen.symm)).symm
  · rintro rfl; exact ⟨hi, hL, List.prefix_refl _⟩

theorem WF.mem_next (wf : WF h0 path) {i : Nat} {st : State α} (hi : h0[i]? = some st)
    {x : α × Nat} (hx : x ∈ st.m_next) :
    x.2 < h0.length ∧ x.2 ≠ 0 ∧ path x.2 = path i ++ [x.1] :=
  wf.findNext_spec (findNext_of_lookup hi (mem_lookup (wf.keys i st hi) hx))

theorem WF.inSub_child (wf : WF h0 path) {i L : Nat} {st : State α} (hi : h0[i]? = some st)
    (hL : (path i).length < L) {k : Nat} (hk : InSub h0.length path i L k) :
    ∃ x ∈ st.m_next, InSub h0.length path x.2 L k := by
  obtain ⟨hklt, hlen, ρ, hρ⟩ := hk
  have hilt : i < h0.length := (List.getElem?_eq_some.1 hi).1
  cases ρ with
  | nil => rw [List.append_nil] at hρ; rw [hρ] at hL; omega
  | cons c ρ =>
    have hf := wf.findState_of_path k hklt
    rw [← hρ, findState_append, wf.findState_of_path i hilt] at hf
    simp only [Option.some_bind, findState] at hf
    cases hn : findNext h0 i c with
    | none => rw [hn] at hf; cases hf
    | some j =>
      obtain ⟨st', hi', hl⟩ := findNext_eq_some hn
      rw [hi] at hi'; cases hi'
      obtain ⟨-, -, hpj⟩ := wf.findNext_spec hn
      refine ⟨(c, j), lookup_mem hl, hklt, hlen, ρ, ?_⟩
      rw [← hρ, hpj]; simp

theorem WF.inSub_of_child (wf : WF h0 path) {i L : Nat} {st : State α}
    (hi : h0[i]? = some st) {x : α × Nat} (hx : x ∈ st.m_next) {k : Nat}
    (hk : InSub h0.length path x.2 L k) : InSub h0.length path i L k := by
  obtain ⟨hklt, hlen, hpre⟩ := hk
  refine ⟨hklt, hlen, List.IsPrefix.trans ?_ hpre⟩
  rw [(wf.mem_next hi hx).2.2]; exact List.prefix_append _ _

theorem WF.inSub_disjoint (wf : WF h0 path) {i L : Nat} {st : State α}
    (hi : h0[i]? = some st) {x y : α × Nat} (hx : x ∈ st.m_next) (hy : y ∈ st.m_next)
    (hne : x.1 ≠ y.1) {k : Nat} (hk : InSub h0.length path x.2 L k) :
    ¬ InSub h0.length path y.2 L k := by
  rintro ⟨-, -, hy2⟩
  obtain ⟨-, -, hx2⟩ := hk
  rw [(wf.mem_next hi hx).2.2] at hx2
  rw [(wf.mem_next hi hy).2.2] at hy2
  have := List.prefix_of_prefix_length_le hx2 hy2 (by simp)
  have h2 := this.eq_of_length (by simp)
  have h3 := List.append_cancel_left h2
  simp at h3; exact hne h3

theorem Done.frame {h h1 : List (State α)} {k : Nat} (d : Done h0 h path k)
    (hk : h1[k]? = h[k]?)
    (ht : h1[longestSuffixState h0 (path k).tail]? = h[longestSuffixState h0 (path k).tail]?) :
    Done h0 h1 path k := by
  obtain ⟨st0, st, tst, a, b, c, d, e⟩ := d
  exact ⟨st0, st, tst, a, hk.trans b, ht.trans c, d, e⟩

theorem WF.target_not_inSub (wf : WF h0 path) {i L k : Nat}
    (hk : k < h0.length) (hk0 : k ≠ 0) (hL : (path k).length = L) :
    ¬ InSub h0.length path i L (longestSuffixState h0 (path k).tail) := by
  rintro ⟨-, hlen, -⟩
  have h1 := ((wf.lss_spec (path k).tail).2).length_le
  have : path k ≠ [] := fun h => hk0 ((wf.path_eq_nil hk).1 h)
  have h2 : (path k).tail.length = (path k).length - 1 := List.length_tail _
  have h3 : 0 < (path k).length := List.length_pos.2 this
  omega

theorem WF.root_not_inSub (wf : WF h0 path) {i L : Nat} (hL : 1 ≤ L) :
    ¬ InSub h0.length path i L 0 := by
  rintro ⟨-, hlen, -⟩
  rw [wf.path_root] at hlen; simp at hlen; omega

/-- One call of `prepareRecurcive` on the state `i` at level `lvl`: every state at depth
`max_lvl` below `i` is prepared, every other state is left as it was, and the count is
zero exactly when there is no state at that depth below `i`. -/
theorem WF.prepareRecurcive (wf : WF h0 path) {L : Nat} (hL : 1 ≤ L) (fuel : Nat) :
    ∀ (h : List (State α)) (i lvl : Nat), SameShape h0 h → i < h0.length →
      (path i).length = lvl → lvl ≤ L → L - lvl < fuel →
      (∀ r : State α, h[0]? = some r → r.m_patterns = []) →
      (∀ k, InSub h0.length path i L k → Untouched h0 h k) →
      ∃ (h1 : List (State α)) (n : Nat),
        prepareRecurcive fuel h i lvl L = some (h1, n) ∧ SameShape h0 h1 ∧
        (∀ k, ¬ InSub h0.length path i L k → h1[k]? = h[k]?) ∧
        (∀ k, InSub h0.length path i L k → Done h0 h1 path k) ∧
        (n = 0 ↔ ∀ k, ¬ InSub h0.length path i L k) := by
  induction fuel with
  | zero => intro h i lvl _ _ _ _ hf; omega
  | succ fuel ih =>
    intro h i lvl hs hi hlvl hle hf hroot hun
    have wfh : WF h path := wf.of_sameShape hs
    have hget0 := List.getElem?_eq_getElem hi
    unfold AhoCorasick.prepareRecurcive
    by_cases hlL : lvl = L
    · -- the state itself is prepared
      rw [if_pos hlL]
      have hself := wf.inSub_self hi (hlvl.trans hlL)
      have hi0 : i ≠ 0 := by
        rintro rfl; rw [wf.path_root] at hlvl; simp at hlvl; omega
      obtain ⟨st0, st, hst0, hst, hpat⟩ := hun i ((hself i).2 rfl)
      obtain ⟨tst, htst, hprep⟩ := wfh.prepareState hroot hst hi0
      rw [hs.longestSuffixState] at htst hprep
      have hti : longestSuffixState h0 (path i).tail ≠ i := by
        intro h
        have := wf.target_not_inSub (i := i) hi hi0 (hlvl.trans hlL)
        rw [h] at this; exact this ((hself i).2 rfl)
      refine ⟨h.set i { st with
          m_failTransition := some (longestSuffixState h0 (path i).tail),
          m_patterns := st.m_patterns ++ tst.m_patterns }, 1, by rw [hprep],
        hs.trans_shape (SameShape.set h hst rfl rfl rfl), ?_, ?_, ?_⟩
      · intro k hk
        have hki : i ≠ k := fun h => hk ((hself k).2 h.symm)
        rw [List.getElem?_set_ne hki]
      · intro k hk
        have := (hself k).1 hk; subst this
        refine ⟨st0, { st with
            m_failTransition := some (longestSuffixState h0 (path k).tail),
            m_patterns := st.m_patterns ++ tst.m_patterns }, tst, hst0, ?_, ?_, rfl, ?_⟩
        · rw [List.getElem?_set_self (List.getElem?_eq_some.1 hst).1]
        · rw [List.getElem?_set_ne (Ne.symm hti)]; exact htst
        · show st.m_patterns ++ tst.m_patterns = _
          rw [hpat]
      · simp only [one_ne_zero, false_iff, not_forall, not_not]
        exact ⟨i, (hself i).2 rfl⟩
    · -- the children are traversed
      rw [if_neg hlL]
      have hlt : lvl < L := lt_of_le_of_ne hle hlL
      obtain ⟨st, hst, -, -, hnext⟩ := hs.2 i _ hget0
      rw [hst]; simp only [hnext]
      have hloop : ∀ (l : List (α × Nat)) (h : List (State α)) (n : Nat),
          (∀ x ∈ l, x ∈ (h0[i]).m_next) → (l.map Prod.fst).Nodup → SameShape h0 h →
          (∀ r : State α, h[0]? = some r → r.m_patterns = []) →
          (∀ x ∈ l, ∀ k, InSub h0.length path x.2 L k → Untouched h0 h k) →
          ∃ (h1 : List (State α)) (n1 : Nat),
            forEachNext (fun h n => AhoCorasick.prepareRecurcive fuel h n (lvl + 1) L) l h n
              = some (h1, n1) ∧ SameShape h0 h1 ∧
            (∀ k, (∀ x ∈ l, ¬ InSub h0.length path x.2 L k) → h1[k]? = h[k]?) ∧
            (∀ x ∈ l, ∀ k, InSub h0.length path x.2 L k → Done h0 h1 path k) ∧
            (n1 = 0 ↔ n = 0 ∧ ∀ x ∈ l, ∀ k, ¬ InSub h0.length path x.2 L k) := by
        intro l
        induction l with
        | nil =>
          intro h n _ _ hs _ _
          exact ⟨h, n, rfl, hs, fun _ _ => rfl, fun x hx => by simp at hx, by simp⟩
        | cons x l ihl =>
          intro h n hmem hnd hs hroot hun
          have hxm : x ∈ (h0[i]).m_next := hmem x (List.mem_cons_self _ _)
          obtain ⟨hxlt, hx0, hxp⟩ := wf.mem_next hget0 hxm
          rw [List.map_cons, List.nodup_cons] at hnd
          obtain ⟨h1, n1, e1, s1, f1, d1, c1⟩ := ih h x.2 (lvl + 1) hs hxlt
            (by rw [hxp]; simp [hlvl]) hlt (by omega) hroot
            (hun x (List.mem_cons_self _ _))
          have hroot1 : ∀ r : State α, h1[0]? = some r → r.m_patterns = [] := by
            intro r hr; rw [f1 0 (wf.root_not_inSub hL)] at hr; exact hroot r hr
          have hdisj : ∀ y ∈ l, ∀ k, InSub h0.length path y.2 L k →
              ¬ InSub h0.length path x.2 L k := by
            intro y hy k hk
            have hym := hmem y (List.mem_cons_of_mem _ hy)
            have hne : y.1 ≠ x.1 := by
              intro h; apply hnd.1; rw [← h]; exact List.mem_map.2 ⟨y, hy, rfl⟩
            exact wf.inSub_disjoint hget0 hym hxm hne hk
          have hun1 : ∀ y ∈ l, ∀ k, InSub h0.length path y.2 L k → Untouched h0 h1 k := by
            intro y hy k hk
            obtain ⟨st0, stk, a, b, c⟩ := hun y (List.mem_cons_of_mem _ hy) k hk
            exact ⟨st0, stk, a, (f1 k (hdisj y hy k hk)).trans b, c⟩
          obtain ⟨h2, n2, e2, s2, f2, d2, c2⟩ := ihl h1 (n + n1)
            (fun y hy => hmem y (List.mem_cons_of_mem _ hy)) hnd.2 s1 hroot1 hun1
          refine ⟨h2, n2, ?_, s2, ?_, ?_, ?_⟩
          · simp only [forEachNext, e1]; exact e2
          · intro k hk
            rw [f2 k (fun y hy => hk y (List.mem_cons_of_mem _ hy)),
              f1 k (hk x (List.mem_cons_self _ _))]
          · intro y hy k hk
            rcases List.mem_cons.1 hy with rfl | hy
            · have hklt := hk.1
              have hk0 : k ≠ 0 := by rintro rfl; exact wf.root_not_inSub hL hk
              refine (d1 k hk).frame ?_ ?_
              · exact f2 k (fun z hz hzk => hdisj z hz k hzk hk)
              · exact f2 _ (fun z _ => wf.target_not_inSub hklt hk0 hk.2.1)
            · exact d2 y hy k hk
          · rw [c2, Nat.add_eq_zero_iff, c1]
            constructor
            · rintro ⟨⟨a, b⟩, c⟩
              refine ⟨a, fun y hy => ?_⟩
              rcases List.mem_cons.1 hy with rfl | hy
              · exact b
              · exact c y hy
            · rintro ⟨a, b⟩
              exact ⟨⟨a, b x (List.mem_cons_self _ _)⟩,
                fun y hy => b y (List.mem_cons_of_mem _ hy)⟩
      obtain ⟨h1, n1, e1, s1, f1, d1, c1⟩ := hloop (h0[i]).m_next h 0 (fun _ hx => hx)
        (wf.keys i _ hget0) hs hroot
        (fun x hx k hk => hun k (wf.inSub_of_child hget0 hx hk))
      refine ⟨h1, n1, e1, s1, ?_, ?_, ?_⟩
      · intro k hk
        exact f1 k (fun x hx hxk => hk (wf.inSub_of_child hget0 hx hxk))
      · intro k hk
        obtain ⟨x, hx, hxk⟩ := wf.inSub_child hget0 (by rw [hlvl]; exact hlt) hk
        exact d1 x hx k hxk
      · rw [c1]
        constructor
        · rintro ⟨-, b⟩ k hk
          obtain ⟨x, hx, hxk⟩ := wf.inSub_child hget0 (by rw [hlvl]; exact hlt) hk
          exact b x hx k hxk
        · intro b
          exact ⟨rfl, fun x hx k hxk => b k (wf.inSub_of_child hget0 hx hxk)⟩

end traversal

section loop

variable [LinearOrder α] {h0 : List (State α)} {path : Nat → List α}

theorem WF.prefix_node (wf : WF h0 path) {k : Nat} (hk : k < h0.length) {π : List α}
    (hπ : π <+: path k) : ∃ j, j < h0.length ∧ path j = π := by
  obtain ⟨ρ, hρ⟩ := hπ
  have hf := wf.findState_of_path k hk
  rw [← hρ, findState_append] at hf
  cases hj : findState h0 π 0 with
  | none => rw [hj] at hf; cases hf
  | some j => exact ⟨j, wf.findState_iff.1 hj⟩

theorem WF.inSub_root (wf : WF h0 path) (L k : Nat) :
    InSub h0.length path 0 L k ↔ k < h0.length ∧ (path k).length = L := by
  unfold InSub; rw [wf.path_root]
  simp only [List.nil_prefix, and_true]

theorem WF.prepareLoop (wf : WF h0 path) (fuel : Nat) :
    ∀ (L : Nat) (h : List (State α)), 1 ≤ L → L ≤ h0.length → h0.length < fuel + L →
      SameShape h0 h → h[0]? = h0[0]? →
      (∀ r : State α, h0[0]? = some r → r.m_patterns = []) →
      (∀ k, k < h0.length → k ≠ 0 →
        ((path k).length < L → Done h0 h path k) ∧
        (L ≤ (path k).length → Untouched h0 h k)) →
      ∃ h1 : List (State α), prepareLoop fuel h L = some h1 ∧ SameShape h0 h1 ∧
        h1[0]? = h0[0]? ∧ ∀ k, k < h0.length → k ≠ 0 → Done h0 h1 path k := by
  induction fuel with
  | zero => intro L h _ h1 h2; omega
  | succ fuel ih =>
    intro L h hL hLlen hfuel hs hr0 hroot hinv
    have hsub := wf.inSub_root L
    obtain ⟨h1, n, e1, s1, f1, d1, c1⟩ := wf.prepareRecurcive hL (L + 1) h 0 0 hs
      wf.length_pos (by rw [wf.path_root]; rfl) (Nat.zero_le _) (by omega)
      (fun r hr => hroot r (hr0 ▸ hr))
      (fun k hk => (hinv k hk.1 (fun h => wf.root_not_inSub hL (h ▸ hk))).2
        (le_of_eq hk.2.1.symm))
    have hr1 : h1[0]? = h0[0]? := (f1 0 (wf.root_not_inSub hL)).trans hr0
    have hdone : ∀ k, k < h0.length → k ≠ 0 → (path k).length < L + 1 →
        Done h0 h1 path k := by
      intro k hk hk0 hlt
      by_cases hkL : (path k).length = L
      · exact d1 k ((hsub k).2 ⟨hk, hkL⟩)
      · refine ((hinv k hk hk0).1 (by omega)).frame (f1 k ?_) (f1 _ ?_)
        · intro hin; exact hkL hin.2.1
        · intro hin
          have h1 := ((wf.lss_spec (path k).tail).2).length_le
          have h2 : (path k).tail.length = (path k).length - 1 := List.length_tail _
          have := hin.2.1
          omega
    unfold AhoCorasick.prepareLoop
    rw [e1]; simp only
    by_cases hn : n > 0
    · rw [if_pos hn]
      have hex : ∃ k, InSub h0.length path 0 L k := by
        by_contra hne
        have := c1.2 (fun k hk => hne ⟨k, hk⟩)
        omega
      obtain ⟨k, hk, hkL, -⟩ := hex
      have hkk := wf.path_length_le k hk
      refine ih (L + 1) h1 (by omega) (by omega) (by omega) s1 hr1 hroot ?_
      intro j hj hj0
      refine ⟨hdone j hj hj0, fun hle => ?_⟩
      obtain ⟨st0, st, a, b, c⟩ := (hinv j hj hj0).2 (by omega)
      refine ⟨st0, st, a, (f1 j ?_).trans b, c⟩
      intro hin
      have := hin.2.1
      omega
    · rw [if_neg hn]
      refine ⟨h1, rfl, s1, hr1, fun k hk hk0 => hdone k hk hk0 ?_⟩
      by_contra hge
      have hn0 : n = 0 := by omega
      obtain ⟨j, hj, hpj⟩ := wf.prefix_node hk (List.take_prefix L (path k))
      refine c1.1 hn0 j ((hsub j).2 ⟨hj, ?_⟩)
      rw [hpj, List.length_take]; omega

end loop

section prepare

variable [LinearOrder α] {a : AhoCorasick α} {path : Nat → List α}

theorem WF.prepare_spec (wf : WF a.heap path)
    (hroot : ∀ r : State α, a.heap[0]? = some r → r.m_patterns = [])
    (hflag : a.m_prepaired = false) :
    ∃ h1 : List (State α),
      a.prepare = some { a with heap := h1, m_prepaired := true } ∧
      SameShape a.heap h1 ∧ h1[0]? = a.heap[0]? ∧
      ∀ k, k < a.heap.length → k ≠ 0 → Done a.heap h1 path k := by
  obtain ⟨h1, e1, s1, r1, d1⟩ := wf.prepareLoop (a.heap.length + 1) 1 a.heap (le_refl _)
    wf.length_pos (by omega) (SameShape.refl_shape _) rfl hroot
    (fun k hk hk0 => ⟨fun hlt => by
        have : path k = [] := List.length_eq_zero.1 (by omega)
        exact absurd ((wf.path_eq_nil hk).1 this) hk0,
      fun _ => ⟨_, _, List.getElem?_eq_getElem hk, List.getElem?_eq_getElem hk, rfl⟩⟩)
  refine ⟨h1, ?_, s1, r1, d1⟩
  unfold AhoCorasick.prepare
  rw [hflag, e1]; simp

theorem Inv.root_patterns (inv : Inv a path) (r : State α) (hr : a.heap[0]? = some r) :
    r.m_patterns = [] := by
  apply List.eq_nil_iff_forall_not_mem.2
  intro q hq
  obtain ⟨h1, h2⟩ := inv.sound 0 r q hr hq
  rw [inv.wf.path_root] at h2
  rw [List.suffix_nil.1 h2] at h1
  exact inv.nonempty h1

theorem Inv.prepare_of_prepared (hflag : a.m_prepaired = true) : a.prepare = some a := by
  unfold AhoCorasick.prepare; rw [if_pos hflag]

/-- Preparing keeps the invariant and raises the flag. -/
theorem Inv.prepare_inv (inv : Inv a path) :
    ∃ a1 : AhoCorasick α, a.prepare = some a1 ∧ Inv a1 path ∧ a1.m_prepaired = true ∧
      a1.m_patterns = a.m_patterns ∧ SameShape a.heap a1.heap := by
  cases hflag : a.m_prepaired with
  | true => exact ⟨a, Inv.prepare_of_prepared hflag, inv, hflag, rfl, SameShape.refl_shape _⟩
  | false =>
    have wf := inv.wf
    obtain ⟨h1, e1, s1, r1, d1⟩ := wf.prepare_spec inv.root_patterns hflag
    have wf1 : WF h1 path := wf.of_sameShape s1
    have hlen : h1.length = a.heap.length := s1.1.symm
    refine ⟨_, e1, ⟨wf1, inv.nonempty, ?_, ?_, ?_, fun _ => ⟨?_, ?_, ?_⟩⟩, rfl, rfl, s1⟩
    · intro r hr; exact inv.rootFail r (r1 ▸ hr)
    · intro q hq
      obtain ⟨k, st0, hk, hpk, hqm⟩ := inv.own q hq
      have hklt := (List.getElem?_eq_some.1 hk).1
      have hk0 : k ≠ 0 := by
        rintro rfl
        rw [wf.path_root] at hpk; rw [← hpk] at hq; exact inv.nonempty hq
      obtain ⟨st0', st, tst, a1, a2, a3, a4, a5⟩ := d1 k hklt hk0
      rw [hk] at a1; cases a1
      exact ⟨k, st, a2, hpk, by rw [a5]; exact List.mem_append_left _ hqm⟩
    · -- soundness, by induction on the depth
      have key : ∀ (n j : Nat), (path j).length ≤ n → ∀ (st : State α) (q : List α),
          h1[j]? = some st → q ∈ st.m_patterns → q ∈ a.m_patterns ∧ q <:+ path j := by
        intro n
        induction n with
        | zero =>
          intro j hj st q hst hq
          have hjlt : j < a.heap.length := hlen ▸ (List.getElem?_eq_some.1 hst).1
          have : j = 0 := (wf.path_eq_nil hjlt).1 (List.length_eq_zero.1 (Nat.le_zero.1 hj))
          subst this
          rw [r1] at hst
          rw [inv.root_patterns st hst] at hq; simp at hq
        | succ n ihn =>
          intro j hj st q hst hq
          have hjlt : j < a.heap.length := hlen ▸ (List.getElem?_eq_some.1 hst).1
          by_cases hj0 : j = 0
          · subst hj0
            rw [r1] at hst
            rw [inv.root_patterns st hst] at hq; simp at hq
          · obtain ⟨st0, st', tst, a1, a2, a3, a4, a5⟩ := d1 j hjlt hj0
            rw [hst] at a2; cases a2
            rw [a5, List.mem_append] at hq
            rcases hq with hq | hq
            · exact inv.sound j st0 q a1 hq
            · have hsuf := (wf.lss_spec (path j).tail).2
              have h2 : (path j).tail.length = (path j).length - 1 := List.length_tail _
              obtain ⟨x1, x2⟩ := ihn _ (by have := hsuf.length_le; omega) tst q a3 hq
              exact ⟨x1, x2.trans (hsuf.trans (List.tail_suffix _))⟩
      intro j st q hst hq
      exact key _ j (le_refl _) st q hst hq
    · intro j st hst hj0
      have hjlt : j < a.heap.length := hlen ▸ (List.getElem?_eq_some.1 hst).1
      obtain ⟨st0, st', tst, a1, a2, a3, a4, a5⟩ := d1 j hjlt hj0
      rw [hst] at a2; cases a2
      show st.m_failTransition = some (longestSuffixState h1 (path j).tail)
      rw [a4, s1.longestSuffixState]
    · -- completeness, by induction on the depth
      have key : ∀ (n j : Nat), (path j).length ≤ n → ∀ (st : State α) (q : List α),
          h1[j]? = some st → q ∈ a.m_patterns → q <:+ path j → q ∈ st.m_patterns := by
        intro n
        induction n with
        | zero =>
          intro j hj st q hst hq hsuf
          rw [List.length_eq_zero.1 (Nat.le_zero.1 hj)] at hsuf
          rw [List.suffix_nil.1 hsuf] at hq
          exact absurd hq inv.nonempty
        | succ n ihn =>
          intro j hj st q hst hq hsuf
          have hjlt : j < a.heap.length := hlen ▸ (List.getElem?_eq_some.1 hst).1
          have hj0 : j ≠ 0 := by
            rintro rfl
            rw [wf.path_root] at hsuf
            rw [List.suffix_nil.1 hsuf] at hq
            exact inv.nonempty hq
          obtain ⟨st0, st', tst, a1, a2, a3, a4, a5⟩ := d1 j hjlt hj0
          rw [hst] at a2; cases a2
          obtain ⟨k, stk, hk, hpk, hqm⟩ := inv.own q hq
          have hklt := (List.getElem?_eq_some.1 hk).1
          rw [a5, List.mem_append]
          have hne : path j ≠ [] := fun h => hj0 ((wf.path_eq_nil hjlt).1 h)
          obtain ⟨c, tl, hcons⟩ := List.exists_cons_of_ne_nil hne
          rw [hcons] at hsuf
          rcases List.suffix_cons_iff.1 hsuf with h2 | h2
          · left
            have : k = j := wf.path_inj hklt hjlt (by rw [hpk, h2, hcons])
            subst this
            rw [hk] at a1; cases a1; exact hqm
          · right
            have htl : (path j).tail = tl := by rw [hcons]; rfl
            have hmax := wf.lss_max (path j).tail hklt (by rw [hpk, htl]; exact h2)
            have hsuf2 := (wf.lss_spec (path j).tail).2
            have h3 : (path j).tail.length = (path j).length - 1 := List.length_tail _
            exact ihn _ (by have := hsuf2.length_le; omega) tst q a3 hq (hpk ▸ hmax)
      intro j st q hst hq hsuf
      exact key _ j (le_refl _) st q hst hq hsuf
    · -- a pattern comes before its proper suffixes, by induction on the depth
      have key : ∀ (n j : Nat), (path j).length ≤ n → ∀ (st : State α) (p q : List α),
          h1[j]? = some st → p ∈ a.m_patterns → q ∈ a.m_patterns → q <:+ p → q ≠ p →
          p <:+ path j →
          ∃ l1 l2 l3 : List (List α), st.m_patterns = l1 ++ p :: l2 ++ q :: l3 := by
        intro n
        induction n with
        | zero =>
          intro j hj st p q hst hp hq hqp hne hsuf
          rw [List.length_eq_zero.1 (Nat.le_zero.1 hj)] at hsuf
          rw [List.suffix_nil.1 hsuf] at hp
          exact absurd hp inv.nonempty
        | succ n ihn =>
          intro j hj st p q hst hp hq hqp hne hsuf
          have hjlt : j < a.heap.length := hlen ▸ (List.getElem?_eq_some.1 hst).1
          have hj0 : j ≠ 0 := by
            rintro rfl
            rw [wf.path_root] at hsuf
            rw [List.suffix_nil.1 hsuf] at hp
            exact inv.nonempty hp
          obtain ⟨st0, st', tst, a1, a2, a3, a4, a5⟩ := d1 j hjlt hj0
          rw [hst] at a2; cases a2
          obtain ⟨k, stk, hk, hpk, hpm⟩ := inv.own p hp
          have hklt := (List.getElem?_eq_some.1 hk).1
          obtain ⟨kq, stq, hkq, hpkq, -⟩ := inv.own q hq
          have hkqlt := (List.getElem?_eq_some.1 hkq).1
          have hne0 : path j ≠ [] := fun h => hj0 ((wf.path_eq_nil hjlt).1 h)
          obtain ⟨c, tl, hcons⟩ := List.exists_cons_of_ne_nil hne0
          have htl : (path j).tail = tl := by rw [hcons]; rfl
          have hsuf2 := (wf.lss_spec (path j).tail).2
          have h3 : (path j).tail.length = (path j).length - 1 := List.length_tail _
          have hdepth : (path (longestSuffixState a.heap (path j).tail)).length ≤ n := by
            have := hsuf2.length_le; omega
          rw [hcons] at hsuf
          rcases List.suffix_cons_iff.1 hsuf with h2 | h2
          · -- `p` ends at this state; `q` is inherited
            have : k = j := wf.path_inj hklt hjlt (by rw [hpk, h2, hcons])
            subst this
            rw [hk] at a1; cases a1
            have hq2 : q <:+ tl := by
              rw [h2] at hqp
              rcases List.suffix_cons_iff.1 hqp with h4 | h4
              · exact absurd (h4.trans h2.symm) hne
              · exact h4
            have hmax := wf.lss_max (path k).tail hkqlt (by rw [hpkq, htl]; exact hq2)
            have hqt : q ∈ tst.m_patterns := by
              have hcomplete : ∀ (m i : Nat), (path i).length ≤ m → ∀ (sti : State α),
                  h1[i]? = some sti → q <:+ path i → q ∈ sti.m_patterns := by
                intro m
                induction m with
                | zero =>
                  intro i hi sti _ hs
                  rw [List.length_eq_zero.1 (Nat.le_zero.1 hi)] at hs
                  rw [List.suffix_nil.1 hs] at hq
                  exact absurd hq inv.nonempty
                | succ m ihm =>
                  intro i hi sti hsti hs
                  have hilt : i < a.heap.length := hlen ▸ (List.getElem?_eq_some.1 hsti).1
                  have hi0 : i ≠ 0 := by
                    rintro rfl
                    rw [wf.path_root] at hs
                    rw [List.suffix_nil.1 hs] at hq
                    exact inv.nonempty hq
                  obtain ⟨sti0, sti', tsti, b1, b2, b3, b4, b5⟩ := d1 i hilt hi0
                  rw [hsti] at b2; cases b2
                  obtain ⟨kk, stkk, hkk, hpkk, hqm⟩ := inv.own q hq
                  have hkklt := (List.getElem?_eq_some.1 hkk).1
                  rw [b5, List.mem_append]
                  have hnei : path i ≠ [] := fun h => hi0 ((wf.path_eq_nil hilt).1 h)
                  obtain ⟨ci, tli, hconsi⟩ := List.exists_cons_of_ne_nil hnei
                  rw [hconsi] at hs
                  rcases List.suffix_cons_iff.1 hs with h5 | h5
                  · left
                    have : kk = i := wf.path_inj hkklt hilt (by rw [hpkk, h5, hconsi])
                    subst this
                    rw [hkk] at b1; cases b1; exact hqm
                  · right
                    have htli : (path i).tail = tli := by rw [hconsi]; rfl
                    have hmaxi := wf.lss_max (path i).tail hkklt (by rw [hpkk, htli]; exact h5)
                    have hsufi := (wf.lss_spec (path i).tail).2
                    have h6 : (path i).tail.length = (path i).length - 1 := List.length_tail _
                    exact ihm _ (by have := hsufi.length_le; omega) tsti b3 (hpkk ▸ hmaxi)
              exact hcomplete _ _ (le_refl _) tst a3 (hpkq ▸ hmax)
            obtain ⟨u1, u2, hu⟩ := List.append_of_mem hpm
            obtain ⟨v1, v2, hv⟩ := List.append_of_mem hqt
            exact ⟨u1, u2 ++ v1, v2, by rw [a5, hu, hv]; simp⟩
          · -- `p` is inherited
            have hmax := wf.lss_max (path j).tail hklt (by rw [hpk, htl]; exact h2)
            obtain ⟨l1, l2, l3, hl⟩ := ihn _ hdepth tst p q a3 hp hq hqp hne (hpk ▸ hmax)
            exact ⟨st0.m_patterns ++ l1, l2, l3, by rw [a5, hl]; simp⟩
      intro j st p q hst hp hq hqp hne hsuf
      exact key _ j (le_refl _) st p q hst hp hq hqp hne hsuf

end prepare

section fresh

variable [LinearOrder α] {a : AhoCorasick α} {path : Nat → List α}

theorem outputsOf_nil (pats : List (List α)) (h : [] ∉ pats) : outputsOf pats [] = [] := by
  simp only [outputsOf, List.tails, List.flatMap_cons, List.flatMap_nil, List.append_nil]
  rw [List.filter_eq_nil_iff]
  intro q hq hd
  have : q = [] := by simpa using hd
  exact h (this ▸ hq)

theorem outputsOf_cons (pats : List (List α)) (c : α) (cs : List α) :
    outputsOf pats (c :: cs) =
      pats.filter (fun q => decide (q = c :: cs)) ++ outputsOf pats cs := by
  simp only [outputsOf, List.tails, List.flatMap_cons]

theorem Fresh.toInv (fr : Fresh a path) : Inv a path where
  wf := fr.wf
  nonempty := fr.nonempty
  rootFail := fr.rootFail
  own := fun q hq => by
    obtain ⟨k, hk, hpk⟩ := fr.node q hq
    refine ⟨k, _, List.getElem?_eq_getElem hk, hpk, ?_⟩
    rw [fr.outputs k _ (List.getElem?_eq_getElem hk), List.mem_filter]
    exact ⟨hq, by simp [hpk]⟩
  sound := fun j st q hj hq => by
    rw [fr.outputs j st hj, List.mem_filter] at hq
    have : q = path j := by simpa using hq.2
    exact ⟨hq.1, this ▸ List.suffix_refl _⟩
  prepared := fun h => by rw [fr.flag] at h; cases h

theorem Fresh.outputsOf_lss (fr : Fresh a path) (σ : List α) :
    outputsOf a.m_patterns σ =
      outputsOf a.m_patterns (path (longestSuffixState a.heap σ)) := by
  induction σ with
  | nil => rw [longestSuffixState, fr.wf.path_root]
  | cons c cs ih =>
    unfold longestSuffixState
    cases hf : findState a.heap (c :: cs) 0 with
    | some t => simp only [(fr.wf.findState_iff.1 hf).2]
    | none =>
      simp only
      rw [outputsOf_cons, ← ih]
      have : a.m_patterns.filter (fun q => decide (q = c :: cs)) = [] := by
        rw [List.filter_eq_nil_iff]
        intro q hq hd
        have hd : q = c :: cs := by simpa using hd
        obtain ⟨k, hk, hpk⟩ := fr.node q hq
        rw [← hd, ← hpk, fr.wf.findState_of_path k hk] at hf
        cases hf
      rw [this, List.nil_append]

/-- Preparing an automaton on which only `addPattern` was called: every output list is the
list of registrations that are suffixes of the state's path, longest first. -/
theorem Fresh.prepare_exact (fr : Fresh a path) :
    ∃ a1 : AhoCorasick α, a.prepare = some a1 ∧ Inv a1 path ∧ a1.m_prepaired = true ∧
      a1.m_patterns = a.m_patterns ∧ SameShape a.heap a1.heap ∧
      ∀ (j : Nat) (st : State α), a1.heap[j]? = some st →
        st.m_patterns = outputsOf a.m_patterns (path j) := by
  have inv := fr.toInv
  have wf := fr.wf
  obtain ⟨a1, e1, inv1, hf1, hp1, hs1⟩ := inv.prepare_inv
  obtain ⟨h1, e2, s1, r1, d1⟩ := wf.prepare_spec inv.root_patterns fr.flag
  rw [e1] at e2
  have ha1 : a1 = { a with heap := h1, m_prepaired := true } := Option.some.inj e2
  refine ⟨a1, e1, inv1, hf1, hp1, hs1, ?_⟩
  have hheap : a1.heap = h1 := by rw [ha1]
  rw [hheap]
  have hlen : h1.length = a.heap.length := s1.1.symm
  have key : ∀ (n j : Nat), (path j).length ≤ n → ∀ (st : State α), h1[j]? = some st →
      st.m_patterns = outputsOf a.m_patterns (path j) := by
    intro n
    induction n with
    | zero =>
      intro j hj st hst
      have hjlt : j < a.heap.length := hlen ▸ (List.getElem?_eq_some.1 hst).1
      have : j = 0 := (wf.path_eq_nil hjlt).1 (List.length_eq_zero.1 (Nat.le_zero.1 hj))
      subst this
      rw [r1] at hst
      rw [inv.root_patterns st hst, wf.path_root, outputsOf_nil _ fr.nonempty]
    | succ n ihn =>
      intro j hj st hst
      have hjlt : j < a.heap.length := hlen ▸ (List.getElem?_eq_some.1 hst).1
      by_cases hj0 : j = 0
      · subst hj0
        rw [r1] at hst
        rw [inv.root_patterns st hst, wf.path_root, outputsOf_nil _ fr.nonempty]
      · obtain ⟨st0, st', tst, a1, a2, a3, a4, a5⟩ := d1 j hjlt hj0
        rw [hst] at a2; cases a2
        have hne : path j ≠ [] := fun h => hj0 ((wf.path_eq_nil hjlt).1 h)
        obtain ⟨c, tl, hcons⟩ := List.exists_cons_of_ne_nil hne
        have htl : (path j).tail = tl := by rw [hcons]; rfl
        have hsuf := (wf.lss_spec (path j).tail).2
        have h3 : (path j).tail.length = (path j).length - 1 := List.length_tail _
        rw [a5, fr.outputs j st0 a1, ihn _ (by have := hsuf.length_le; omega) tst a3,
          ← fr.outputsOf_lss, htl, hcons, outputsOf_cons]
  intro j st hst
  exact key _ j (le_refl _) st hst

end fresh

section next

variable [LinearOrder α] {heap : List (State α)} {path : Nat → List α}

/-- On a prepared heap `next` moves to the state of the longest suffix of the extended
path, and the recursion ends within the depth of the state. -/
theorem WF.next (wf : WF heap path)
    (hfail : ∀ (j : Nat) (st : State α), heap[j]? = some st → j ≠ 0 →
      st.m_failTransition = some (longestSuffixState heap (path j).tail))
    (fuel : Nat) : ∀ (i : Nat) (c : α), i < heap.length → (path i).length < fuel →
      State.next heap fuel i c = some (longestSuffixState heap (path i ++ [c])) := by
  induction fuel with
  | zero => intro i c _ h; omega
  | succ fuel ih =>
    intro i c hi hfuel
    have hget := List.getElem?_eq_getElem hi
    unfold State.next
    simp only [hget]
    cases hl : (heap[i]).m_next.lookup c with
    | some n =>
      simp only
      have hn := findNext_of_lookup hget hl
      obtain ⟨hnlt, -, hpn⟩ := wf.findNext_spec hn
      rw [← hpn, wf.lss_path hnlt]
    | none =>
      simp only
      have hnone : findState heap (path i ++ [c]) 0 = none := by
        rw [findState_append, wf.findState_of_path i hi]
        simp only [Option.some_bind, findState, findNext, hget, hl]
      by_cases hi0 : i = 0
      · have hr : (heap[i]).isRoot = true := (wf.isRoot_iff hget).2 hi0
        rw [if_pos hr]
        subst hi0
        rw [wf.path_root] at hnone ⊢
        simp only [List.nil_append] at hnone ⊢
        simp only [longestSuffixState, hnone]
      · have hr : ¬ (heap[i]).isRoot = true := fun h => hi0 ((wf.isRoot_iff hget).1 h)
        rw [if_neg hr, hfail i _ hget hi0]
        simp only
        have hne : path i ≠ [] := fun h => hi0 ((wf.path_eq_nil hi).1 h)
        obtain ⟨d, tl, hcons⟩ := List.exists_cons_of_ne_nil hne
        have htl : (path i).tail = tl := by rw [hcons]; rfl
        obtain ⟨htlt, hsuf⟩ := wf.lss_spec (path i).tail
        have h3 : (path i).tail.length = (path i).length - 1 := List.length_tail _
        have h4 : 0 < (path i).length := List.length_pos.2 hne
        rw [ih _ c htlt (by have := hsuf.length_le; omega), ← wf.lss_append, htl]
        rw [hcons] at hnone ⊢
        simp only [List.cons_append] at hnone ⊢
        simp only [longestSuffixState, hnone]

end next

section matching

variable [LinearOrder α]

theorem untilStop_append (f : List α → Int → Bool) (l1 l2 : List (List α × Int)) :
    untilStop f (l1 ++ l2) =
      if l1.any (fun x => f x.1 x.2) then untilStop f l1 else l1 ++ untilStop f l2 := by
  induction l1 with
  | nil => simp [untilStop]
  | cons x l1 ih =>
    have e1 : untilStop f (x :: l1 ++ l2) =
        if f x.1 x.2 then [x] else x :: untilStop f (l1 ++ l2) := rfl
    have e2 : untilStop f (x :: l1) = if f x.1 x.2 then [x] else x :: untilStop f l1 := rfl
    rw [e1, e2, ih, List.any_cons]
    by_cases hx : f x.1 x.2 = true
    · simp [hx]
    · simp only [hx, if_false, Bool.false_or, Bool.false_eq_true]
      split_ifs <;> rfl

theorem untilStop_of_not_any (f : List α → Int → Bool) (l : List (List α × Int))
    (h : l.any (fun x => f x.1 x.2) = false) : untilStop f l = l := by
  have := untilStop_append f l []
  rw [h] at this
  simpa [untilStop] using this

theorem applyLoop_eq (f : List α → Int → Bool) (i : Int) (ps : List (List α)) :
    applyLoop f i ps =
      (untilStop f (fire i ps), (fire i ps).any (fun x => f x.1 x.2)) := by
  induction ps with
  | nil => rfl
  | cons p ps ih =>
    simp only [applyLoop, fire, List.map_cons, untilStop, List.any_cons]
    by_cases hx : f p (i - ((p.length : Int) - 1)) = true
    · simp [hx]
    · simp only [hx, if_false, Bool.false_or, Bool.false_eq_true]
      rw [ih]; rfl

variable {a : AhoCorasick α} {path : Nat → List α}

theorem Inv.applyPatterns (inv : Inv a path) {t : Nat} {st : State α}
    (ht : a.heap[t]? = some st) (f : List α → Int → Bool) (i : Int) :
    st.applyPatterns f i =
      (untilStop f (fire i (outputsAt a.heap t)),
        (fire i (outputsAt a.heap t)).any (fun x => f x.1 x.2)) := by
  have hout : outputsAt a.heap t = st.m_patterns := by simp only [outputsAt, ht]
  rw [hout, ← applyLoop_eq]
  unfold State.applyPatterns
  by_cases hr : st.isRoot = true
  · rw [if_pos hr]
    have := (inv.wf.isRoot_iff ht).1 hr
    subst this
    rw [inv.root_patterns st ht]; rfl
  · rw [if_neg hr]

/-- The traversal loop on a prepared automaton, started in the state of the longest
suffix of the consumed input. -/
theorem Inv.matchLoop (inv : Inv a path) (hprep : a.m_prepaired = true)
    (f : List α → Int → Bool) (s : List α) : ∀ pre : List α,
      matchLoop a.heap f s (longestSuffixState a.heap pre) pre.length =
        some (untilStop f (traceFrom a.heap pre s)) := by
  have wf := inv.wf
  have prep := inv.prepared hprep
  induction s with
  | nil => intro pre; rfl
  | cons c cs ih =>
    intro pre
    obtain ⟨hlt, hsuf⟩ := wf.lss_spec pre
    have hnext := wf.next prep.fail a.heap.length (longestSuffixState a.heap pre) c hlt
      (lt_of_le_of_lt (wf.path_length_le _ hlt) hlt)
    rw [← wf.lss_append] at hnext
    obtain ⟨hlt1, -⟩ := wf.lss_spec (pre ++ [c])
    have hget := List.getElem?_eq_getElem hlt1
    unfold AhoCorasick.matchLoop
    simp only [hnext, hget, inv.applyPatterns hget, traceFrom]
    rw [untilStop_append]
    have hih := ih (pre ++ [c])
    have hcast : (((pre ++ [c]).length : Nat) : Int) = (pre.length : Int) + 1 := by simp
    rw [hcast] at hih
    cases hany : (fire (pre.length : Int)
        (outputsAt a.heap (longestSuffixState a.heap (pre ++ [c])))).any
        (fun x => f x.1 x.2) with
    | true => simp
    | false =>
      simp only [Bool.false_eq_true, if_false, hih]
      rw [untilStop_of_not_any f _ hany]

theorem Inv.match_spec (inv : Inv a path) (hprep : a.m_prepaired = true)
    (f : List α → Int → Bool) (s : List α) :
    a.match_ f s = some (untilStop f (traceFrom a.heap [] s)) := by
  unfold AhoCorasick.match_
  rw [if_pos hprep]
  have := inv.matchLoop hprep f s []
  simpa [longestSuffixState] using this

theorem untilStop_never (l : List (List α × Int)) : untilStop (fun _ _ => false) l = l := by
  induction l with
  | nil => rfl
  | cons x l ih => simp [untilStop, ih]

end matching

section spec

variable [LinearOrder α]

theorem Reachable.exists_inv {a : AhoCorasick α} (h : Reachable a) :
    ∃ path : Nat → List α, Inv a path := by
  induction h with
  | new => exact ⟨_, Inv.init_inv⟩
  | addPattern p _ ih =>
    obtain ⟨path, inv⟩ := ih
    exact inv.addPattern_inv p
  | matcher _ hm ih =>
    obtain ⟨path, inv⟩ := ih
    obtain ⟨a1, e1, inv1, -⟩ := inv.prepare_inv
    unfold AhoCorasick.matcher at hm
    rw [e1] at hm; cases hm
    exact ⟨path, inv1⟩

theorem Reachable.addPatterns_reachable {a : AhoCorasick α} (h : Reachable a)
    (pats : List (List α)) :
    Reachable (a.addPatterns pats) := by
  induction pats generalizing a with
  | nil => exact h
  | cons p ps ih => exact ih (h.addPattern p)

theorem Fresh.addPatterns_fresh {a : AhoCorasick α} {path : Nat → List α} (fr : Fresh a path)
    (pats : List (List α)) :
    ∃ path1 : Nat → List α, Fresh (a.addPatterns pats) path1 ∧
      (a.addPatterns pats).m_patterns =
        a.m_patterns ++ pats.filter (fun p => decide (p ≠ [])) := by
  induction pats generalizing a path with
  | nil => exact ⟨path, fr, by simp [AhoCorasick.addPatterns]⟩
  | cons p ps ih =>
    obtain ⟨path1, fr1, hp1⟩ := fr.addPattern_fresh p
    obtain ⟨path2, fr2, hp2⟩ := ih fr1
    refine ⟨path2, fr2, ?_⟩
    show (AhoCorasick.addPatterns (a.addPattern p) ps).m_patterns = _
    rw [hp2, hp1]
    by_cases hp : p = []
    · simp [hp]
    · simp [hp]

/-- The outputs of a path, reported at the end of that path, are the expected
invocations. -/
theorem fire_outputsOf (pats : List (List α)) (σ : List α) (off : Nat) :
    (outputsOf (pats.filter (fun p => decide (p ≠ []))) σ).map
        (fun p => (p, ((off + σ.length : Nat) : Int) - 1 - ((p.length : Int) - 1))) =
      (List.range σ.length).flatMap (fun i =>
        (pats.filter (fun p => decide (p = σ.drop i))).map
          (fun p => (p, ((off + i : Nat) : Int)))) := by
  induction σ generalizing off with
  | nil =>
    rw [outputsOf_nil _ (by simp)]
    rfl
  | cons c tl ih =>
    rw [outputsOf_cons, List.map_append, List.length_cons, List.range_succ_eq_map,
      List.flatMap_cons, List.flatMap_map]
    congr 1
    · rw [List.filter_filter]
      have hfil : ∀ p : List α, (decide (p = c :: tl) && decide (p ≠ [])) =
          decide (p = List.drop 0 (c :: tl)) := by
        intro p
        by_cases hp : p = c :: tl
        · subst hp; simp
        · simp [hp]
      simp only [hfil]
      apply List.map_congr_left
      intro p hp
      have : p = c :: tl := by simpa using (List.mem_filter.1 hp).2
      subst this
      simp only [List.length_cons, Prod.mk.injEq, true_and]
      push_cast; ring
    · have := ih (off + 1)
      have e1 : ∀ p : List α,
          (p, ((off + 1 + tl.length : Nat) : Int) - 1 - ((p.length : Int) - 1)) =
          (p, ((off + (tl.length + 1) : Nat) : Int) - 1 - ((p.length : Int) - 1)) := by
        intro p; rw [Nat.add_assoc, Nat.add_comm 1]
      simp only [e1] at this
      rw [this]
      apply List.flatMap_congr
      intro i _
      simp only [Function.comp, List.drop_succ_cons]
      apply List.map_congr_left
      intro p _
      rw [Nat.add_assoc, Nat.add_comm 1]

theorem fire_outputsOf_snoc (pats : List (List α)) (pre : List α) (c : α) :
    fire (pre.length : Int) (outputsOf (pats.filter (fun p => decide (p ≠ []))) (pre ++ [c])) =
      firedAt pats (pre ++ [c]) := by
  have := fire_outputsOf pats (pre ++ [c]) 0
  simp only [Nat.zero_add] at this
  unfold fire firedAt
  rw [← this]
  apply List.map_congr_left
  intro p _
  simp

end spec

section exact

variable [LinearOrder α]

theorem traceFrom_eq_expected {a1 : AhoCorasick α}
    (pats : List (List α))
    (hout : ∀ σ : List α, outputsAt a1.heap (longestSuffixState a1.heap σ) =
      outputsOf (pats.filter (fun p => decide (p ≠ []))) σ)
    (s : List α) : ∀ pre : List α,
      traceFrom a1.heap pre s =
        (List.range s.length).flatMap
          (fun j => firedAt pats ((pre ++ s).take (pre.length + j + 1))) := by
  induction s with
  | nil => intro pre; rfl
  | cons c cs ih =>
    intro pre
    rw [traceFrom, hout, fire_outputsOf_snoc, ih (pre ++ [c]), List.length_cons,
      List.range_succ_eq_map, List.flatMap_cons, List.flatMap_map]
    congr 1
    · have : List.take (pre.length + 0 + 1) (pre ++ c :: cs) = pre ++ [c] := by
        rw [Nat.add_zero, List.take_append_eq_append_take]
        simp
      rw [this]
    · apply List.flatMap_congr
      intro j _
      simp only [Function.comp, List.append_assoc, List.singleton_append, List.length_append,
        List.length_singleton]
      congr 2
      omega

/-- The automaton built by `addPattern` calls followed by one `matcher` call: the
traversal makes exactly the expected invocations, cut at the first stop. -/
theorem match_addPatterns (pats : List (List α)) :
    ∃ a1 : AhoCorasick α, (AhoCorasick.new.addPatterns pats).matcher = some a1 ∧
      Reachable a1 ∧ a1.m_prepaired = true ∧
      a1.m_patterns = pats.filter (fun p => decide (p ≠ [])) ∧
      ∀ (f : List α → Int → Bool) (s : List α),
        a1.match_ f s = some (untilStop f (expectedTrace pats s)) := by
  have fr0 : Fresh (AhoCorasick.new : AhoCorasick α) _ := Fresh.init_fresh
  obtain ⟨path, fr, hpats⟩ := fr0.addPatterns_fresh pats
  have hpats2 : (AhoCorasick.new.addPatterns pats).m_patterns =
      pats.filter (fun p => decide (p ≠ [])) := by
    rw [hpats]; simp [AhoCorasick.new]
  obtain ⟨a1, e1, inv1, hf1, hp1, hs1, hout⟩ := fr.prepare_exact
  have hreach : Reachable a1 := (Reachable.new.addPatterns_reachable pats).matcher e1
  refine ⟨a1, e1, hreach, hf1, hp1.trans hpats2, fun f s => ?_⟩
  rw [inv1.match_spec hf1 f s]
  congr 2
  have hσ : ∀ σ : List α, outputsAt a1.heap (longestSuffixState a1.heap σ) =
      outputsOf (pats.filter (fun p => decide (p ≠ []))) σ := by
    intro σ
    obtain ⟨hlt, -⟩ := inv1.wf.lss_spec σ
    have hget := List.getElem?_eq_getElem hlt
    simp only [outputsAt, hget]
    rw [hout _ _ hget, hs1.longestSuffixState, ← fr.outputsOf_lss, hpats2]
  have := traceFrom_eq_expected pats hσ s []
  simpa [expectedTrace] using this

end exact

section helpers

variable [LinearOrder α]

theorem traceFrom_eq_flatMap (heap : List (State α)) (s : List α) : ∀ pre : List α,
    traceFrom heap pre s =
      (List.range s.length).flatMap (fun j =>
        fire ((pre.length + j : Nat) : Int)
          (outputsAt heap (longestSuffixState heap ((pre ++ s).take (pre.length + j + 1))))) := by
  induction s with
  | nil => intro pre; rfl
  | cons c cs ih =>
    intro pre
    rw [traceFrom, ih (pre ++ [c]), List.length_cons, List.range_succ_eq_map,
      List.flatMap_cons, List.flatMap_map]
    congr 1
    · have : List.take (pre.length + 0 + 1) (pre ++ c :: cs) = pre ++ [c] := by
        rw [Nat.add_zero, List.take_append_eq_append_take]
        simp
      rw [this]; rfl
    · apply List.flatMap_congr
      intro j _
      simp only [Function.comp, List.append_assoc, List.singleton_append, List.length_append,
        List.length_singleton]
      have e1 : pre.length + 1 + j = pre.length + (j + 1) := by omega
      rw [e1]

/-- An occurrence of a non-empty `P` at `i` ends at the index `i + len P - 1`. -/
theorem occurrence_spec {s P : List α} {i : Nat} (hne : P ≠ [])
    (hocc : (s.drop i).take P.length = P) :
    i + P.length ≤ s.length ∧ (s.take (i + P.length)).drop i = P := by
  have hlen : P.length ≤ s.length - i := by
    have := congrArg List.length hocc
    rw [List.length_take, List.length_drop] at this
    omega
  have hpos : 0 < P.length := List.length_pos.2 hne
  refine ⟨by omega, ?_⟩
  rw [List.drop_take]
  simpa using hocc

theorem mem_firedAt {pats : List (List α)} {σ P : List α} {k : Int} :
    (P, k) ∈ firedAt pats σ ↔
      ∃ i : Nat, i < σ.length ∧ P ∈ pats ∧ P = σ.drop i ∧ k = (i : Int) := by
  simp only [firedAt, List.mem_flatMap, List.mem_range, List.mem_map, List.mem_filter,
    decide_eq_true_eq, Prod.mk.injEq]
  constructor
  · rintro ⟨i, hi, p, ⟨hp, hd⟩, rfl, rfl⟩; exact ⟨i, hi, hp, hd, rfl⟩
  · rintro ⟨i, hi, hp, hd, rfl⟩; exact ⟨i, hi, P, ⟨hp, hd⟩, rfl, rfl⟩

theorem mem_expectedTrace {pats : List (List α)} {s P : List α} {k : Int} :
    (P, k) ∈ expectedTrace pats s ↔
      ∃ i : Nat, k = (i : Int) ∧ P ∈ pats ∧ P ≠ [] ∧ i + P.length ≤ s.length ∧
        (s.drop i).take P.length = P := by
  simp only [expectedTrace, List.mem_flatMap, List.mem_range, mem_firedAt]
  constructor
  · rintro ⟨j, hj, i, hi, hp, hd, rfl⟩
    rw [List.length_take] at hi
    have hij : i < j + 1 := lt_of_lt_of_le hi (min_le_left _ _)
    have hlen : P.length = j + 1 - i := by
      rw [hd, List.length_drop, List.length_take]; omega
    refine ⟨i, rfl, hp, ?_, by omega, ?_⟩
    · intro h; rw [h] at hlen; simp at hlen; omega
    · rw [hlen, ← List.drop_take]; exact hd.symm
  · rintro ⟨i, rfl, hp, hne, -, hocc⟩
    obtain ⟨hle, hd⟩ := occurrence_spec hne hocc
    have hpos : 0 < P.length := List.length_pos.2 hne
    refine ⟨i + P.length - 1, by omega, i, ?_, hp, ?_, rfl⟩
    · rw [List.length_take]; omega
    · rw [show i + P.length - 1 + 1 = i + P.length by omega]; exact hd.symm

theorem untilStop_initial (f : List α → Int → Bool) (l : List (List α × Int)) :
    untilStop f l <+: l := by
  induction l with
  | nil => exact List.prefix_refl _
  | cons x l ih =>
    unfold untilStop
    split_ifs
    · exact ⟨l, rfl⟩
    · exact (List.prefix_cons_inj x).2 ih

theorem untilStop_dropLast (f : List α → Int → Bool) (l : List (List α × Int)) :
    ∀ x ∈ (untilStop f l).dropLast, f x.1 x.2 = false := by
  induction l with
  | nil => intro x hx; simp [untilStop] at hx
  | cons y l ih =>
    intro x hx
    unfold untilStop at hx
    split_ifs at hx with hy
    · simp at hx
    · cases hl : untilStop f l with
      | nil => rw [hl] at hx; simp at hx
      | cons z zs =>
        rw [hl, List.dropLast_cons₂] at hx
        rcases List.mem_cons.1 hx with rfl | hx
        · simpa using hy
        · exact ih x (by rw [hl]; exact hx)

theorem untilStop_last (f : List α → Int → Bool) (l : List (List α × Int))
    (h : untilStop f l ≠ l) :
    ∃ x, (untilStop f l).getLast? = some x ∧ f x.1 x.2 = true := by
  induction l with
  | nil => exact absurd rfl h
  | cons y l ih =>
    unfold untilStop at h ⊢
    split_ifs at h ⊢ with hy
    · exact ⟨y, rfl, hy⟩
    · have h2 : untilStop f l ≠ l := fun e => h (by rw [e])
      obtain ⟨x, hx, hfx⟩ := ih h2
      refine ⟨x, ?_, hfx⟩
      cases hl : untilStop f l with
      | nil => rw [hl] at hx; simp at hx
      | cons z zs => rw [List.getLast?_cons_cons, ← hl]; exact hx

end helpers

section general

variable [LinearOrder α]

theorem Reachable.match_trace {a : AhoCorasick α} (hr : Reachable a) (hp : a.m_prepaired = true)
    (f : List α → Int → Bool) (s : List α) :
    a.match_ f s = some (untilStop f ((List.range s.length).flatMap (fun j =>
      fire (j : Int) (outputsAt a.heap (longestSuffixState a.heap (s.take (j + 1))))))) := by
  obtain ⟨path, inv⟩ := hr.exists_inv
  rw [inv.match_spec hp f s, traceFrom_eq_flatMap]
  simp

theorem Reachable.matcher_total {a : AhoCorasick α} (hr : Reachable a) :
    ∃ a1 : AhoCorasick α, a.matcher = some a1 ∧ Reachable a1 ∧ a1.m_prepaired = true ∧
      a1.m_patterns = a.m_patterns := by
  obtain ⟨path, inv⟩ := hr.exists_inv
  obtain ⟨a1, e1, -, hf, hpat, -⟩ := inv.prepare_inv
  exact ⟨a1, e1, hr.matcher e1, hf, hpat⟩

/-- On a prepared automaton every occurrence of a registered pattern is in the trace of the
never-stopped traversal, and so is every registered proper suffix, later and at the same
end position. -/
theorem Reachable.occurrence {a : AhoCorasick α} (hr : Reachable a)
    (hp : a.m_prepaired = true) {P s : List α} {i : Nat} (hP : P ∈ a.m_patterns)
    (hocc : (s.drop i).take P.length = P) :
    ∃ (tr pre post seg : List (List α × Int)),
      a.match_ (fun _ _ => false) s = some tr ∧ tr = pre ++ seg ++ post ∧
      (∀ x ∈ seg, x.2 + x.1.length = (i : Int) + P.length) ∧ (P, (i : Int)) ∈ seg ∧
      ∀ Q : List α, Q ∈ a.m_patterns → Q <:+ P → Q ≠ P →
        ∃ l1 l2 l3 : List (List α × Int),
          seg = l1 ++ (P, (i : Int)) :: l2 ++ (Q, (i : Int) + P.length - Q.length) :: l3 := by
  obtain ⟨path, inv⟩ := hr.exists_inv
  have wf := inv.wf
  have prep := inv.prepared hp
  have hne : P ≠ [] := fun h => inv.nonempty (h ▸ hP)
  obtain ⟨hle, hd⟩ := occurrence_spec hne hocc
  have hpos : 0 < P.length := List.length_pos.2 hne
  set j := i + P.length - 1 with hj
  have hj1 : j + 1 = i + P.length := by omega
  have hjlt : j < s.length := by omega
  have hsufP : P <:+ s.take (j + 1) := by
    have := List.drop_suffix i (s.take (i + P.length))
    rw [hd] at this
    rw [hj1]; exact this
  obtain ⟨k, stk, hk, hpk, -⟩ := inv.own P hP
  have hklt := (List.getElem?_eq_some.1 hk).1
  obtain ⟨htlt, -⟩ := wf.lss_spec (s.take (j + 1))
  have hmax := wf.lss_max (s.take (j + 1)) hklt (hpk ▸ hsufP)
  rw [hpk] at hmax
  have hget := List.getElem?_eq_getElem htlt
  have hout : outputsAt a.heap (longestSuffixState a.heap (s.take (j + 1))) =
      (a.heap[longestSuffixState a.heap (s.take (j + 1))]).m_patterns := by
    simp only [outputsAt, hget]
  obtain ⟨as, bs, hab⟩ := List.append_of_mem (List.mem_range.2 hjlt)
  have hposP : (j : Int) - ((P.length : Int) - 1) = (i : Int) := by
    have : (j : Int) = (i : Int) + P.length - 1 := by omega
    rw [this]; ring
  let g : Nat → List (List α × Int) := fun j =>
    fire (j : Int) (outputsAt a.heap (longestSuffixState a.heap (s.take (j + 1))))
  refine ⟨(List.range s.length).flatMap g, as.flatMap g, bs.flatMap g, g j, ?_, ?_, ?_, ?_, ?_⟩
  · rw [hr.match_trace hp, untilStop_never]
  · rw [hab, List.flatMap_append, List.flatMap_cons, List.append_assoc]
  · intro x hx
    simp only [g, fire, List.mem_map] at hx
    obtain ⟨p, -, rfl⟩ := hx
    have : (j : Int) = (i : Int) + P.length - 1 := by omega
    simp only [this]; ring
  · simp only [g, fire, List.mem_map]
    refine ⟨P, ?_, by rw [hposP]⟩
    rw [hout]
    exact prep.complete _ _ P hget hP hmax
  · intro Q hQ hsuf hneq
    obtain ⟨l1, l2, l3, hl⟩ := prep.ordered _ _ P Q hget hP hQ hsuf hneq hmax
    refine ⟨fire j l1, fire j l2, fire j l3, ?_⟩
    show fire (j : Int) _ = _
    rw [hout, hl]
    simp only [fire, List.map_append, List.map_cons, List.append_assoc, List.cons_append]
    have hposQ : (j : Int) - ((Q.length : Int) - 1) = (i : Int) + P.length - Q.length := by
      have : (j : Int) = (i : Int) + P.length - 1 := by omega
      rw [this]; ring
    rw [hposP, hposQ]

theorem flatMap_range_split {β : Type} (g : Nat → List β) (e n : Nat) (h : e ≤ n) :
    (List.range n).flatMap g =
      (List.range e).flatMap g ++ ((List.range (n - e)).map (fun x => e + x)).flatMap g := by
  have hn : n = e + (n - e) := by omega
  conv_lhs => rw [hn, List.range_add, List.flatMap_append]

/-- A traversal that was stopped depends only on the input up to the end position of the
invocation that stopped it. -/
theorem Reachable.match_cut {a : AhoCorasick α} (hr : Reachable a) (hp : a.m_prepaired = true)
    (f : List α → Int → Bool) (s : List α) (tr1 : List (List α × Int))
    (htr : a.match_ f s = some tr1) (x : List α × Int) (hx : x ∈ tr1)
    (hfx : f x.1 x.2 = true) (s2 : List α) :
    a.match_ f (s.take (x.2 + x.1.length).toNat ++ s2) = some tr1 := by
  rw [hr.match_trace hp f s] at htr
  have htr := Option.some.inj htr
  rw [hr.match_trace hp f]
  rw [← htr] at hx ⊢
  congr 1
  have hx2 := (untilStop_initial f _).subset hx
  simp only [List.mem_flatMap, List.mem_range] at hx2
  obtain ⟨j, hj, hxj⟩ := hx2
  have hxj2 := hxj
  simp only [fire, List.mem_map] at hxj2
  obtain ⟨p, -, rfl⟩ := hxj2
  have he : ((j : Int) - ((p.length : Int) - 1) + (p.length : Int)).toNat = j + 1 := by
    have : (j : Int) - ((p.length : Int) - 1) + (p.length : Int) = ((j + 1 : Nat) : Int) := by
      push_cast; ring
    rw [this, Int.toNat_natCast]
  simp only [he]
  have hlen2 : (s.take (j + 1) ++ s2).length = (j + 1) + s2.length := by
    rw [List.length_append, List.length_take]; omega
  rw [flatMap_range_split _ (j + 1) _ (by omega : j + 1 ≤ (s.take (j + 1) ++ s2).length),
    flatMap_range_split _ (j + 1) s.length (by omega)]
  have hsame : (List.range (j + 1)).flatMap (fun k => fire (k : Int) (outputsAt a.heap
        (longestSuffixState a.heap ((s.take (j + 1) ++ s2).take (k + 1))))) =
      (List.range (j + 1)).flatMap (fun k => fire (k : Int) (outputsAt a.heap
        (longestSuffixState a.heap (s.take (k + 1))))) := by
    apply List.flatMap_congr
    intro k hk
    have hk := List.mem_range.1 hk
    rw [List.take_append_of_le_length (by rw [List.length_take]; omega), List.take_take,
      min_eq_left (by omega)]
  rw [hsame]
  have hany : ((List.range (j + 1)).flatMap (fun k => fire (k : Int) (outputsAt a.heap
        (longestSuffixState a.heap (s.take (k + 1)))))).any (fun y => f y.1 y.2) = true := by
    rw [List.any_eq_true]
    exact ⟨_, List.mem_flatMap.2 ⟨j, List.mem_range.2 (Nat.lt_succ_self j), hxj⟩, hfx⟩
  rw [untilStop_append, untilStop_append, hany]
  simp

theorem Reachable.pattern_ne_nil {a : AhoCorasick α} (hr : Reachable a)
    (hp : a.m_prepaired = true) (f : List α → Int → Bool) (s : List α) :
    ∃ tr : List (List α × Int), a.match_ f s = some tr ∧ ∀ x ∈ tr, x.1 ≠ [] := by
  obtain ⟨path, inv⟩ := hr.exists_inv
  refine ⟨_, hr.match_trace hp f s, ?_⟩
  intro x hx
  have hx := (untilStop_initial f _).subset hx
  simp only [List.mem_flatMap, List.mem_range, fire, List.mem_map] at hx
  obtain ⟨j, -, p, hp1, rfl⟩ := hx
  simp only [outputsAt] at hp1
  split at hp1
  · next st hst =>
    intro h
    exact inv.nonempty (h ▸ (inv.sound _ st p hst hp1).1)
  · simp at hp1

end general

theorem exampleAutomaton_eq :
    (AhoCorasick.new.addPatterns examplePatterns).matcher = some exampleAutomaton := by
  decide

theorem exampleAutomaton_reachable : Reachable exampleAutomaton :=
  (Reachable.new.addPatterns_reachable examplePatterns).matcher exampleAutomaton_eq

theorem overlapAutomaton_eq :
    (AhoCorasick.new.addPatterns [['c', 'k'], ['q', 'u', 'i', 'c', 'k']]).matcher =
      some overlapAutomaton := by
  decide

theorem overlapAutomaton_reachable : Reachable overlapAutomaton :=
  (Reachable.new.addPatterns_reachable _).matcher overlapAutomaton_eq

/-- C1, no false negatives: on the automaton built by `addPattern` calls followed by
`matcher()`, for every registered non-empty pattern `P` and every index `i` at which `P`
occurs in the input, `match` with a callback that never returns true invokes the callback
with `(P, i)`. -/
theorem no_false_negatives [LinearOrder α] (pats : List (List α)) (s P : List α) (i : Nat)
    (f : List α → Int → Bool) (hf : ∀ p k, f p k = false) (hP : P ∈ pats) (hne : P ≠ [])
    (hocc : (s.drop i).take P.length = P) :
    ∃ (a : AhoCorasick α) (tr : List (List α × Int)),
      (AhoCorasick.new.addPatterns pats).matcher = some a ∧ a.match_ f s = some tr ∧
      (P, (i : Int)) ∈ tr := by
  obtain ⟨a, ha, -, -, -, hm⟩ := match_addPatterns pats
  refine ⟨a, _, ha, hm f s, ?_⟩
  have hfn : f = fun _ _ => false := by funext p k; exact hf p k
  rw [hfn, untilStop_never]
  exact mem_expectedTrace.2 ⟨i, rfl, hP, hne, (occurrence_spec hne hocc).1, hocc⟩

theorem no_false_negatives_witness :
    ∃ (a : AhoCorasick Char) (tr : List (List Char × Int)),
      (AhoCorasick.new.addPatterns [['c', 'k'], ['q', 'u', 'i', 'c', 'k']]).matcher = some a ∧
      a.match_ (fun _ _ => false) ['q', 'u', 'i', 'c', 'k'] = some tr ∧
      (['c', 'k'], (3 : Int)) ∈ tr :=
  no_false_negatives [['c', 'k'], ['q', 'u', 'i', 'c', 'k']] ['q', 'u', 'i', 'c', 'k']
    ['c', 'k'] 3 (fun _ _ => false) (fun _ _ => rfl) (by decide) (by decide) (by decide)

/-- C2, no false positives: on the automaton built by `addPattern` calls followed by
`matcher()`, `match` returns for every callback and every input, and every invocation
`(P, i)` it makes has `0 ≤ i`, `i + len P ≤ len s` and `s[i, i + len P) = P`, for a
registered `P`. -/
theorem no_false_positives [LinearOrder α] (pats : List (List α)) (s : List α)
    (f : List α → Int → Bool) :
    ∃ (a : AhoCorasick α) (tr : List (List α × Int)),
      (AhoCorasick.new.addPatterns pats).matcher = some a ∧ a.match_ f s = some tr ∧
      ∀ (P : List α) (i : Int), (P, i) ∈ tr →
        0 ≤ i ∧ i + P.length ≤ s.length ∧ (s.drop i.toNat).take P.length = P ∧
          P ∈ pats := by
  obtain ⟨a, ha, -, -, -, hm⟩ := match_addPatterns pats
  refine ⟨a, _, ha, hm f s, ?_⟩
  intro P i hmem
  obtain ⟨k, rfl, hP, -, hle, hocc⟩ :=
    mem_expectedTrace.1 ((untilStop_initial f _).subset hmem)
  refine ⟨Int.natCast_nonneg k, by exact_mod_cast hle, by simpa using hocc, hP⟩

/-- C3, firing order and multiplicity: on the automaton built by `addPattern(p1)`, ...,
`addPattern(pn)` and one `matcher()` call, the invocations of `match` with a callback that
always returns false are, for each end index in increasing order and each start index in
increasing order (longer patterns first), the registrations equal to that part of the
input, each once, in registration order, at the start index. -/
theorem firing_order [LinearOrder α] (pats : List (List α)) (s : List α) :
    ∃ a : AhoCorasick α, (AhoCorasick.new.addPatterns pats).matcher = some a ∧
      a.match_ (fun _ _ => false) s =
        some ((List.range s.length).flatMap (fun j =>
          (List.range (j + 1)).flatMap (fun i =>
            (pats.filter (fun p => decide (p = (s.take (j + 1)).drop i))).map
              (fun p => (p, (i : Int)))))) := by
  obtain ⟨a, ha, -, -, -, hm⟩ := match_addPatterns pats
  refine ⟨a, ha, ?_⟩
  rw [hm, untilStop_never]
  congr 1
  unfold expectedTrace
  apply List.flatMap_congr
  intro j hj
  have hj := List.mem_range.1 hj
  unfold firedAt
  rw [List.length_take, min_eq_left (by omega)]

/-- C4, early stop: on every prepared automaton, for every callback `f` and input, the
invocations of `match` are a prefix of the invocations of the never-stopped traversal;
`f` returns false on all of them but the last; unless they are all of the never-stopped
invocations, `f` returns true on the last; when `f` returns true on the first match, that
is the only invocation; and once `f` has returned true the input after that end position
is not looked at: replacing it by anything gives the same invocations. -/
theorem early_stop [LinearOrder α] (a : AhoCorasick α) (hr : Reachable a)
    (hp : a.m_prepaired = true) (f : List α → Int → Bool) (s : List α) :
    ∃ tr tr1 : List (List α × Int),
      a.match_ (fun _ _ => false) s = some tr ∧ a.match_ f s = some tr1 ∧
      tr1 <+: tr ∧ (∀ x ∈ tr1.dropLast, f x.1 x.2 = false) ∧
      (tr1 ≠ tr → ∃ x, tr1.getLast? = some x ∧ f x.1 x.2 = true) ∧
      (∀ x xs, tr = x :: xs → f x.1 x.2 = true → tr1 = [x]) ∧
      (∀ x ∈ tr1, f x.1 x.2 = true → ∀ s2 : List α,
        a.match_ f (s.take (x.2 + x.1.length).toNat ++ s2) = some tr1) := by
  refine ⟨_, _, ?_, hr.match_trace hp f s, untilStop_initial f _, untilStop_dropLast f _,
    untilStop_last f _, ?_, ?_⟩
  · rw [hr.match_trace hp, untilStop_never]
  · intro x xs h hx
    rw [h]; simp only [untilStop, hx, if_true]
  · intro x hx hfx s2
    exact hr.match_cut hp f s _ (hr.match_trace hp f s) x hx hfx s2

theorem early_stop_witness :
    ∃ tr tr1 : List (List Char × Int),
      exampleAutomaton.match_ (fun _ _ => false) exampleInput = some tr ∧
      exampleAutomaton.match_ (fun _ _ => true) exampleInput = some tr1 ∧
      tr1 <+: tr ∧ (∀ x ∈ tr1.dropLast, (fun _ _ => true) x.1 x.2 = false) ∧
      (tr1 ≠ tr → ∃ x, tr1.getLast? = some x ∧ (fun _ _ => true) x.1 x.2 = true) ∧
      (∀ x xs, tr = x :: xs → (fun _ _ => true) x.1 x.2 = true → tr1 = [x]) ∧
      (∀ x ∈ tr1, (fun _ _ => true) x.1 x.2 = true → ∀ s2 : List Char,
        exampleAutomaton.match_ (fun _ _ => true)
          (exampleInput.take (x.2 + x.1.length).toNat ++ s2) = some tr1) :=
  early_stop exampleAutomaton exampleAutomaton_reachable (by decide) (fun _ _ => true)
    exampleInput

/-- C5 as stated fails: after `addPattern("a")`, `matcher()` and `addPattern("b")`, a
`match` over `"b"` through the handle obtained before the second `addPattern` makes no
invocation `("b", 0)`. -/
theorem same_handle_refuted :
    ¬ ∃ (a1 : AhoCorasick Char) (tr : List (List Char × Int)),
      (AhoCorasick.new.addPattern ['a']).matcher = some a1 ∧
      Matcher.match_ (a1.addPattern ['b']) (fun _ _ => false) ['b'] = some tr ∧
      (['b'], (0 : Int)) ∈ tr := by
  rintro ⟨a1, tr, h1, h2, -⟩
  have e : ((AhoCorasick.new.addPattern ['a']).matcher).map
      (fun a1 => Matcher.match_ (a1.addPattern ['b']) (fun _ _ => false) ['b']) = some none := by
    decide
  rw [h1, Option.map_some', h2] at e
  cases e

/-- C5 amended: after `addPattern(P)` with `P` non-empty on any reachable automaton, a
`match` through the handle obtained before fails the `assert`, and a `match` through a
handle obtained afterwards invokes the callback with `(P, i)` for every occurrence of `P`
at `i`. -/
theorem repreparation_after_growth [LinearOrder α] (a : AhoCorasick α) (hr : Reachable a)
    (P s : List α) (i : Nat) (hne : P ≠ []) (hocc : (s.drop i).take P.length = P) :
    (∀ f : List α → Int → Bool, Matcher.match_ (a.addPattern P) f s = none) ∧
    ∃ (a1 : AhoCorasick α) (tr : List (List α × Int)),
      (a.addPattern P).matcher = some a1 ∧
      Matcher.match_ a1 (fun _ _ => false) s = some tr ∧ (P, (i : Int)) ∈ tr := by
  obtain ⟨path, inv⟩ := hr.exists_inv
  obtain ⟨path1, j, -, hpats, hflag, -⟩ := addPattern_cons inv.wf inv.rootFail hne
  constructor
  · intro f
    simp only [Matcher.match_, AhoCorasick.match_, hflag, Bool.false_eq_true, if_false]
  · obtain ⟨a1, e1, hr1, hp1, hpat1⟩ := (hr.addPattern P).matcher_total
    have hP : P ∈ a1.m_patterns := by rw [hpat1, hpats]; simp
    obtain ⟨tr, pre, post, seg, htr, hsplit, -, hmem, -⟩ := hr1.occurrence hp1 hP hocc
    refine ⟨a1, tr, e1, htr, ?_⟩
    rw [hsplit]
    exact List.mem_append_left _ (List.mem_append_right _ hmem)

theorem repreparation_after_growth_witness :
    (∀ f : List Char → Int → Bool,
      Matcher.match_ (exampleAutomaton.addPattern ['f', 'o', 'x']) f exampleInput = none) ∧
    ∃ (a1 : AhoCorasick Char) (tr : List (List Char × Int)),
      (exampleAutomaton.addPattern ['f', 'o', 'x']).matcher = some a1 ∧
      Matcher.match_ a1 (fun _ _ => false) exampleInput = some tr ∧
      (['f', 'o', 'x'], (10 : Int)) ∈ tr :=
  repreparation_after_growth exampleAutomaton exampleAutomaton_reachable ['f', 'o', 'x']
    exampleInput 10 (by decide) (by decide)

/-- C6 on the code: with `"ab"` and `"b"` registered and prepared, then `"c"` registered
and prepared again, `match` over `"ab"` reports `("b", 1)` twice; with the three patterns
registered before a single preparation it reports it once. -/
theorem repreparation_duplicates_outputs :
    (((AhoCorasick.new.addPatterns [['a', 'b'], ['b']]).matcher).bind
        (fun a => ((a.addPattern ['c']).matcher).bind
          (fun a1 => a1.match_ (fun _ _ => false) ['a', 'b'])) =
      some [(['a', 'b'], 0), (['b'], 1), (['b'], 1)]) ∧
    (((AhoCorasick.new.addPatterns [['a', 'b'], ['b'], ['c']]).matcher).bind
        (fun a1 => a1.match_ (fun _ _ => false) ['a', 'b']) =
      some [(['a', 'b'], 0), (['b'], 1)]) := by
  decide

/-- C7 as stated fails: with the patterns of `example.cpp` registered in that order,
`match` over its input with a callback that never stops does not report the listed
matches `("azy", 24)`, `("own", 29)`, `("brown", 26)`, `("own", 50)`, `("own", 59)`,
`("brown", 56)`. -/
theorem example_listed_matches_refuted :
    ((AhoCorasick.new.addPatterns examplePatterns).matcher).bind
        (fun a => a.match_ (fun _ _ => false) exampleInput) ≠
      some [(['q', 'u', 'i', 'c', 'k'], 0), (['c', 'k'], 3), (['a', 'z', 'y'], 24),
        (['o', 'w', 'n'], 29), (['b', 'r', 'o', 'w', 'n'], 26), (['o', 'w', 'n'], 50),
        (['o', 'w', 'n'], 59), (['b', 'r', 'o', 'w', 'n'], 56)] := by
  decide

/-- C7 amended: with the patterns `"quick"`, `"ck"`, `"azy"`, `"own"`, `"brown"` registered
in that order, `matcher()` succeeds and `match` over the example input with a callback
that never stops reports exactly `("quick", 0)`, `("ck", 3)`, `("azy", 26)`,
`("brown", 30)`, `("own", 32)`, `("own", 45)`, `("brown", 50)`, `("own", 52)`, in this
order. -/
theorem example_matches :
    ((AhoCorasick.new.addPatterns examplePatterns).matcher).bind
        (fun a => a.match_ (fun _ _ => false) exampleInput) =
      some [(['q', 'u', 'i', 'c', 'k'], 0), (['c', 'k'], 3), (['a', 'z', 'y'], 26),
        (['b', 'r', 'o', 'w', 'n'], 30), (['o', 'w', 'n'], 32), (['o', 'w', 'n'], 45),
        (['b', 'r', 'o', 'w', 'n'], 50), (['o', 'w', 'n'], 52)] := by
  decide

/-- C8, overlap correctness: on every prepared automaton, for registered patterns `P` and
`Q` with `Q` a proper suffix of `P`, every occurrence of `P` at `i` yields the invocation
`(P, i)` and, later and at the same end position, the invocation
`(Q, i + len P - len Q)`. -/
theorem overlap_correctness [LinearOrder α] (a : AhoCorasick α) (hr : Reachable a)
    (hp : a.m_prepaired = true) (P Q s : List α) (i : Nat) (hP : P ∈ a.m_patterns)
    (hQ : Q ∈ a.m_patterns) (hsuf : Q <:+ P) (hne : Q ≠ P)
    (hocc : (s.drop i).take P.length = P) :
    ∃ tr l1 l2 l3 : List (List α × Int),
      a.match_ (fun _ _ => false) s = some tr ∧
      tr = l1 ++ (P, (i : Int)) :: l2 ++ (Q, (i : Int) + P.length - Q.length) :: l3 ∧
      ∀ x ∈ l2, x.2 + x.1.length = (i : Int) + P.length := by
  obtain ⟨tr, pre, post, seg, htr, hsplit, hend, -, hord⟩ := hr.occurrence hp hP hocc
  obtain ⟨l1, l2, l3, hseg⟩ := hord Q hQ hsuf hne
  refine ⟨tr, pre ++ l1, l2, l3 ++ post, htr, ?_, ?_⟩
  · rw [hsplit, hseg]; simp
  · intro x hx
    apply hend
    rw [hseg]; simp [hx]

theorem overlap_correctness_witness :
    overlapAutomaton.match_ (fun _ _ => false) ['q', 'u', 'i', 'c', 'k'] =
      some [(['q', 'u', 'i', 'c', 'k'], 0), (['c', 'k'], 3)] ∧
    ((AhoCorasick.new.addPatterns [['q', 'u', 'i', 'c', 'k'], ['c', 'k']]).matcher).bind
        (fun a => a.match_ (fun _ _ => false) ['q', 'u', 'i', 'c', 'k']) =
      some [(['q', 'u', 'i', 'c', 'k'], 0), (['c', 'k'], 3)] ∧
    ∃ tr l1 l2 l3 : List (List Char × Int),
      overlapAutomaton.match_ (fun _ _ => false) ['q', 'u', 'i', 'c', 'k'] = some tr ∧
      tr = l1 ++ (['q', 'u', 'i', 'c', 'k'], ((0 : Nat) : Int)) :: l2 ++
        (['c', 'k'], ((0 : Nat) : Int) + (['q', 'u', 'i', 'c', 'k'] : List Char).length -
          (['c', 'k'] : List Char).length) :: l3 ∧
      ∀ x ∈ l2, x.2 + x.1.length =
        ((0 : Nat) : Int) + (['q', 'u', 'i', 'c', 'k'] : List Char).length :=
  ⟨by decide, by decide,
    overlap_correctness overlapAutomaton overlapAutomaton_reachable (by decide)
      ['q', 'u', 'i', 'c', 'k'] ['c', 'k'] ['q', 'u', 'i', 'c', 'k'] 0 (by decide) (by decide)
      ⟨['q', 'u', 'i'], rfl⟩ (by decide) (by decide)⟩

/-- C9, the empty pattern is inert: on every reachable automaton, prepared or not,
`addPattern` of the empty pattern returns the automaton unchanged (states, pattern
collection and flag), so `matcher()` and `match` behave as without it; and no traversal
of a prepared automaton invokes the callback with an empty pattern. -/
theorem empty_pattern_inert [LinearOrder α] (a : AhoCorasick α) (hr : Reachable a) :
    a.addPattern [] = a ∧
    (∀ (f : List α → Int → Bool) (s : List α),
      (a.addPattern []).match_ f s = a.match_ f s) ∧
    ∃ a1 : AhoCorasick α, (a.addPattern []).matcher = some a1 ∧ a.matcher = some a1 ∧
      ∀ (f : List α → Int → Bool) (s : List α),
        ∃ tr : List (List α × Int), a1.match_ f s = some tr ∧ ∀ x ∈ tr, x.1 ≠ [] := by
  obtain ⟨path, inv⟩ := hr.exists_inv
  have he := addPattern_nil inv.wf
  obtain ⟨a1, e1, hr1, hp1, -⟩ := hr.matcher_total
  refine ⟨he, fun f s => by rw [he], a1, by rw [he]; exact e1, e1, fun f s => ?_⟩
  exact hr1.pattern_ne_nil hp1 f s

theorem empty_pattern_inert_witness :
    exampleAutomaton.addPattern [] = exampleAutomaton ∧
    (∀ (f : List Char → Int → Bool) (s : List Char),
      (exampleAutomaton.addPattern []).match_ f s = exampleAutomaton.match_ f s) ∧
    ∃ a1 : AhoCorasick Char, (exampleAutomaton.addPattern []).matcher = some a1 ∧
      exampleAutomaton.matcher = some a1 ∧
      ∀ (f : List Char → Int → Bool) (s : List Char),
        ∃ tr : List (List Char × Int), a1.match_ f s = some tr ∧ ∀ x ∈ tr, x.1 ≠ [] :=
  empty_pattern_inert exampleAutomaton exampleAutomaton_reachable

/-- C10, idempotent preparation: on every reachable automaton `matcher()` succeeds, and a
second `matcher()` with no `addPattern` in between returns the automaton exactly as the
first call left it, with the flag set; so `match` through either handle gives the same
result. -/
theorem idempotent_preparation [LinearOrder α] (a : AhoCorasick α) (hr : Reachable a) :
    ∃ a1 : AhoCorasick α, a.matcher = some a1 ∧ a1.matcher = some a1 ∧
      a1.m_prepaired = true ∧
      ∀ a2 : AhoCorasick α, a1.matcher = some a2 →
        ∀ (f : List α → Int → Bool) (s : List α),
          Matcher.match_ a2 f s = Matcher.match_ a1 f s := by
  obtain ⟨a1, e1, -, hp1, -⟩ := hr.matcher_total
  have e2 : a1.matcher = some a1 := Inv.prepare_of_prepared hp1
  refine ⟨a1, e1, e2, hp1, fun a2 h2 f s => ?_⟩
  rw [e2] at h2; cases h2; rfl

theorem idempotent_preparation_witness :
    ∃ a1 : AhoCorasick Char, (AhoCorasick.new.addPatterns examplePatterns).matcher = some a1 ∧
      a1.matcher = some a1 ∧ a1.m_prepaired = true ∧
      ∀ a2 : AhoCorasick Char, a1.matcher = some a2 →
        ∀ (f : List Char → Int → Bool) (s : List Char),
          Matcher.match_ a2 f s = Matcher.match_ a1 f s :=
  idempotent_preparation (AhoCorasick.new.addPatterns examplePatterns)
    (Reachable.new.addPatterns_reachable examplePatterns)

section links

variable [LinearOrder α] {heap : List (State α)} {path : Nat → List α}

/-- The state `longestSuffixState heap σ` in terms of root-anchored walks: it is reached by
a suffix of `σ`, and every suffix of `σ` that is a path of the trie is a suffix of that
one. -/
theorem WF.lss_greatest (wf : WF heap path) (σ : List α) :
    ∃ ρ : List α, findState heap ρ 0 = some (longestSuffixState heap σ) ∧ ρ <:+ σ ∧
      ∀ ρ1 : List α, ρ1 <:+ σ → (findState heap ρ1 0).isSome = true →
        ρ1 <:+ ρ ∧ ρ1.length ≤ ρ.length := by
  obtain ⟨hlt, hsuf⟩ := wf.lss_spec σ
  refine ⟨path (longestSuffixState heap σ), wf.findState_of_path _ hlt, hsuf, ?_⟩
  intro ρ1 h1 hsome
  obtain ⟨k, hk⟩ := Option.isSome_iff_exists.1 hsome
  obtain ⟨hklt, hpk⟩ := wf.findState_iff.1 hk
  have := wf.lss_max σ hklt (hpk ▸ h1)
  rw [hpk] at this
  exact ⟨this, this.length_le⟩

theorem WF.node_has_path (wf : WF heap path) {N : Nat} (hN : N < heap.length) :
    ∃ π : List α, findState heap π 0 = some N :=
  ⟨path N, wf.findState_of_path N hN⟩

end links

section reachable

variable [LinearOrder α] {a : AhoCorasick α}

/-- The failure transition of a non-root state of a prepared automaton. -/
theorem Reachable.fail_spec (hr : Reachable a) (hp : a.m_prepaired = true) {π : List α}
    {N : Nat} (hN : findState a.heap π 0 = some N) (hN0 : N ≠ 0) :
    ∃ (st : State α) (t : Nat) (σ : List α), a.heap[N]? = some st ∧
      st.m_failTransition = some t ∧ t < a.heap.length ∧ findState a.heap σ 0 = some t ∧
      σ <:+ π ∧ σ ≠ π ∧ σ.length < π.length ∧
      (∀ ρ : List α, ρ <:+ π → ρ ≠ π → (findState a.heap ρ 0).isSome = true →
        ρ <:+ σ ∧ ρ.length ≤ σ.length) ∧
      ((∀ ρ : List α, ρ <:+ π → ρ ≠ π → ρ ≠ [] → findState a.heap ρ 0 = none) → t = 0) ∧
      (π.length = 1 → t = 0) := by
  obtain ⟨path, inv⟩ := hr.exists_inv
  have wf := inv.wf
  have prep := inv.prepared hp
  obtain ⟨hNlt, hpN⟩ := wf.findState_iff.1 hN
  have hget := List.getElem?_eq_getElem hNlt
  have hfail := prep.fail N _ hget hN0
  rw [hpN] at hfail
  have hne : π ≠ [] := fun h => hN0 ((wf.path_eq_nil hNlt).1 (hpN.trans h))
  obtain ⟨c, tl, hcons⟩ := List.exists_cons_of_ne_nil hne
  have htl : π.tail = tl := by rw [hcons]; rfl
  rw [htl] at hfail
  obtain ⟨hlt, -⟩ := wf.lss_spec tl
  obtain ⟨σ, hσ, hsuf, hmax⟩ := wf.lss_greatest tl
  have hproper : ∀ ρ : List α, ρ <:+ π → ρ ≠ π → ρ <:+ tl := by
    intro ρ h1 h2
    rw [hcons] at h1 h2
    rcases List.suffix_cons_iff.1 h1 with h3 | h3
    · exact absurd h3 h2
    · exact h3
  have hlen : σ.length < π.length := by
    have := hsuf.length_le
    rw [hcons, List.length_cons]; omega
  refine ⟨_, _, σ, hget, hfail, hlt, hσ, ?_, ?_, hlen, ?_, ?_, ?_⟩
  · rw [hcons]; exact hsuf.trans (List.suffix_cons _ _)
  · intro h; rw [h] at hlen; exact lt_irrefl _ hlen
  · intro ρ h1 h2 h3
    exact hmax ρ (hproper ρ h1 h2) h3
  · intro hnone
    by_contra ht
    have hσne : σ ≠ [] := by
      intro h
      rw [h] at hσ
      simp only [findState] at hσ
      exact ht (Option.some.inj hσ).symm
    have := hnone σ (by rw [hcons]; exact hsuf.trans (List.suffix_cons _ _))
      (fun h => by rw [h] at hlen; exact lt_irrefl _ hlen) hσne
    rw [this] at hσ; cases hσ
  · intro h1
    have : tl = [] := by
      rw [hcons, List.length_cons] at h1
      exact List.length_eq_zero.1 (by omega)
    rw [this]; rfl

theorem Reachable.root_spec (hr : Reachable a) :
    ∃ r : State α, a.heap[0]? = some r ∧ r.m_parent = none ∧
      r.m_failTransition = some 0 ∧ r.m_patterns = [] := by
  obtain ⟨path, inv⟩ := hr.exists_inv
  obtain ⟨r, hr0, hrp⟩ := inv.wf.root
  exact ⟨r, hr0, hrp, inv.rootFail r hr0, inv.root_patterns r hr0⟩

/-- On a prepared automaton `next` returns within the depth of the state, and moves to the
state of the longest suffix of the extended path. -/
theorem Reachable.next_spec (hr : Reachable a) (hp : a.m_prepaired = true) {π : List α}
    {N : Nat} (hN : findState a.heap π 0 = some N) (e : α) (fuel : Nat)
    (hfuel : π.length < fuel) :
    State.next a.heap fuel N e = some (longestSuffixState a.heap (π ++ [e])) ∧
    π.length < a.heap.length := by
  obtain ⟨path, inv⟩ := hr.exists_inv
  have wf := inv.wf
  obtain ⟨hNlt, hpN⟩ := wf.findState_iff.1 hN
  have := wf.next (inv.prepared hp).fail fuel N e hNlt (by rw [hpN]; exact hfuel)
  rw [hpN] at this
  exact ⟨this, by rw [← hpN]; exact lt_of_le_of_lt (wf.path_length_le N hNlt) hNlt⟩

theorem Reachable.node_path (hr : Reachable a) {N : Nat} (hN : N < a.heap.length) :
    ∃ π : List α, findState a.heap π 0 = some N := by
  obtain ⟨path, inv⟩ := hr.exists_inv
  exact inv.wf.node_has_path hN

theorem Reachable.findState_lt (hr : Reachable a) {π : List α} {N : Nat}
    (hN : findState a.heap π 0 = some N) : N < a.heap.length := by
  obtain ⟨path, inv⟩ := hr.exists_inv
  exact (inv.wf.findState_iff.1 hN).1

theorem Reachable.lss_longest (hr : Reachable a) (σ : List α) :
    longestSuffixState a.heap σ < a.heap.length ∧
    ∃ ρ : List α, findState a.heap ρ 0 = some (longestSuffixState a.heap σ) ∧ ρ <:+ σ ∧
      ∀ ρ1 : List α, ρ1 <:+ σ → (findState a.heap ρ1 0).isSome = true →
        ρ1 <:+ ρ ∧ ρ1.length ≤ ρ.length := by
  obtain ⟨path, inv⟩ := hr.exists_inv
  exact ⟨(inv.wf.lss_spec σ).1, inv.wf.lss_greatest σ⟩

end reachable

section chain

variable [LinearOrder α] {a : AhoCorasick α} {path : Nat → List α}

theorem matchLoopLog_fst (heap : List (State α)) (f : List α → Int → Bool) (s : List α) :
    ∀ (state : Nat) (b : Int),
      (matchLoopLog heap f s state b).map Prod.fst = matchLoop heap f s state b := by
  induction s with
  | nil => intro state b; rfl
  | cons c cs ih =>
    intro state b
    cases h1 : State.next heap heap.length state c with
    | none => simp only [matchLoopLog, matchLoop, h1, Option.map_none']
    | some state1 =>
      cases h2 : heap[state1]? with
      | none => simp only [matchLoopLog, matchLoop, h1, h2, Option.map_none']
      | some st =>
        cases h3 : (st.applyPatterns f b).2 with
        | true => simp only [matchLoopLog, matchLoop, h1, h2, h3, if_true, Option.map_some']
        | false =>
          have hih := ih state1 (b + 1)
          cases h4 : matchLoopLog heap f cs state1 (b + 1) with
          | none =>
            rw [h4] at hih
            simp only [matchLoopLog, matchLoop, h1, h2, h3, h4, ← hih, Option.map_none',
              Bool.false_eq_true, if_false]
          | some r =>
            rw [h4] at hih
            simp only [matchLoopLog, matchLoop, h1, h2, h3, h4, ← hih, Option.map_some',
              Bool.false_eq_true, if_false]

theorem matchLog_fst (a : AhoCorasick α) (f : List α → Int → Bool) (s : List α) :
    (matchLog a f s).map Prod.fst = a.match_ f s := by
  unfold matchLog AhoCorasick.match_
  split_ifs
  · exact matchLoopLog_fst _ _ _ _ _
  · rfl

theorem applyLoop_stop (f : List α → Int → Bool) (i : Int) (ps : List (List α))
    (h : (applyLoop f i ps).2 = true) : ∃ x ∈ (applyLoop f i ps).1, f x.1 x.2 = true := by
  induction ps with
  | nil => simp [applyLoop] at h
  | cons p ps ih =>
    by_cases hx : f p (i - ((p.length : Int) - 1)) = true
    · exact ⟨(p, i - ((p.length : Int) - 1)), by simp [applyLoop, hx], hx⟩
    · simp only [applyLoop, hx, if_false, Bool.false_eq_true] at h ⊢
      obtain ⟨x, hx1, hx2⟩ := ih h
      exact ⟨x, List.mem_cons_of_mem _ hx1, hx2⟩

/-- The log of the traversal loop on a prepared automaton, started in the state of the
longest suffix of the consumed input: entry `j` is the state of the longest suffix of the
input consumed up to and including element `j`. -/
theorem Inv.matchLoopLog_spec (inv : Inv a path) (hp : a.m_prepaired = true)
    (f : List α → Int → Bool) (s : List α) : ∀ pre : List α,
      ∃ (tr : List (List α × Int)) (states : List Nat),
        matchLoopLog a.heap f s (longestSuffixState a.heap pre) pre.length =
          some (tr, states) ∧
        states.length ≤ s.length ∧
        (∀ (j M : Nat), states[j]? = some M →
          M = longestSuffixState a.heap (pre ++ s.take (j + 1))) ∧
        ((∀ x ∈ tr, f x.1 x.2 = false) → states.length = s.length) := by
  have wf := inv.wf
  induction s with
  | nil => intro pre; exact ⟨[], [], rfl, le_refl _, by simp, fun _ => rfl⟩
  | cons c cs ih =>
    intro pre
    obtain ⟨hlt, -⟩ := wf.lss_spec pre
    have hnext := wf.next (inv.prepared hp).fail a.heap.length _ c hlt
      (lt_of_le_of_lt (wf.path_length_le _ hlt) hlt)
    rw [← wf.lss_append] at hnext
    obtain ⟨hlt1, -⟩ := wf.lss_spec (pre ++ [c])
    have hget := List.getElem?_eq_getElem hlt1
    cases h3 : ((a.heap[longestSuffixState a.heap (pre ++ [c])]).applyPatterns f
        (pre.length : Int)).2 with
    | true =>
      refine ⟨((a.heap[longestSuffixState a.heap (pre ++ [c])]).applyPatterns f
        (pre.length : Int)).1, [longestSuffixState a.heap (pre ++ [c])], ?_, by simp, ?_, ?_⟩
      · simp only [AhoCorasick.matchLoopLog, hnext, hget, h3, if_true]
      · intro j M hj
        cases j with
        | zero =>
          simp only [List.getElem?_cons_zero, Option.some.injEq] at hj
          rw [← hj]; simp
        | succ j => simp at hj
      · intro hall
        exfalso
        unfold State.applyPatterns at h3 hall
        by_cases hroot : (a.heap[longestSuffixState a.heap (pre ++ [c])]).isRoot = true
        · rw [if_pos hroot] at h3; cases h3
        · rw [if_neg hroot] at h3 hall
          obtain ⟨x, hx1, hx2⟩ := applyLoop_stop f _ _ h3
          rw [hall x hx1] at hx2; cases hx2
    | false =>
      obtain ⟨tr, states, e1, e2, e3, e4⟩ := ih (pre ++ [c])
      have hcast : (((pre ++ [c]).length : Nat) : Int) = (pre.length : Int) + 1 := by simp
      rw [hcast] at e1
      refine ⟨((a.heap[longestSuffixState a.heap (pre ++ [c])]).applyPatterns f
        (pre.length : Int)).1 ++ tr, longestSuffixState a.heap (pre ++ [c]) :: states,
        ?_, ?_, ?_, ?_⟩
      · simp only [AhoCorasick.matchLoopLog, hnext, hget, h3, e1, Bool.false_eq_true,
          if_false]
      · simp only [List.length_cons]; omega
      · intro j M hj
        cases j with
        | zero =>
          simp only [List.getElem?_cons_zero, Option.some.injEq] at hj
          rw [← hj]; simp
        | succ j =>
          simp only [List.getElem?_cons_succ] at hj
          rw [e3 j M hj]; simp
      · intro hall
        simp only [List.length_cons]
        rw [e4 (fun x hx => hall x (List.mem_append_right _ hx))]

theorem Inv.failStep_suffix (inv : Inv a path) (hp : a.m_prepaired = true) {m t : Nat}
    (hm : m < a.heap.length) (h : failStep a.heap m t) :
    t < a.heap.length ∧ path t <:+ path m := by
  have wf := inv.wf
  obtain ⟨st, hst, hf⟩ := h
  by_cases hm0 : m = 0
  · subst hm0
    rw [inv.rootFail st hst] at hf
    cases hf
    exact ⟨hm, List.suffix_refl _⟩
  · rw [(inv.prepared hp).fail m st hst hm0] at hf
    cases hf
    obtain ⟨h1, h2⟩ := wf.lss_spec (path m).tail
    exact ⟨h1, h2.trans (List.tail_suffix _)⟩

theorem Inv.chain_suffix (inv : Inv a path) (hp : a.m_prepaired = true) {N M : Nat}
    (hN : N < a.heap.length) (h : Relation.ReflTransGen (failStep a.heap) N M) :
    M < a.heap.length ∧ path M <:+ path N := by
  induction h with
  | refl => exact ⟨hN, List.suffix_refl _⟩
  | tail _ hstep ih =>
    obtain ⟨h1, h2⟩ := inv.failStep_suffix hp ih.1 hstep
    exact ⟨h1, h2.trans ih.2⟩

theorem Inv.suffix_chain (inv : Inv a path) (hp : a.m_prepaired = true) (n : Nat) :
    ∀ N M : Nat, (path N).length ≤ n → N < a.heap.length → M < a.heap.length →
      path M <:+ path N → Relation.ReflTransGen (failStep a.heap) N M := by
  have wf := inv.wf
  induction n with
  | zero =>
    intro N M hn hN hM hsuf
    rw [List.length_eq_zero.1 (Nat.le_zero.1 hn)] at hsuf
    have h0 : N = 0 := (wf.path_eq_nil hN).1 (List.length_eq_zero.1 (Nat.le_zero.1 hn))
    have hM0 : M = 0 := (wf.path_eq_nil hM).1 (List.suffix_nil.1 hsuf)
    rw [h0, hM0]
  | succ n ih =>
    intro N M hn hN hM hsuf
    by_cases hNM : M = N
    · rw [hNM]
    have hN0 : N ≠ 0 := by
      rintro rfl
      rw [wf.path_root] at hsuf
      exact hNM ((wf.path_eq_nil hM).1 (List.suffix_nil.1 hsuf))
    have hne : path N ≠ [] := fun h => hN0 ((wf.path_eq_nil hN).1 h)
    obtain ⟨c, tl, hcons⟩ := List.exists_cons_of_ne_nil hne
    have htl : (path N).tail = tl := by rw [hcons]; rfl
    have hsuf2 : path M <:+ (path N).tail := by
      rw [htl]
      rw [hcons] at hsuf
      rcases List.suffix_cons_iff.1 hsuf with h1 | h1
      · exact absurd (wf.path_inj hM hN (h1.trans hcons.symm)) hNM
      · exact h1
    obtain ⟨htlt, hts⟩ := wf.lss_spec (path N).tail
    have hmax := wf.lss_max (path N).tail hM hsuf2
    have hlen : (path (longestSuffixState a.heap (path N).tail)).length ≤ n := by
      have := hts.length_le
      rw [htl] at this
      rw [hcons, List.length_cons] at hn
      rw [htl]; omega
    have hstep : failStep a.heap N (longestSuffixState a.heap (path N).tail) :=
      ⟨_, List.getElem?_eq_getElem hN, (inv.prepared hp).fail N _ (List.getElem?_eq_getElem hN) hN0⟩
    exact Relation.ReflTransGen.head hstep (ih _ M hlen htlt hM hmax)

end chain

section reachable

variable [LinearOrder α] {a : AhoCorasick α}

/-- The output list of a state of a prepared automaton, as a set: the registered patterns
that are suffixes of the path, which are the registered patterns ending at the states on
the chain of failure transitions. -/
theorem Reachable.outputs_spec (hr : Reachable a) (hp : a.m_prepaired = true) {π : List α}
    {N : Nat} (hN : findState a.heap π 0 = some N) :
    ∃ st : State α, a.heap[N]? = some st ∧ ∀ p : List α,
      (p ∈ st.m_patterns ↔ p ∈ a.m_patterns ∧ p <:+ π) ∧
      ((p ∈ a.m_patterns ∧ p <:+ π) ↔
        ∃ M : Nat, Relation.ReflTransGen (failStep a.heap) N M ∧ p ∈ a.m_patterns ∧
          findState a.heap p 0 = some M) := by
  obtain ⟨path, inv⟩ := hr.exists_inv
  have wf := inv.wf
  obtain ⟨hNlt, hpN⟩ := wf.findState_iff.1 hN
  have hget := List.getElem?_eq_getElem hNlt
  refine ⟨_, hget, fun p => ⟨⟨?_, ?_⟩, ⟨?_, ?_⟩⟩⟩
  · intro h
    have := inv.sound N _ p hget h
    rw [hpN] at this; exact this
  · rintro ⟨h1, h2⟩
    exact (inv.prepared hp).complete N _ p hget h1 (hpN ▸ h2)
  · rintro ⟨h1, h2⟩
    obtain ⟨k, stk, hk, hpk, -⟩ := inv.own p h1
    have hklt := (List.getElem?_eq_some.1 hk).1
    refine ⟨k, inv.suffix_chain hp _ N k (le_refl _) hNlt hklt ?_, h1, ?_⟩
    · rw [hpk, hpN]; exact h2
    · rw [← hpk]; exact wf.findState_of_path k hklt
  · rintro ⟨M, hchain, h1, h2⟩
    obtain ⟨hMlt, hsuf⟩ := inv.chain_suffix hp hNlt hchain
    obtain ⟨-, hpM⟩ := wf.findState_iff.1 h2
    rw [hpM, hpN] at hsuf
    exact ⟨h1, hsuf⟩

/-- The values of `state` during `match` on a prepared automaton. -/
theorem Reachable.matchLog_spec (hr : Reachable a) (hp : a.m_prepaired = true)
    (f : List α → Int → Bool) (s : List α) :
    ∃ (tr : List (List α × Int)) (states : List Nat),
      matchLog a f s = some (tr, states) ∧ a.match_ f s = some tr ∧
      states.length ≤ s.length ∧
      ((∀ x ∈ tr, f x.1 x.2 = false) → states.length = s.length) ∧
      ∀ (j M : Nat), states[j]? = some M →
        M = longestSuffixState a.heap (s.take (j + 1)) := by
  obtain ⟨path, inv⟩ := hr.exists_inv
  obtain ⟨tr, states, e1, e2, e3, e4⟩ := inv.matchLoopLog_spec hp f s []
  have hl : matchLog a f s = some (tr, states) := by
    unfold matchLog
    rw [if_pos hp]
    simpa [longestSuffixState] using e1
  refine ⟨tr, states, hl, ?_, e2, e4, fun j M hj => by simpa using e3 j M hj⟩
  rw [← matchLog_fst, hl]; rfl

end reachable

section conv

variable [LinearOrder α]

theorem matchLoopAs_eq {β : Type} (conv : β → α) (heap : List (State α))
    (f : List α → Int → Bool) (s : List β) : ∀ (state : Nat) (b : Int),
      matchLoopAs conv heap f s state b = matchLoop heap f (s.map conv) state b := by
  induction s with
  | nil => intro state b; rfl
  | cons c cs ih =>
    intro state b
    cases h1 : State.next heap heap.length state (conv c) with
    | none => simp only [matchLoopAs, List.map_cons, matchLoop, h1]
    | some state1 =>
      cases h2 : heap[state1]? with
      | none => simp only [matchLoopAs, List.map_cons, matchLoop, h1, h2]
      | some st =>
        cases h3 : matchLoop heap f (cs.map conv) state1 (b + 1) with
        | none => simp only [matchLoopAs, List.map_cons, matchLoop, h1, h2, ih, h3]
        | some tr => simp only [matchLoopAs, List.map_cons, matchLoop, h1, h2, ih, h3]

theorem matchAs_eq {β : Type} (conv : β → α) (a : AhoCorasick α)
    (f : List α → Int → Bool) (s : List β) :
    matchAs conv a f s = a.match_ f (s.map conv) := by
  simp only [matchAs, match_, matchLoopAs_eq]

theorem intToChar_charToInt (lo : Int) (c : CChar lo) : intToChar lo (charToInt c) = c := by
  apply Subtype.ext
  have := c.2
  simp only [intToChar, charToInt]
  omega

theorem State.nextS_eq (heap : List (State α)) (fuel : Nat) : ∀ (n : Nat) (x : α),
    State.nextS heap fuel n x = (State.next heap fuel n x).map (fun r => (heap, r)) := by
  induction fuel with
  | zero => intro n x; rfl
  | succ fuel ih =>
    intro n x
    cases h1 : heap[n]? with
    | none => simp only [State.nextS, State.next, h1, Option.map_none']
    | some st =>
      cases h2 : st.m_next.lookup x with
      | some m => simp only [State.nextS, State.next, h1, h2, Option.map_some']
      | none =>
        cases h3 : st.isRoot with
        | true => simp only [State.nextS, State.next, h1, h2, h3, if_true, Option.map_some']
        | false =>
          cases h4 : st.m_failTransition with
          | none =>
            simp only [State.nextS, State.next, h1, h2, h3, h4, Bool.false_eq_true, if_false,
              Option.map_none']
          | some t =>
            simp only [State.nextS, State.next, h1, h2, h3, h4, Bool.false_eq_true, if_false,
              ih t x]

/-- The states of the automaton after the loop of `match` are the states before it. -/
theorem matchLoopS_frame {σ : Type} (f : σ → List α → Int → σ × Bool) (s : List α) :
    ∀ (heap : List (State α)) (state : Nat) (b : Int) (c : σ)
      (r : List (State α) × σ × List (List α × Int)),
      matchLoopS f s heap state b c = some r → r.1 = heap := by
  induction s with
  | nil =>
    intro heap state b c r h
    simp only [matchLoopS, Option.some.injEq] at h
    rw [← h]
  | cons x xs ih =>
    intro heap state b c r h
    simp only [matchLoopS, State.nextS_eq] at h
    cases h1 : State.next heap heap.length state x with
    | none => rw [h1] at h; cases h
    | some state1 =>
      rw [h1] at h
      simp only [Option.map_some'] at h
      cases h2 : heap[state1]? with
      | none => rw [h2] at h; cases h
      | some st =>
        rw [h2] at h
        simp only at h
        cases h3 : (st.applyPatternsS f b c).2.2 with
        | true =>
          rw [h3] at h
          simp only [if_true, Option.some.injEq] at h
          rw [← h]
        | false =>
          rw [h3] at h
          simp only [Bool.false_eq_true, if_false] at h
          cases h4 : matchLoopS f xs heap state1 (b + 1) (st.applyPatternsS f b c).1 with
          | none => rw [h4] at h; cases h
          | some q =>
            rw [h4] at h
            simp only [Option.some.injEq] at h
            rw [← h]
            exact ih _ _ _ _ q h4

theorem applyLoopS_eq {σ : Type} (f : σ → List α → Int → σ × Bool)
    (hf : ∀ (c1 c2 : σ) (p : List α) (i : Int), (f c1 p i).2 = (f c2 p i).2) (c0 : σ)
    (i : Int) (ps : List (List α)) : ∀ c : σ,
      (applyLoopS f i ps c).2 = applyLoop (fun p k => (f c0 p k).2) i ps := by
  induction ps with
  | nil => intro c; rfl
  | cons p ps ih =>
    intro c
    simp only [applyLoopS, applyLoop]
    rw [hf c c0]
    split_ifs
    · rfl
    · rw [ih]

/-- For a callback whose answers do not depend on its own state, the loop of `match` makes
the invocations of the loop for the function of its answers. -/
theorem matchLoopS_trace {σ : Type} (f : σ → List α → Int → σ × Bool)
    (hf : ∀ (c1 c2 : σ) (p : List α) (i : Int), (f c1 p i).2 = (f c2 p i).2) (c0 : σ)
    (heap : List (State α)) (s : List α) : ∀ (state : Nat) (b : Int) (c : σ),
      (matchLoopS f s heap state b c).map (fun r => r.2.2) =
        matchLoop heap (fun p k => (f c0 p k).2) s state b := by
  induction s with
  | nil => intro state b c; rfl
  | cons x xs ih =>
    intro state b c
    have hap : ∀ st : State α, (st.applyPatternsS f b c).2 =
        st.applyPatterns (fun p k => (f c0 p k).2) b := by
      intro st
      unfold State.applyPatternsS State.applyPatterns
      split_ifs
      · rfl
      · exact applyLoopS_eq f hf c0 b _ c
    cases h1 : State.next heap heap.length state x with
    | none => simp only [matchLoopS, matchLoop, State.nextS_eq, h1, Option.map_none']
    | some state1 =>
      cases h2 : heap[state1]? with
      | none => simp only [matchLoopS, matchLoop, State.nextS_eq, h1, h2, Option.map_some',
          Option.map_none']
      | some st =>
        have e1 : (st.applyPatternsS f b c).2.1 =
            (st.applyPatterns (fun p k => (f c0 p k).2) b).1 := by rw [← hap]
        have e2 : (st.applyPatternsS f b c).2.2 =
            (st.applyPatterns (fun p k => (f c0 p k).2) b).2 := by rw [← hap]
        have hih := ih state1 (b + 1) (st.applyPatternsS f b c).1
        cases h3 : (st.applyPatterns (fun p k => (f c0 p k).2) b).2 with
        | true =>
          simp only [matchLoopS, matchLoop, State.nextS_eq, h1, h2, Option.map_some', e1, e2,
            h3, if_true]
        | false =>
          cases h4 : matchLoopS f xs heap state1 (b + 1) (st.applyPatternsS f b c).1 with
          | none =>
            rw [h4] at hih
            simp only [matchLoopS, matchLoop, State.nextS_eq, h1, h2, Option.map_some', e1, e2,
              h3, h4, ← hih, Bool.false_eq_true, if_false, Option.map_none']
          | some q =>
            rw [h4] at hih
            simp only [matchLoopS, matchLoop, State.nextS_eq, h1, h2, Option.map_some', e1, e2,
              h3, h4, ← hih, Bool.false_eq_true, if_false]

variable {a : AhoCorasick α} {path : Nat → List α}

/-- On a prepared automaton the loop of `match` returns from every state, for every
callback. -/
theorem Inv.matchLoopS_total {σ : Type} (inv : Inv a path) (hp : a.m_prepaired = true)
    (f : σ → List α → Int → σ × Bool) (s : List α) :
    ∀ (state : Nat) (b : Int) (c : σ), state < a.heap.length →
      ∃ r : List (State α) × σ × List (List α × Int),
        matchLoopS f s a.heap state b c = some r := by
  have wf := inv.wf
  induction s with
  | nil => intro state b c _; exact ⟨_, rfl⟩
  | cons x xs ih =>
    intro state b c hlt
    have hnext := wf.next (inv.prepared hp).fail a.heap.length state x hlt
      (lt_of_le_of_lt (wf.path_length_le _ hlt) hlt)
    obtain ⟨hlt1, -⟩ := wf.lss_spec (path state ++ [x])
    have hget := List.getElem?_eq_getElem hlt1
    simp only [matchLoopS, State.nextS_eq, hnext, Option.map_some', hget]
    split_ifs
    · exact ⟨_, rfl⟩
    · obtain ⟨q, hq⟩ := ih _ (b + 1) ((a.heap[longestSuffixState a.heap
        (path state ++ [x])]).applyPatternsS f b c).1 hlt1
      rw [hq]; exact ⟨_, rfl⟩

/-- A `match` call on a prepared automaton returns and leaves the automaton as it was, for
every callback. -/
theorem Reachable.matchS_frame {σ : Type} (hr : Reachable a) (hp : a.m_prepaired = true)
    (f : σ → List α → Int → σ × Bool) (s : List α) (c : σ) :
    ∃ (c1 : σ) (tr : List (List α × Int)), matchS a f s c = some (a, c1, tr) := by
  obtain ⟨path, inv⟩ := hr.exists_inv
  obtain ⟨r, h⟩ := inv.matchLoopS_total hp f s 0 0 c inv.wf.length_pos
  have hfr := matchLoopS_frame f s _ _ _ _ r h
  refine ⟨r.2.1, r.2.2, ?_⟩
  unfold matchS
  rw [if_pos hp, h]
  simp only [hfr]

/-- A sequence of `match` calls on a prepared automaton returns and leaves the automaton
as it was. -/
theorem Reachable.matchCallsS_frame {σ : Type} (hr : Reachable a) (hp : a.m_prepaired = true)
    (calls : List ((σ → List α → Int → σ × Bool) × List α)) : ∀ c : σ,
    ∃ (c1 : σ) (trs : List (List (List α × Int))),
      matchCallsS a calls c = some (a, c1, trs) ∧ trs.length = calls.length := by
  induction calls with
  | nil => intro c; exact ⟨c, [], rfl, rfl⟩
  | cons call rest ih =>
    intro c
    obtain ⟨c1, tr, h1⟩ := hr.matchS_frame hp call.1 call.2 c
    obtain ⟨c2, trs, h2, h3⟩ := ih c1
    refine ⟨c2, tr :: trs, ?_, by simp [h3]⟩
    simp only [matchCallsS, h1, h2]

/-- For a callback whose answers do not depend on its own state, a `match` call makes the
invocations of `match` for the function of its answers, whatever the state of the
callback. -/
theorem Reachable.matchS_trace {σ : Type} (hr : Reachable a) (hp : a.m_prepaired = true)
    (f : σ → List α → Int → σ × Bool)
    (hf : ∀ (c1 c2 : σ) (p : List α) (i : Int), (f c1 p i).2 = (f c2 p i).2) (c0 : σ)
    (s : List α) (c : σ) :
    ∃ (c1 : σ) (tr : List (List α × Int)), matchS a f s c = some (a, c1, tr) ∧
      a.match_ (fun p k => (f c0 p k).2) s = some tr := by
  obtain ⟨c1, tr, h⟩ := hr.matchS_frame hp f s c
  refine ⟨c1, tr, h, ?_⟩
  have ht := matchLoopS_trace f hf c0 a.heap s 0 0 c
  unfold matchS at h
  rw [if_pos hp] at h
  unfold AhoCorasick.match_
  rw [if_pos hp, ← ht]
  cases hm : matchLoopS f s a.heap 0 0 c with
  | none => rw [hm] at h; cases h
  | some r =>
    rw [hm] at h
    simp only [Option.some.injEq, Prod.mk.injEq] at h
    simp only [Option.map_some', h.2.2]

/-- Any `match` calls followed by a call with a callback whose answers do not depend on
its own state: the automaton is left as it was and the last call makes the invocations of
`match` for the function of the answers. -/
theorem Reachable.matchCallsS_last {σ : Type} (hr : Reachable a) (hp : a.m_prepaired = true)
    (f : σ → List α → Int → σ × Bool)
    (hf : ∀ (c1 c2 : σ) (p : List α) (i : Int), (f c1 p i).2 = (f c2 p i).2) (c0 : σ)
    (s : List α) (tr : List (List α × Int))
    (htr : a.match_ (fun p k => (f c0 p k).2) s = some tr)
    (calls : List ((σ → List α → Int → σ × Bool) × List α)) : ∀ c : σ,
    ∃ (c1 : σ) (trs : List (List (List α × Int))),
      matchCallsS a (calls ++ [(f, s)]) c = some (a, c1, trs ++ [tr]) ∧
      trs.length = calls.length := by
  induction calls with
  | nil =>
    intro c
    obtain ⟨c1, tr1, h1, h2⟩ := hr.matchS_trace hp f hf c0 s c
    rw [htr] at h2; cases h2
    refine ⟨c1, [], ?_, rfl⟩
    simp only [List.nil_append, matchCallsS, h1]
  | cons call rest ih =>
    intro c
    obtain ⟨c1, tr1, h1⟩ := hr.matchS_frame hp call.1 call.2 c
    obtain ⟨c2, trs, h2, h3⟩ := ih c1
    refine ⟨c2, tr1 :: trs, ?_, by simp [h3]⟩
    have e : (call :: rest) ++ [(f, s)] = call :: (rest ++ [(f, s)]) := rfl
    rw [e]
    simp only [matchCallsS, h1, h2]
    rfl

theorem Reachable.matcher_getD (hr : Reachable a) :
    Reachable ((a.matcher).getD AhoCorasick.new) ∧
    ((a.matcher).getD AhoCorasick.new).m_prepaired = true := by
  obtain ⟨a1, e1, hr1, hp1, -⟩ := hr.matcher_total
  rw [e1]; exact ⟨hr1, hp1⟩

end conv

section insertion

variable [LinearOrder α] {heap : List (State α)} {path : Nat → List α}

theorem walkLen_le (heap : List (State α)) (π : List α) :
    ∀ i : Nat, walkLen heap π i ≤ π.length := by
  induction π with
  | nil => intro i; simp [walkLen]
  | cons c cs ih =>
    intro i
    simp only [walkLen]
    cases findNext heap i c with
    | none => simp
    | some n => simp only [List.length_cons]; exact Nat.succ_le_succ (ih n)

theorem walkLen_spec (heap : List (State α)) (π : List α) :
    ∀ (i : Nat) (ρ : List α), ρ <+: π →
      ((findState heap ρ i).isSome = true ↔ ρ.length ≤ walkLen heap π i) := by
  induction π with
  | nil =>
    intro i ρ h
    rw [List.prefix_nil.1 h]; simp [findState, walkLen]
  | cons c cs ih =>
    intro i ρ h
    cases ρ with
    | nil => simp [findState]
    | cons d ρ =>
      obtain ⟨hd, hρ⟩ := List.cons_prefix_cons.1 h
      subst hd
      simp only [findState, walkLen]
      cases hn : findNext heap i d with
      | none => simp
      | some n =>
        simp only [List.length_cons, Nat.add_le_add_iff_right]
        exact ih n ρ hρ

theorem walkLen_fresh {i : Nat} (hi : ∀ c : α, findNext heap i c = none) (π : List α) :
    walkLen heap π i = 0 := by
  cases π with
  | nil => rfl
  | cons c cs => simp only [walkLen, hi c]

/-- The states created by `updateChain`: their number, and their paths. -/
theorem WF.updateChain_count (wf : WF heap path) (π : List α) {i : Nat}
    (hi : i < heap.length) :
    ∃ path2 : Nat → List α,
      WF (AhoCorasick.updateChain π heap i).1 path2 ∧ Ext heap path (AhoCorasick.updateChain π heap i).1 path2 ∧
      (AhoCorasick.updateChain π heap i).2 < (AhoCorasick.updateChain π heap i).1.length ∧
      path2 (AhoCorasick.updateChain π heap i).2 = path i ++ π ∧
      (AhoCorasick.updateChain π heap i).1.length = heap.length + (π.length - walkLen heap π i) ∧
      ∀ k, heap.length ≤ k → k < (AhoCorasick.updateChain π heap i).1.length →
        ∃ ρ : List α, ρ <+: π ∧ walkLen heap π i < ρ.length ∧ path2 k = path i ++ ρ := by
  induction π generalizing heap path i with
  | nil =>
    refine ⟨path, wf, Ext.refl_ext _ _, hi, by simp [AhoCorasick.updateChain], ?_, ?_⟩
    · simp [AhoCorasick.updateChain, walkLen]
    · intro k h1 h2
      simp only [AhoCorasick.updateChain] at h2
      omega
  | cons c cs ih =>
    simp only [AhoCorasick.updateChain, walkLen]
    cases hn : findNext heap i c with
    | some n =>
      simp only
      obtain ⟨hnlt, -, hp⟩ := wf.findNext_spec hn
      obtain ⟨path2, w2, e2, hlt, hpath, hlen, hfresh⟩ := ih wf hnlt
      refine ⟨path2, w2, e2, hlt, by rw [hpath, hp]; simp, ?_, ?_⟩
      · rw [hlen, List.length_cons]; omega
      · intro k h1 h2
        obtain ⟨ρ, hρ, hw, hpk⟩ := hfresh k h1 h2
        refine ⟨c :: ρ, (List.prefix_cons_inj c).2 hρ, by simp only [List.length_cons]; omega,
          ?_⟩
        rw [hpk, hp]; simp
    | none =>
      simp only
      have hget := List.getElem?_eq_getElem hi
      have hc : (heap[i]).m_next.lookup c = none := by
        unfold findNext at hn; rw [hget] at hn; exact hn
      obtain ⟨w1, e1, h2, hlen1⟩ := wf.addNext hget hc
      have hi2 : (State.addNext heap i c).2 < (State.addNext heap i c).1.length := by
        rw [h2, hlen1]; exact Nat.lt_succ_self _
      have hnew : ∀ d : α, findNext (State.addNext heap i c).1 (State.addNext heap i c).2 d
          = none := by
        intro d
        rw [h2]
        rw [addNext_eq hget hc]
        simp only [findNext, getElem?_set_append heap i _ _ hi, if_true]
        rfl
      obtain ⟨path2, w2, e2, hlt, hpath, hlen, hfresh⟩ := ih w1 hi2
      rw [walkLen_fresh hnew] at hlen hfresh
      have hp1 : Function.update path heap.length (path i ++ [c]) (State.addNext heap i c).2
          = path i ++ [c] := by rw [h2]; simp
      refine ⟨path2, w2, e1.trans_ext e2, hlt, ?_, ?_, ?_⟩
      · rw [hpath, hp1]; simp
      · rw [hlen, hlen1, List.length_cons]; omega
      · intro k hk1 hk2
        by_cases hk : k = heap.length
        · refine ⟨[c], ⟨cs, rfl⟩, by simp, ?_⟩
          rw [e2.path_eq k (by rw [hlen1, hk]; exact Nat.lt_succ_self _), hk]
          simp
        · obtain ⟨ρ, hρ, -, hpk⟩ := hfresh k (by rw [hlen1]; omega) hk2
          refine ⟨c :: ρ, (List.prefix_cons_inj c).2 hρ, by simp, ?_⟩
          rw [hpk, hp1]; simp

theorem Ext.lookup_kept {h2 : List (State α)} {path2 : Nat → List α}
    (e : Ext heap path h2 path2) (w2 : WF h2 path2) {k : Nat} {st : State α}
    (hk : heap[k]? = some st) :
    ∃ st2 : State α, h2[k]? = some st2 ∧ st2.m_label = st.m_label ∧
      st2.m_parent = st.m_parent ∧ st2.m_patterns = st.m_patterns ∧
      ∀ (c : α) (j : Nat), st.m_next.lookup c = some j → st2.m_next.lookup c = some j := by
  obtain ⟨st2, hk2, a1, -, a3, a4, a5⟩ := e.old k st hk
  exact ⟨st2, hk2, a4, a3, a1,
    fun c j h => mem_lookup (w2.keys k st2 hk2) (a5 _ (lookup_mem h))⟩

theorem Ext.outputsAt_eq {h2 : List (State α)} {path2 : Nat → List α}
    (e : Ext heap path h2 path2) (k : Nat) : outputsAt h2 k = outputsAt heap k := by
  by_cases hk : k < heap.length
  · obtain ⟨st2, hk2, a1, -⟩ := e.old k _ (List.getElem?_eq_getElem hk)
    simp only [outputsAt, hk2, List.getElem?_eq_getElem hk, a1]
  · have hnone : heap[k]? = none := List.getElem?_eq_none (not_lt.1 hk)
    by_cases hk2 : k < h2.length
    · obtain ⟨st2, hk2, a1, -⟩ := e.fresh k (not_lt.1 hk) hk2
      simp only [outputsAt, hk2, hnone, a1]
    · simp only [outputsAt, hnone, List.getElem?_eq_none (not_lt.1 hk2)]

end insertion

section addPattern

variable [LinearOrder α] {a : AhoCorasick α} {path : Nat → List α}

/-- What `addPattern` with a non-empty pattern does to the trie. -/
theorem Inv.addPattern_trie (inv : Inv a path) {P : List α} (hP : P ≠ []) :
    (a.addPattern P).m_patterns = a.m_patterns ++ [P] ∧
    (∀ ρ : List α, (findState (a.addPattern P).heap ρ 0).isSome = true ↔
      (findState a.heap ρ 0).isSome = true ∨ (ρ ≠ [] ∧ ρ <+: P)) ∧
    (∀ (ρ : List α) (k : Nat), findState a.heap ρ 0 = some k →
      findState (a.addPattern P).heap ρ 0 = some k) ∧
    (∀ k, k < (a.addPattern P).heap.length →
      ∃ ρ : List α, findState (a.addPattern P).heap ρ 0 = some k) ∧
    (∀ (ρ1 ρ2 : List α) (k : Nat), findState (a.addPattern P).heap ρ1 0 = some k →
      findState (a.addPattern P).heap ρ2 0 = some k → ρ1 = ρ2) ∧
    (∃ m : Nat, m ≤ P.length ∧
      (∀ ρ : List α, ρ <+: P → ((findState a.heap ρ 0).isSome = true ↔ ρ.length ≤ m)) ∧
      (a.addPattern P).heap.length = a.heap.length + (P.length - m)) ∧
    (∀ (k : Nat) (st : State α), a.heap[k]? = some st →
      ∃ st2 : State α, (a.addPattern P).heap[k]? = some st2 ∧ st2.m_label = st.m_label ∧
        st2.m_parent = st.m_parent ∧
        ∀ (c : α) (j : Nat), st.m_next.lookup c = some j → st2.m_next.lookup c = some j) ∧
    (∃ j : Nat, findState (a.addPattern P).heap P 0 = some j ∧
      outputsAt (a.addPattern P).heap j = outputsAt a.heap j ++ [P] ∧
      ∀ k, k ≠ j → outputsAt (a.addPattern P).heap k = outputsAt a.heap k) := by
  have wf := inv.wf
  obtain ⟨path2, w1, e1, hlt, hpath, hlen, hfresh⟩ := wf.updateChain_count P wf.length_pos
  rw [wf.path_root, List.nil_append] at hpath
  set r := updateChain P a.heap 0 with hr
  have hget := List.getElem?_eq_getElem hlt
  have hj0 : r.2 ≠ 0 := by
    intro h0
    have := (w1.path_eq_nil hlt).2 h0
    rw [hpath] at this; exact hP this
  have hroot : (r.1[r.2]).isRoot = false := by
    cases hb : (r.1[r.2]).isRoot with
    | false => rfl
    | true => exact absurd ((w1.isRoot_iff hget).1 hb) hj0
  have heq : a.addPattern P =
      { m_patterns := a.m_patterns ++ [P],
        heap := r.1.set r.2 { r.1[r.2] with m_patterns := (r.1[r.2]).m_patterns ++ [P] },
        m_prepaired := false } := by
    unfold addPattern
    simp only [← hr, hget, hroot, Bool.false_eq_true, if_false]
  have hshape : SameShape r.1 (a.addPattern P).heap := by
    rw [heq]; exact SameShape.set r.1 hget rfl rfl rfl
  have w2 : WF (a.addPattern P).heap path2 := w1.of_sameShape hshape
  have hlen2 : (a.addPattern P).heap.length = r.1.length := hshape.1.symm
  have hout : ∀ k, outputsAt (a.addPattern P).heap k =
      outputsAt r.1 k ++ (if k = r.2 then [P] else []) := by
    intro k
    rw [heq]; simp only [outputsAt, List.getElem?_set]
    by_cases hjk : r.2 = k
    · subst hjk
      rw [if_pos rfl, if_pos hlt, if_pos rfl, hget]
    · rw [if_neg hjk, if_neg (Ne.symm hjk)]
      cases r.1[k]? <;> simp
  have hpath0 : ∀ k, k < a.heap.length → path2 k = path k := e1.path_eq
  refine ⟨by rw [heq], ?_, ?_, ?_, ?_, ?_, ?_, ?_⟩
  · intro ρ
    constructor
    · intro h
      obtain ⟨k, hk⟩ := Option.isSome_iff_exists.1 h
      obtain ⟨hklt, hpk⟩ := w2.findState_iff.1 hk
      by_cases hkold : k < a.heap.length
      · left
        rw [← hpk, hpath0 k hkold, wf.findState_of_path k hkold]; rfl
      · right
        obtain ⟨ρ0, h1, h2, h3⟩ := hfresh k (not_lt.1 hkold) (hlen2 ▸ hklt)
        rw [wf.path_root, List.nil_append] at h3
        rw [← hpk, h3]
        exact ⟨fun h => by rw [h] at h2; simp at h2, h1⟩
    · rintro (h | ⟨-, h⟩)
      · obtain ⟨k, hk⟩ := Option.isSome_iff_exists.1 h
        obtain ⟨hklt, hpk⟩ := wf.findState_iff.1 hk
        rw [← hpk, ← hpath0 k hklt,
          w2.findState_of_path k (by rw [hlen2]; exact lt_of_lt_of_le hklt e1.length_le)]
        rfl
      · obtain ⟨k, hklt, hpk⟩ := w2.prefix_node (hlen2 ▸ hlt) (hpath ▸ h)
        rw [← hpk, w2.findState_of_path k hklt]; rfl
  · intro ρ k hk
    obtain ⟨hklt, hpk⟩ := wf.findState_iff.1 hk
    rw [← hpk, ← hpath0 k hklt]
    exact w2.findState_of_path k (by rw [hlen2]; exact lt_of_lt_of_le hklt e1.length_le)
  · intro k hk
    exact w2.node_has_path hk
  · intro ρ1 ρ2 k h1 h2
    rw [← (w2.findState_iff.1 h1).2, ← (w2.findState_iff.1 h2).2]
  · refine ⟨walkLen a.heap P 0, walkLen_le _ _ _, walkLen_spec _ _ 0, ?_⟩
    rw [hlen2, hlen]
  · intro k st hk
    obtain ⟨st1, hk1, a1, a2, -, a4⟩ := e1.lookup_kept w1 hk
    obtain ⟨st2, hk2, b1, b2, b3⟩ := hshape.2 k st1 hk1
    exact ⟨st2, hk2, b1.trans a1, b2.trans a2, fun c j h => by rw [b3]; exact a4 c j h⟩
  · refine ⟨r.2, ?_, ?_, ?_⟩
    · have := w2.findState_of_path r.2 (hlen2 ▸ hlt)
      rw [hpath] at this; exact this
    · rw [hout, if_pos rfl, e1.outputsAt_eq]
    · intro k hk
      rw [hout, if_neg hk, e1.outputsAt_eq, List.append_nil]

end addPattern

section refinement

variable [LinearOrder α]

theorem prepareStateLoopIters_fst (heap : List (State α)) (state : Nat) (st : State α)
    (σ : List α) :
    (prepareStateLoopIters heap state st σ).map Prod.fst = prepareStateLoop heap state st σ := by
  induction σ with
  | nil => rfl
  | cons c cs ih =>
    simp only [prepareStateLoopIters, prepareStateLoop]
    cases findState heap (c :: cs) 0 with
    | some t =>
      simp only
      cases heap[t]? <;> rfl
    | none =>
      simp only
      rw [← ih]
      cases prepareStateLoopIters heap state st cs <;> rfl

theorem prepareStateLoopIters_le (heap : List (State α)) (state : Nat) (st : State α)
    (σ : List α) (r : List (State α) × Nat)
    (h : prepareStateLoopIters heap state st σ = some r) : r.2 ≤ σ.length := by
  induction σ generalizing r with
  | nil =>
    simp only [prepareStateLoopIters, Option.some.injEq] at h
    rw [← h]; simp
  | cons c cs ih =>
    simp only [prepareStateLoopIters] at h
    cases hf : findState heap (c :: cs) 0 with
    | some t =>
      rw [hf] at h
      simp only at h
      cases ht : heap[t]? with
      | none => rw [ht] at h; cases h
      | some tst =>
        rw [ht] at h
        simp only [Option.some.injEq] at h
        rw [← h]; simp
    | none =>
      rw [hf] at h
      simp only at h
      cases hr : prepareStateLoopIters heap state st cs with
      | none => rw [hr] at h; cases h
      | some q =>
        rw [hr] at h
        simp only [Option.some.injEq] at h
        have := ih q hr
        rw [← h]; simp only [List.length_cons]; omega

theorem prepareStateIters_fst (heap : List (State α)) (state : Nat) :
    (prepareStateIters heap state).map Prod.fst = prepareState heap state := by
  unfold prepareStateIters prepareState
  cases heap[state]? with
  | none => rfl
  | some st =>
    simp only
    split_ifs with h1
    · rfl
    · cases st.m_parent with
      | none => rfl
      | some p =>
        simp only
        cases heap[p]? with
        | none => rfl
        | some pst =>
          simp only
          split_ifs with h2
          · rfl
          · cases failSuffix heap heap.length state [] with
            | none => rfl
            | some σ => exact prepareStateLoopIters_fst heap state st σ

theorem forEachNextLog_fst
    (body1 : List (State α) → Nat → Option (List (State α) × Nat × List (Nat × List (State α))))
    (body : List (State α) → Nat → Option (List (State α) × Nat))
    (hb : ∀ h n, (body1 h n).map (fun r => (r.1, r.2.1)) = body h n)
    (l : List (α × Nat)) : ∀ (h : List (State α)) (p : Nat) (log : List (Nat × List (State α))),
      (forEachNextLog body1 l h p log).map (fun r => (r.1, r.2.1)) = forEachNext body l h p := by
  induction l with
  | nil => intro h p log; rfl
  | cons x l ih =>
    intro h p log
    simp only [forEachNextLog, forEachNext]
    rw [← hb h x.2]
    cases body1 h x.2 with
    | none => rfl
    | some r => exact ih r.1 (p + r.2.1) (log ++ r.2.2)

theorem prepareRecurciveLog_fst (fuel : Nat) : ∀ (h : List (State α)) (i lvl L : Nat),
    (prepareRecurciveLog fuel h i lvl L).map (fun r => (r.1, r.2.1)) =
      prepareRecurcive fuel h i lvl L := by
  induction fuel with
  | zero => intro h i lvl L; rfl
  | succ fuel ih =>
    intro h i lvl L
    simp only [prepareRecurciveLog, prepareRecurcive]
    split_ifs with hl
    · cases prepareState h i <;> rfl
    · cases h[i]? with
      | none => rfl
      | some st =>
        exact forEachNextLog_fst _ _ (fun h n => ih h n (lvl + 1) L) st.m_next h 0 []

theorem prepareLoopLog_fst (fuel : Nat) : ∀ (h : List (State α)) (L : Nat),
    (prepareLoopLog fuel h L).map Prod.fst = prepareLoop fuel h L := by
  induction fuel with
  | zero => intro h L; rfl
  | succ fuel ih =>
    intro h L
    simp only [prepareLoopLog, prepareLoop]
    rw [← prepareRecurciveLog_fst]
    cases prepareRecurciveLog (L + 1) h 0 0 L with
    | none => rfl
    | some r =>
      simp only [Option.map_some']
      split_ifs with hn
      · rw [← ih]
        cases prepareLoopLog fuel r.1 (L + 1) <;> rfl
      · rfl

theorem prepareLog_fst (a : AhoCorasick α) : (prepareLog a).map Prod.fst = a.prepare := by
  unfold prepareLog prepare
  split_ifs with h
  · rfl
  · rw [← prepareLoopLog_fst]
    cases prepareLoopLog (a.heap.length + 1) a.heap 1 <;> rfl

end refinement

section log

variable [LinearOrder α] {h0 : List (State α)} {path : Nat → List α}

theorem Option.map_eq_some_split {β γ : Type} {f : β → γ} {o : Option β} {c : γ}
    (h : o.map f = some c) : ∃ b, o = some b ∧ f b = c := by
  cases o with
  | none => cases h
  | some b => exact ⟨b, rfl, Option.some.inj h⟩

/-- The log of one call of `prepareRecurcive`: the states at depth `max_lvl` below the
state, each once, and at each `prepareState` call the states of the other depths are as
they were at the start. -/
theorem WF.prepareRecurciveLog (wf : WF h0 path) {L : Nat} (hL : 1 ≤ L) (fuel : Nat) :
    ∀ (h : List (State α)) (i lvl : Nat), SameShape h0 h → i < h0.length →
      (path i).length = lvl → lvl ≤ L → L - lvl < fuel →
      (∀ r : State α, h[0]? = some r → r.m_patterns = []) →
      (∀ k, InSub h0.length path i L k → Untouched h0 h k) →
      ∃ (h1 : List (State α)) (n : Nat) (log : List (Nat × List (State α))),
        AhoCorasick.prepareRecurciveLog fuel h i lvl L = some (h1, n, log) ∧
        AhoCorasick.prepareRecurcive fuel h i lvl L = some (h1, n) ∧
        (log.map Prod.fst).Nodup ∧
        (∀ k, k ∈ log.map Prod.fst ↔ InSub h0.length path i L k) ∧
        (∀ x ∈ log, ∀ k, (path k).length ≠ L → x.2[k]? = h[k]?) ∧
        (∀ x ∈ log, SameShape h0 x.2) := by
  induction fuel with
  | zero => intro h i lvl _ _ _ _ hf; omega
  | succ fuel ih =>
    intro h i lvl hs hi hlvl hle hf hroot hun
    obtain ⟨h1, n, e1, -⟩ := wf.prepareRecurcive hL (fuel + 1) h i lvl hs hi hlvl hle hf hroot hun
    have href := prepareRecurciveLog_fst (fuel + 1) h i lvl L
    rw [e1] at href
    obtain ⟨r, hr, hr2⟩ := Option.map_eq_some_split href
    obtain ⟨r1, r2, r3⟩ := r
    simp only [Prod.mk.injEq] at hr2
    obtain ⟨rfl, rfl⟩ := hr2
    refine ⟨r1, r2, r3, hr, e1, ?_⟩
    have hget0 := List.getElem?_eq_getElem hi
    simp only [AhoCorasick.prepareRecurciveLog] at hr
    by_cases hlL : lvl = L
    · rw [if_pos hlL] at hr
      have hself := wf.inSub_self hi (hlvl.trans hlL)
      cases hps : AhoCorasick.prepareState h i with
      | none => rw [hps] at hr; cases hr
      | some hh =>
        rw [hps] at hr
        simp only [Option.some.injEq, Prod.mk.injEq] at hr
        obtain ⟨-, -, rfl⟩ := hr
        refine ⟨by simp, fun k => ?_, fun x hx k _ => ?_, fun x hx => ?_⟩
        · rw [hself k]; simp
        · simp only [List.mem_singleton] at hx
          rw [hx]
        · simp only [List.mem_singleton] at hx
          rw [hx]; exact hs
    · rw [if_neg hlL] at hr
      have hlt : lvl < L := lt_of_le_of_ne hle hlL
      obtain ⟨st, hst, -, -, hnext⟩ := hs.2 i _ hget0
      rw [hst] at hr; simp only [hnext] at hr
      have hloop : ∀ (l : List (α × Nat)) (h : List (State α)) (n : Nat)
          (log0 : List (Nat × List (State α)))
          (r : List (State α) × Nat × List (Nat × List (State α))),
          (∀ x ∈ l, x ∈ (h0[i]).m_next) → (l.map Prod.fst).Nodup → SameShape h0 h →
          (∀ r : State α, h[0]? = some r → r.m_patterns = []) →
          (∀ x ∈ l, ∀ k, InSub h0.length path x.2 L k → Untouched h0 h k) →
          forEachNextLog (fun h n => AhoCorasick.prepareRecurciveLog fuel h n (lvl + 1) L)
            l h n log0 = some r →
          ∃ log1 : List (Nat × List (State α)), r.2.2 = log0 ++ log1 ∧
            (log1.map Prod.fst).Nodup ∧
            (∀ k, k ∈ log1.map Prod.fst ↔ ∃ x ∈ l, InSub h0.length path x.2 L k) ∧
            (∀ y ∈ log1, ∀ k, (path k).length ≠ L → y.2[k]? = h[k]?) ∧
            (∀ y ∈ log1, SameShape h0 y.2) := by
        intro l
        induction l with
        | nil =>
          intro h n log0 r _ _ _ _ _ hr
          simp only [forEachNextLog, Option.some.injEq] at hr
          subst hr
          exact ⟨[], by simp, by simp, by simp, by simp, by simp⟩
        | cons x l ihl =>
          intro h n log0 r hmem hnd hs hroot hun hr
          have hxm : x ∈ (h0[i]).m_next := hmem x (List.mem_cons_self _ _)
          obtain ⟨hxlt, hx0, hxp⟩ := wf.mem_next hget0 hxm
          rw [List.map_cons, List.nodup_cons] at hnd
          obtain ⟨h1, n1, logx, ex, e1, ndx, memx, snapx, shx⟩ := ih h x.2 (lvl + 1) hs hxlt
            (by rw [hxp]; simp [hlvl]) hlt (by omega) hroot
            (hun x (List.mem_cons_self _ _))
          obtain ⟨h1', n1', e1', s1, f1, -, -⟩ := wf.prepareRecurcive hL fuel h x.2 (lvl + 1) hs
            hxlt (by rw [hxp]; simp [hlvl]) hlt (by omega) hroot
            (hun x (List.mem_cons_self _ _))
          rw [e1] at e1'
          simp only [Option.some.injEq, Prod.mk.injEq] at e1'
          obtain ⟨rfl, rfl⟩ := e1'
          simp only [forEachNextLog, ex] at hr
          have hroot1 : ∀ r : State α, h1[0]? = some r → r.m_patterns = [] := by
            intro r hr; rw [f1 0 (wf.root_not_inSub hL)] at hr; exact hroot r hr
          have hdisj : ∀ y ∈ l, ∀ k, InSub h0.length path y.2 L k →
              ¬ InSub h0.length path x.2 L k := by
            intro y hy k hk
            have hym := hmem y (List.mem_cons_of_mem _ hy)
            have hne : y.1 ≠ x.1 := by
              intro h; apply hnd.1; rw [← h]; exact List.mem_map.2 ⟨y, hy, rfl⟩
            exact wf.inSub_disjoint hget0 hym hxm hne hk
          have hun1 : ∀ y ∈ l, ∀ k, InSub h0.length path y.2 L k → Untouched h0 h1 k := by
            intro y hy k hk
            obtain ⟨st0, stk, a, b, c⟩ := hun y (List.mem_cons_of_mem _ hy) k hk
            exact ⟨st0, stk, a, (f1 k (hdisj y hy k hk)).trans b, c⟩
          obtain ⟨log2, hlog, nd2, mem2, snap2, sh2⟩ := ihl h1 (n + n1) (log0 ++ logx) r
            (fun y hy => hmem y (List.mem_cons_of_mem _ hy)) hnd.2 s1 hroot1 hun1 hr
          refine ⟨logx ++ log2, by rw [hlog, List.append_assoc], ?_, ?_, ?_, ?_⟩
          · rw [List.map_append]
            refine List.Nodup.append ndx nd2 ?_
            intro k hk1 hk2
            obtain ⟨y, hy, hyk⟩ := (mem2 k).1 hk2
            exact hdisj y hy k hyk ((memx k).1 hk1)
          · intro k
            rw [List.map_append, List.mem_append, memx, mem2]
            constructor
            · rintro (h | ⟨y, hy, hyk⟩)
              · exact ⟨x, List.mem_cons_self _ _, h⟩
              · exact ⟨y, List.mem_cons_of_mem _ hy, hyk⟩
            · rintro ⟨y, hy, hyk⟩
              rcases List.mem_cons.1 hy with rfl | hy
              · exact Or.inl hyk
              · exact Or.inr ⟨y, hy, hyk⟩
          · intro y hy k hk
            rcases List.mem_append.1 hy with hy | hy
            · exact snapx y hy k hk
            · rw [snap2 y hy k hk]
              exact f1 k (fun hin => hk hin.2.1)
          · intro y hy
            rcases List.mem_append.1 hy with hy | hy
            · exact shx y hy
            · exact sh2 y hy
      obtain ⟨log1, hlog, nd1, mem1, snap1, sh1⟩ := hloop (h0[i]).m_next h 0 [] _ (fun _ hx => hx)
        (wf.keys i _ hget0) hs hroot
        (fun x hx k hk => hun k (wf.inSub_of_child hget0 hx hk)) hr
      simp only [List.nil_append] at hlog
      subst hlog
      refine ⟨nd1, fun k => ?_, snap1, sh1⟩
      rw [mem1]
      constructor
      · rintro ⟨x, hx, hxk⟩; exact wf.inSub_of_child hget0 hx hxk
      · intro hk
        exact wf.inSub_child hget0 (by rw [hlvl]; exact hlt) hk

/-- The log of the level loop started at level `L`: pass number `i` prepares the states at
depth `L + i`, each once; at each `prepareState` call the states of smaller depth are as
in the final heap; only the last pass is empty. -/
theorem WF.prepareLoopLog (wf : WF h0 path) (fuel : Nat) :
    ∀ (L : Nat) (h : List (State α)), 1 ≤ L → L ≤ h0.length → h0.length < fuel + L →
      SameShape h0 h → h[0]? = h0[0]? →
      (∀ r : State α, h0[0]? = some r → r.m_patterns = []) →
      (∀ k, k < h0.length → k ≠ 0 →
        ((path k).length < L → Done h0 h path k) ∧
        (L ≤ (path k).length → Untouched h0 h k)) →
      ∃ (h1 : List (State α)) (log : List (List (Nat × List (State α)))),
        AhoCorasick.prepareLoopLog fuel h L = some (h1, log) ∧
        AhoCorasick.prepareLoop fuel h L = some h1 ∧
        (∀ k, (path k).length < L → h1[k]? = h[k]?) ∧
        (∀ (i : Nat) (pass : List (Nat × List (State α))), log[i]? = some pass →
          (pass.map Prod.fst).Nodup ∧
          (∀ k, k ∈ pass.map Prod.fst ↔ k < h0.length ∧ (path k).length = L + i) ∧
          (∀ y ∈ pass, ∀ k, (path k).length < L + i → y.2[k]? = h1[k]?) ∧
          (∀ y ∈ pass, SameShape h0 y.2) ∧
          (pass = [] ↔ i + 1 = log.length)) ∧
        log ≠ [] := by
  induction fuel with
  | zero => intro L h _ h1 h2; omega
  | succ fuel ih =>
    intro L h hL hLlen hfuel hs hr0 hroot hinv
    have hsub := wf.inSub_root L
    have hpre1 : ∀ r : State α, h[0]? = some r → r.m_patterns = [] :=
      fun r hr => hroot r (hr0 ▸ hr)
    have hpre2 : ∀ k, InSub h0.length path 0 L k → Untouched h0 h k :=
      fun k hk => (hinv k hk.1 (fun h => wf.root_not_inSub hL (h ▸ hk))).2
        (le_of_eq hk.2.1.symm)
    obtain ⟨h1, n, e1, s1, f1, d1, c1⟩ := wf.prepareRecurcive hL (L + 1) h 0 0 hs
      wf.length_pos (by rw [wf.path_root]; rfl) (Nat.zero_le _) (by omega) hpre1 hpre2
    obtain ⟨h1', n', log0, x1, x2, nd0, mem0, snap0, sh0⟩ := wf.prepareRecurciveLog hL (L + 1) h 0 0
      hs wf.length_pos (by rw [wf.path_root]; rfl) (Nat.zero_le _) (by omega) hpre1 hpre2
    rw [e1] at x2
    simp only [Option.some.injEq, Prod.mk.injEq] at x2
    obtain ⟨rfl, rfl⟩ := x2
    have hr1 : h1[0]? = h0[0]? := (f1 0 (wf.root_not_inSub hL)).trans hr0
    have hframe : ∀ k, (path k).length ≠ L → h1[k]? = h[k]? :=
      fun k hk => f1 k (fun hin => hk hin.2.1)
    have hdone : ∀ k, k < h0.length → k ≠ 0 → (path k).length < L + 1 →
        Done h0 h1 path k := by
      intro k hk hk0 hlt
      by_cases hkL : (path k).length = L
      · exact d1 k ((hsub k).2 ⟨hk, hkL⟩)
      · refine ((hinv k hk hk0).1 (by omega)).frame (f1 k ?_) (f1 _ ?_)
        · intro hin; exact hkL hin.2.1
        · intro hin
          have h1 := ((wf.lss_spec (path k).tail).2).length_le
          have h2 : (path k).tail.length = (path k).length - 1 := List.length_tail _
          have := hin.2.1
          omega
    have hmem0 : ∀ k, k ∈ log0.map Prod.fst ↔ k < h0.length ∧ (path k).length = L + 0 := by
      intro k; rw [mem0, hsub]; simp
    simp only [AhoCorasick.prepareLoopLog, AhoCorasick.prepareLoop, x1, e1]
    by_cases hn : n > 0
    · rw [if_pos hn, if_pos hn]
      have hex : ∃ k, InSub h0.length path 0 L k := by
        by_contra hne
        have := c1.2 (fun k hk => hne ⟨k, hk⟩)
        omega
      obtain ⟨k, hk, hkL, hkp⟩ := hex
      have hkk := wf.path_length_le k hk
      have hlog0 : log0 ≠ [] := by
        intro h
        have := (mem0 k).2 ⟨hk, hkL, hkp⟩
        rw [h] at this; simp at this
      obtain ⟨h2, log, y1, y2, fr, per, hne⟩ := ih (L + 1) h1 (by omega) (by omega) (by omega)
        s1 hr1 hroot (by
          intro j hj hj0
          refine ⟨hdone j hj hj0, fun hle => ?_⟩
          obtain ⟨st0, st, a, b, c⟩ := (hinv j hj hj0).2 (by omega)
          refine ⟨st0, st, a, (f1 j ?_).trans b, c⟩
          intro hin
          have := hin.2.1
          omega)
      rw [y1, y2]
      refine ⟨h2, log0 :: log, rfl, rfl, ?_, ?_, by simp⟩
      · intro j hj
        rw [fr j (by omega), hframe j (by omega)]
      · intro i pass hi
        cases i with
        | zero =>
          simp only [List.getElem?_cons_zero, Option.some.injEq] at hi
          subst hi
          refine ⟨nd0, hmem0, ?_, sh0, ?_⟩
          · intro y hy j hj
            rw [snap0 y hy j (by omega), fr j (by omega), hframe j (by omega)]
          · constructor
            · intro h; exact absurd h hlog0
            · intro h
              simp only [List.length_cons] at h
              have : log.length = 0 := by omega
              exact absurd (List.length_eq_zero.1 this) hne
        | succ i =>
          simp only [List.getElem?_cons_succ] at hi
          obtain ⟨p1, p2, p3, p5, p4⟩ := per i pass hi
          refine ⟨p1, ?_, ?_, p5, ?_⟩
          · intro j; rw [p2 j]
            have : L + 1 + i = L + (i + 1) := by omega
            rw [this]
          · intro y hy j hj
            exact p3 y hy j (by omega)
          · rw [p4]; simp
    · rw [if_neg hn, if_neg hn]
      have hn0 : n = 0 := by omega
      have hlog0 : log0 = [] := by
        cases hl : log0 with
        | nil => rfl
        | cons y ys =>
          have : y.1 ∈ log0.map Prod.fst := by rw [hl]; simp
          exact absurd ((mem0 y.1).1 this) (c1.1 hn0 y.1)
      refine ⟨h1, [log0], rfl, rfl, fun j hj => hframe j (by omega), ?_, by simp⟩
      intro i pass hi
      cases i with
      | zero =>
        simp only [List.getElem?_cons_zero, Option.some.injEq] at hi
        subst hi
        refine ⟨nd0, hmem0, ?_, sh0, ?_⟩
        · intro y hy; rw [hlog0] at hy; simp at hy
        · simp [hlog0]
      | succ i => simp at hi

end log

section iters

variable [LinearOrder α] {heap : List (State α)} {path : Nat → List α}

theorem WF.prepareStateLoopIters (wf : WF heap path) (j : Nat) (st : State α) (σ : List α) :
    ∃ r : List (State α) × Nat, AhoCorasick.prepareStateLoopIters heap j st σ = some r := by
  induction σ with
  | nil => exact ⟨_, rfl⟩
  | cons c cs ih =>
    simp only [AhoCorasick.prepareStateLoopIters]
    cases hf : findState heap (c :: cs) 0 with
    | none =>
      obtain ⟨r, hr⟩ := ih
      simp only [hr]; exact ⟨_, rfl⟩
    | some t =>
      obtain ⟨ht, -⟩ := wf.findState_iff.1 hf
      simp only [List.getElem?_eq_getElem ht]; exact ⟨_, rfl⟩

/-- The suffix-search loop of `prepareState` on a state of depth `k` runs at most `k - 1`
times, and `prepareState` returns. -/
theorem WF.prepareStateIters (wf : WF heap path) {j : Nat} (hj : j < heap.length)
    (hj0 : j ≠ 0) :
    ∃ r : List (State α) × Nat, AhoCorasick.prepareStateIters heap j = some r ∧
      AhoCorasick.prepareState heap j = some r.1 ∧ r.2 ≤ (path j).length - 1 := by
  have hget := List.getElem?_eq_getElem hj
  obtain ⟨p, pst, c, hp1, hl1, hpj, hp, hl, hpp⟩ := wf.parent j _ hget hj0
  have hnr : ¬ (heap[j]).isRoot = true := fun h => hj0 ((wf.isRoot_iff hget).1 h)
  have key : ∃ r : List (State α) × Nat, AhoCorasick.prepareStateIters heap j = some r ∧
      r.2 ≤ (path j).length - 1 := by
    unfold AhoCorasick.prepareStateIters
    simp only [hget, if_neg hnr, hp1, hp]
    by_cases hp0 : p = 0
    · have hr : pst.isRoot = true := (wf.isRoot_iff hp).2 hp0
      rw [if_pos hr]; exact ⟨_, rfl, Nat.zero_le _⟩
    · have hr : ¬ pst.isRoot = true := fun h => hp0 ((wf.isRoot_iff hp).1 h)
      rw [if_neg hr, wf.failSuffix heap.length j [] hj hj0
        (le_trans (wf.path_length_le j hj) (le_of_lt hj))]
      simp only [List.append_nil]
      obtain ⟨r, hr⟩ := wf.prepareStateLoopIters j heap[j] (path j).tail
      refine ⟨r, hr, ?_⟩
      have := prepareStateLoopIters_le _ _ _ _ r hr
      rwa [List.length_tail] at this
  obtain ⟨r, h1, h2⟩ := key
  have := prepareStateIters_fst heap j
  rw [h1] at this
  exact ⟨r, h1, this.symm, h2⟩

/-- The number of passes of the level loop is the greatest depth plus one. -/
theorem WF.log_depth {β : Type} (wf : WF heap path) (log : List (List (Nat × β)))
    (per : ∀ (i : Nat) (pass : List (Nat × β)), log[i]? = some pass →
      (∀ k, k ∈ pass.map Prod.fst ↔ k < heap.length ∧ (path k).length = i + 1) ∧
      (pass = [] ↔ i + 1 = log.length))
    (hne : log ≠ []) :
    (∀ k, k < heap.length → (path k).length + 1 ≤ log.length) ∧
    ∃ k, k < heap.length ∧ (path k).length + 1 = log.length := by
  have hpos : 0 < log.length := List.length_pos.2 hne
  constructor
  · intro k hk
    by_contra hcon
    have hle : log.length ≤ (path k).length := by omega
    obtain ⟨j, hj, hpj⟩ := wf.prefix_node hk (List.take_prefix log.length (path k))
    have hlen : (path j).length = log.length := by
      rw [hpj, List.length_take]; omega
    have hidx : log.length - 1 < log.length := by omega
    obtain ⟨q1, q2⟩ := per (log.length - 1) _ (List.getElem?_eq_getElem hidx)
    have hmem := (q1 j).2 ⟨hj, by omega⟩
    rw [q2.2 (by omega)] at hmem
    simp at hmem
  · by_cases h1 : log.length = 1
    · exact ⟨0, wf.length_pos, by rw [wf.path_root, h1]; rfl⟩
    · have hidx : log.length - 2 < log.length := by omega
      obtain ⟨q1, q2⟩ := per (log.length - 2) _ (List.getElem?_eq_getElem hidx)
      cases hp : log[log.length - 2] with
      | nil =>
        have := q2.1 hp
        omega
      | cons y ys =>
        have hmem : y.1 ∈ (log[log.length - 2]).map Prod.fst := by rw [hp]; simp
        obtain ⟨r1, r2⟩ := (q1 y.1).1 hmem
        exact ⟨y.1, r1, by omega⟩

end iters

/-- The concatenated log of passes that each hold distinct states of one depth, the depth
growing with the pass: no state occurs twice and the depths never decrease. -/
theorem log_flatten_spec {β : Type} (log : List (List (Nat × β))) (d : Nat → Nat)
    (h : ∀ (i : Nat) (pass : List (Nat × β)), log[i]? = some pass →
      (pass.map Prod.fst).Nodup ∧ ∀ k ∈ pass.map Prod.fst, d k = i + 1) :
    (log.flatten.map Prod.fst).Nodup ∧
    log.flatten.Pairwise (fun x y => d x.1 ≤ d y.1) := by
  constructor
  · rw [List.map_flatten, List.nodup_flatten]
    constructor
    · intro l hl
      obtain ⟨pass, hp, rfl⟩ := List.mem_map.1 hl
      obtain ⟨i, hi⟩ := List.getElem?_of_mem hp
      exact (h i pass hi).1
    · rw [List.pairwise_iff_getElem]
      intro i j hi hj hij
      simp only [List.getElem_map]
      intro k hk1 hk2
      rw [List.length_map] at hi hj
      have h1 := (h i _ (List.getElem?_eq_getElem hi)).2 k hk1
      have h2 := (h j _ (List.getElem?_eq_getElem hj)).2 k hk2
      omega
  · rw [List.pairwise_flatten]
    constructor
    · intro l hl
      obtain ⟨i, hi⟩ := List.getElem?_of_mem hl
      apply List.pairwise_of_forall_mem_list
      intro x hx y hy
      have h1 := (h i l hi).2 x.1 (List.mem_map.2 ⟨x, hx, rfl⟩)
      have h2 := (h i l hi).2 y.1 (List.mem_map.2 ⟨y, hy, rfl⟩)
      omega
    · rw [List.pairwise_iff_getElem]
      intro i j hi hj hij x hx y hy
      have h1 := (h i _ (List.getElem?_eq_getElem hi)).2 x.1 (List.mem_map.2 ⟨x, hx, rfl⟩)
      have h2 := (h j _ (List.getElem?_eq_getElem hj)).2 y.1 (List.mem_map.2 ⟨y, hy, rfl⟩)
      omega

section logspec

variable [LinearOrder α] {a : AhoCorasick α} {path : Nat → List α}

/-- The log of a preparation that runs: pass `i` holds the states of depth `i + 1`, each
once, and at each call the states of smaller depth are as in the prepared automaton. -/
theorem Inv.prepareLog_passes (inv : Inv a path) (hflag : a.m_prepaired = false) :
    ∃ (a1 : AhoCorasick α) (log : List (List (Nat × List (State α)))),
      prepareLog a = some (a1, log) ∧ a.prepare = some a1 ∧ Inv a1 path ∧
      a1.m_prepaired = true ∧ SameShape a.heap a1.heap ∧
      (∀ (i : Nat) (pass : List (Nat × List (State α))), log[i]? = some pass →
        (pass.map Prod.fst).Nodup ∧
        (∀ k, k ∈ pass.map Prod.fst ↔ k < a.heap.length ∧ (path k).length = i + 1) ∧
        (∀ y ∈ pass, ∀ k, (path k).length < i + 1 → y.2[k]? = a1.heap[k]?) ∧
        (∀ y ∈ pass, SameShape a.heap y.2) ∧
        (pass = [] ↔ i + 1 = log.length)) ∧
      log ≠ [] := by
  have wf := inv.wf
  obtain ⟨h1, log, e1, e2, -, per, hne⟩ := wf.prepareLoopLog (a.heap.length + 1) 1 a.heap
    (le_refl _) wf.length_pos (by omega) (SameShape.refl_shape _) rfl inv.root_patterns
    (fun k hk hk0 => ⟨fun hlt => by
        have : path k = [] := List.length_eq_zero.1 (by omega)
        exact absurd ((wf.path_eq_nil hk).1 this) hk0,
      fun _ => ⟨_, _, List.getElem?_eq_getElem hk, List.getElem?_eq_getElem hk, rfl⟩⟩)
  obtain ⟨a1, p1, inv1, f1, -, s1⟩ := inv.prepare_inv
  have hprep : a.prepare = some { a with heap := h1, m_prepaired := true } := by
    unfold AhoCorasick.prepare; rw [hflag, e2]; simp
  rw [hprep] at p1
  cases p1
  refine ⟨_, log, ?_, hprep, inv1, f1, s1, ?_, hne⟩
  · unfold AhoCorasick.prepareLog; rw [hflag, e1]; simp
  · intro i pass hi
    obtain ⟨q1, q2, q3, q4, q5⟩ := per i pass hi
    refine ⟨q1, ?_, ?_, q4, q5⟩
    · intro k; rw [q2 k, Nat.add_comm]
    · intro y hy k hk; exact q3 y hy k (by omega)

end logspec

section helpers

variable [LinearOrder α] {a : AhoCorasick α}

/-- The three cases of `next` on a prepared automaton, for any recursion bound above the
depth of the state. -/
theorem Reachable.next_cases (hr : Reachable a) (hp : a.m_prepaired = true) {π : List α}
    {N : Nat} (hN : findState a.heap π 0 = some N) (e : α) (fuel : Nat)
    (hfuel : π.length < fuel) :
    (∀ c : Nat, findNext a.heap N e = some c → State.next a.heap fuel N e = some c) ∧
    (findNext a.heap N e = none → N = 0 → State.next a.heap fuel N e = some 0) ∧
    (findNext a.heap N e = none → N ≠ 0 →
      ∃ (st : State α) (t : Nat), a.heap[N]? = some st ∧ st.m_failTransition = some t ∧
        State.next a.heap fuel N e = State.next a.heap fuel t e) := by
  obtain ⟨path, inv⟩ := hr.exists_inv
  have wf := inv.wf
  obtain ⟨hNlt, hpN⟩ := wf.findState_iff.1 hN
  have hget := List.getElem?_eq_getElem hNlt
  cases fuel with
  | zero => omega
  | succ k =>
    refine ⟨fun c hc => ?_, fun hc h0 => ?_, fun hc h0 => ?_⟩
    · simp only [findNext, hget] at hc
      simp only [State.next, hget, hc]
    · subst h0
      simp only [findNext, hget] at hc
      have hroot : (a.heap[0]).isRoot = true := (wf.isRoot_iff hget).2 rfl
      simp only [State.next, hget, hc, hroot, if_true]
    · simp only [findNext, hget] at hc
      obtain ⟨st, t, σ, h1, h2, h3, h4, h5, h6, h7, -⟩ := hr.fail_spec hp hN h0
      refine ⟨st, t, h1, h2, ?_⟩
      rw [hget] at h1; cases h1
      have hroot : ¬ (a.heap[N]).isRoot = true := fun h => h0 ((wf.isRoot_iff hget).1 h)
      have e1 : State.next a.heap (k + 1) N e = State.next a.heap k t e := by
        simp only [State.next, hget, hc, hroot, Bool.false_eq_true, if_false, h2]
      rw [e1, (hr.next_spec hp h4 e k (by omega)).1,
        (hr.next_spec hp h4 e (k + 1) (by omega)).1]

/-- The log of a preparation that runs, in terms of the paths of the trie. -/
theorem Reachable.prepareLog_spec (hr : Reachable a) (hflag : a.m_prepaired = false) :
    ∃ (a1 : AhoCorasick α) (log : List (List (Nat × List (State α)))),
      prepareLog a = some (a1, log) ∧ a.matcher = some a1 ∧
      (∀ ρ : List α, findState a1.heap ρ 0 = findState a.heap ρ 0) ∧
      (∀ (i : Nat) (pass : List (Nat × List (State α))), log[i]? = some pass →
        (∀ N, N ∈ pass.map Prod.fst ↔
          ∃ π : List α, π.length = i + 1 ∧ findState a.heap π 0 = some N) ∧
        (pass = [] ↔ i + 1 = log.length)) ∧
      (∀ (N : Nat) (π : List α), findState a.heap π 0 = some N →
        π.length + 1 ≤ log.length) ∧
      (∃ (N : Nat) (π : List α), findState a.heap π 0 = some N ∧
        π.length + 1 = log.length) ∧
      (log.flatten.map Prod.fst).Nodup ∧
      (∀ N, N ∈ log.flatten.map Prod.fst ↔ N ≠ 0 ∧ N < a.heap.length) ∧
      log.flatten.Pairwise (fun x y => ∀ π ρ : List α, findState a.heap π 0 = some x.1 →
        findState a.heap ρ 0 = some y.1 → π.length ≤ ρ.length) ∧
      (∀ x ∈ log.flatten, ∀ (π ρ : List α) (k : Nat), findState a.heap π 0 = some x.1 →
        findState a.heap ρ 0 = some k → ρ.length < π.length → x.2[k]? = a1.heap[k]?) ∧
      (∀ x ∈ log.flatten, ∃ (r : List (State α) × Nat) (st : State α) (t : Nat)
          (π σ : List α),
        findState a.heap π 0 = some x.1 ∧
        prepareStateIters x.2 x.1 = some r ∧ prepareState x.2 x.1 = some r.1 ∧
        r.2 ≤ π.length - 1 ∧
        r.1[x.1]? = some st ∧ st.m_failTransition = some t ∧
        findState a.heap σ 0 = some t ∧ σ.length < π.length ∧
        x.2[t]? = a1.heap[t]? ∧
        ∃ st1 : State α, a1.heap[x.1]? = some st1 ∧ st1.m_failTransition = some t) := by
  obtain ⟨path, inv⟩ := hr.exists_inv
  have wf := inv.wf
  obtain ⟨a1, log, e1, e2, inv1, f1, s1, per, hne⟩ := inv.prepareLog_passes hflag
  have hdepth := wf.log_depth log (fun i pass hi => ⟨(per i pass hi).2.1, (per i pass hi).2.2.2.2⟩)
    hne
  have hflat := log_flatten_spec log (fun k => (path k).length)
    (fun i pass hi => ⟨(per i pass hi).1, fun k hk => (((per i pass hi).2.1 k).1 hk).2⟩)
  have hentry : ∀ x ∈ log.flatten, ∃ (i : Nat) (pass : List (Nat × List (State α))),
      log[i]? = some pass ∧ x ∈ pass ∧ x.1 < a.heap.length ∧ (path x.1).length = i + 1 := by
    intro x hx
    obtain ⟨pass, hp, hxp⟩ := List.mem_flatten.1 hx
    obtain ⟨i, hi⟩ := List.getElem?_of_mem hp
    obtain ⟨h1, h2⟩ := ((per i pass hi).2.1 x.1).1 (List.mem_map.2 ⟨x, hxp, rfl⟩)
    exact ⟨i, pass, hi, hxp, h1, h2⟩
  refine ⟨a1, log, e1, e2, fun ρ => s1.findState ρ 0, ?_, ?_, ?_, hflat.1, ?_, ?_, ?_, ?_⟩
  · intro i pass hi
    obtain ⟨-, q2, -, -, q5⟩ := per i pass hi
    refine ⟨fun N => ?_, q5⟩
    rw [q2 N]
    constructor
    · rintro ⟨h1, h2⟩; exact ⟨path N, h2, wf.findState_of_path N h1⟩
    · rintro ⟨π, h1, h2⟩
      obtain ⟨h3, h4⟩ := wf.findState_iff.1 h2
      exact ⟨h3, by rw [h4]; exact h1⟩
  · intro N π hN
    obtain ⟨h3, h4⟩ := wf.findState_iff.1 hN
    rw [← h4]; exact hdepth.1 N h3
  · obtain ⟨k, hk, hkl⟩ := hdepth.2
    exact ⟨k, path k, wf.findState_of_path k hk, hkl⟩
  · intro N
    constructor
    · intro hmem
      obtain ⟨x, hx, rfl⟩ := List.mem_map.1 hmem
      obtain ⟨i, pass, hi, hxp, h1, h2⟩ := hentry x hx
      refine ⟨?_, h1⟩
      intro h0; rw [h0, wf.path_root] at h2; simp at h2
    · rintro ⟨h0, hlt⟩
      have hd : 1 ≤ (path N).length := by
        by_contra hcon
        have : path N = [] := List.length_eq_zero.1 (by omega)
        exact h0 ((wf.path_eq_nil hlt).1 this)
      have hb := hdepth.1 N hlt
      have hidx : (path N).length - 1 < log.length := by omega
      have hi := List.getElem?_eq_getElem hidx
      have hmem := ((per _ _ hi).2.1 N).2 ⟨hlt, by omega⟩
      rw [List.map_flatten]
      exact List.mem_flatten.2 ⟨_, List.mem_map.2 ⟨_, List.getElem_mem hidx, rfl⟩, hmem⟩
  · refine hflat.2.imp ?_
    intro x y hxy π ρ h1 h2
    rw [← (wf.findState_iff.1 h1).2, ← (wf.findState_iff.1 h2).2]
    exact hxy
  · intro x hx π ρ k h1 h2 hlt
    obtain ⟨i, pass, hi, hxp, h3, h4⟩ := hentry x hx
    rw [(wf.findState_iff.1 h1).2] at h4
    exact (per i pass hi).2.2.1 x hxp k (by rw [(wf.findState_iff.1 h2).2]; omega)
  · intro x hx
    obtain ⟨i, pass, hi, hxp, h3, h4⟩ := hentry x hx
    obtain ⟨-, -, q3, q4, -⟩ := per i pass hi
    have sx := q4 x hxp
    have wfx : WF x.2 path := wf.of_sameShape sx
    have hx0 : x.1 ≠ 0 := by
      intro h0; rw [h0, wf.path_root] at h4; simp at h4
    have hxlt : x.1 < x.2.length := sx.1 ▸ h3
    have hrootx : ∀ r : State α, x.2[0]? = some r → r.m_patterns = [] := by
      intro r hr0
      rw [q3 x hxp 0 (by rw [wf.path_root]; simp)] at hr0
      exact inv1.root_patterns r hr0
    obtain ⟨r, i1, i2, i3⟩ := wfx.prepareStateIters hxlt hx0
    obtain ⟨tst, p1, p2⟩ := wfx.prepareState hrootx (List.getElem?_eq_getElem hxlt) hx0
    rw [i2, Option.some.injEq] at p2
    have hlss : longestSuffixState x.2 (path x.1).tail =
        longestSuffixState a.heap (path x.1).tail := sx.longestSuffixState _
    obtain ⟨l1, l2⟩ := wf.lss_spec (path x.1).tail
    have hlen : (path (longestSuffixState a.heap (path x.1).tail)).length < (path x.1).length := by
      have := l2.length_le
      rw [List.length_tail] at this
      omega
    have hx1 : x.1 < a1.heap.length := s1.1 ▸ h3
    obtain ⟨st, hst1, hst2⟩ : ∃ st : State α, r.1[x.1]? = some st ∧
        st.m_failTransition = some (longestSuffixState a.heap (path x.1).tail) := by
      rw [p2, List.getElem?_set_self hxlt]
      exact ⟨_, rfl, by rw [hlss]⟩
    refine ⟨r, st, longestSuffixState a.heap (path x.1).tail, path x.1, _,
      wf.findState_of_path x.1 h3, i1, i2, i3, hst1, hst2, wf.findState_of_path _ l1, hlen,
      ?_, a1.heap[x.1], List.getElem?_eq_getElem hx1, ?_⟩
    · exact q3 x hxp _ (by omega)
    · rw [(inv1.prepared f1).fail x.1 _ (List.getElem?_eq_getElem hx1) hx0,
        s1.longestSuffixState]

end helpers

/-- C11, trie insertion reuses paths: for every reachable automaton and non-empty pattern
`P`, after `addPattern P` the root-anchored paths are the old ones and the non-empty
prefixes of `P`; every old path leads to the state it led to; every state has a path and
only one, so no sequence is spelled by two states; the number of new states is the length
of `P` minus the length `m` of the longest prefix of `P` that was a path; every old state
keeps its label, its parent and every key of its children map, with the same child; `P`
is appended to the output list of the state whose path is `P` and no other output list
changes; and when `P` was a path already, no state is created. -/
theorem trie_insertion_reuses_paths [LinearOrder α] (a : AhoCorasick α) (hr : Reachable a)
    (P : List α) (hP : P ≠ []) :
    (∀ ρ : List α, (findState (a.addPattern P).heap ρ 0).isSome = true ↔
      (findState a.heap ρ 0).isSome = true ∨ (ρ ≠ [] ∧ ρ <+: P)) ∧
    (∀ (ρ : List α) (k : Nat), findState a.heap ρ 0 = some k →
      findState (a.addPattern P).heap ρ 0 = some k) ∧
    (∀ k, k < (a.addPattern P).heap.length →
      ∃ ρ : List α, findState (a.addPattern P).heap ρ 0 = some k) ∧
    (∀ (ρ1 ρ2 : List α) (k : Nat), findState (a.addPattern P).heap ρ1 0 = some k →
      findState (a.addPattern P).heap ρ2 0 = some k → ρ1 = ρ2) ∧
    (∃ m : Nat, m ≤ P.length ∧
      (∀ ρ : List α, ρ <+: P → ((findState a.heap ρ 0).isSome = true ↔ ρ.length ≤ m)) ∧
      (a.addPattern P).heap.length = a.heap.length + (P.length - m)) ∧
    (∀ (k : Nat) (st : State α), a.heap[k]? = some st →
      ∃ st2 : State α, (a.addPattern P).heap[k]? = some st2 ∧ st2.m_label = st.m_label ∧
        st2.m_parent = st.m_parent) ∧
    (∀ (k : Nat) (c : α) (j : Nat), findNext a.heap k c = some j →
      findNext (a.addPattern P).heap k c = some j) ∧
    (a.addPattern P).m_patterns = a.m_patterns ++ [P] ∧
    (∃ j : Nat, findState (a.addPattern P).heap P 0 = some j ∧
      outputsAt (a.addPattern P).heap j = outputsAt a.heap j ++ [P] ∧
      ∀ k, k ≠ j → outputsAt (a.addPattern P).heap k = outputsAt a.heap k) ∧
    ((findState a.heap P 0).isSome = true →
      (a.addPattern P).heap.length = a.heap.length) := by
  obtain ⟨path, inv⟩ := hr.exists_inv
  obtain ⟨h1, h2, h3, h4, h5, ⟨m, hm1, hm2, hm3⟩, h7, h8⟩ := inv.addPattern_trie hP
  refine ⟨h2, h3, h4, h5, ⟨m, hm1, hm2, hm3⟩, ?_, ?_, h1, h8, fun hs => ?_⟩
  · intro k st hk
    obtain ⟨st2, q1, q2, q3, -⟩ := h7 k st hk
    exact ⟨st2, q1, q2, q3⟩
  · intro k c j hc
    unfold findNext at hc ⊢
    cases hk : a.heap[k]? with
    | none => rw [hk] at hc; cases hc
    | some st =>
      rw [hk] at hc
      obtain ⟨st2, q1, -, -, q4⟩ := h7 k st hk
      rw [q1]; exact q4 c j hc
  · have := (hm2 P (List.prefix_refl P)).1 hs
    rw [hm3]; omega

theorem trie_insertion_reuses_paths_witness :
    (∀ ρ : List Char,
      (findState (exampleAutomaton.addPattern ['q', 'u', 'a']).heap ρ 0).isSome = true ↔
      (findState exampleAutomaton.heap ρ 0).isSome = true ∨
        (ρ ≠ [] ∧ ρ <+: ['q', 'u', 'a'])) ∧
    (∀ (ρ : List Char) (k : Nat), findState exampleAutomaton.heap ρ 0 = some k →
      findState (exampleAutomaton.addPattern ['q', 'u', 'a']).heap ρ 0 = some k) ∧
    (∀ k, k < (exampleAutomaton.addPattern ['q', 'u', 'a']).heap.length →
      ∃ ρ : List Char,
        findState (exampleAutomaton.addPattern ['q', 'u', 'a']).heap ρ 0 = some k) ∧
    (∀ (ρ1 ρ2 : List Char) (k : Nat),
      findState (exampleAutomaton.addPattern ['q', 'u', 'a']).heap ρ1 0 = some k →
      findState (exampleAutomaton.addPattern ['q', 'u', 'a']).heap ρ2 0 = some k →
      ρ1 = ρ2) ∧
    (∃ m : Nat, m ≤ ['q', 'u', 'a'].length ∧
      (∀ ρ : List Char, ρ <+: ['q', 'u', 'a'] →
        ((findState exampleAutomaton.heap ρ 0).isSome = true ↔ ρ.length ≤ m)) ∧
      (exampleAutomaton.addPattern ['q', 'u', 'a']).heap.length =
        exampleAutomaton.heap.length + (['q', 'u', 'a'].length - m)) ∧
    (∀ (k : Nat) (st : State Char), exampleAutomaton.heap[k]? = some st →
      ∃ st2 : State Char, (exampleAutomaton.addPattern ['q', 'u', 'a']).heap[k]? = some st2 ∧
        st2.m_label = st.m_label ∧ st2.m_parent = st.m_parent) ∧
    (∀ (k : Nat) (c : Char) (j : Nat), findNext exampleAutomaton.heap k c = some j →
      findNext (exampleAutomaton.addPattern ['q', 'u', 'a']).heap k c = some j) ∧
    (exampleAutomaton.addPattern ['q', 'u', 'a']).m_patterns =
      exampleAutomaton.m_patterns ++ [['q', 'u', 'a']] ∧
    (∃ j : Nat, findState (exampleAutomaton.addPattern ['q', 'u', 'a']).heap
        ['q', 'u', 'a'] 0 = some j ∧
      outputsAt (exampleAutomaton.addPattern ['q', 'u', 'a']).heap j =
        outputsAt exampleAutomaton.heap j ++ [['q', 'u', 'a']] ∧
      ∀ k, k ≠ j → outputsAt (exampleAutomaton.addPattern ['q', 'u', 'a']).heap k =
        outputsAt exampleAutomaton.heap k) ∧
    ((findState exampleAutomaton.heap ['q', 'u', 'a'] 0).isSome = true →
      (exampleAutomaton.addPattern ['q', 'u', 'a']).heap.length =
        exampleAutomaton.heap.length) :=
  trie_insertion_reuses_paths exampleAutomaton exampleAutomaton_reachable ['q', 'u', 'a']
    (by decide)

/-- The conversions outside the range of a signed `char`: the `int` values `353` and `-159`
are narrowed to `97` (the letter `a`), and the `char` holding the byte `0xE9` is copied to
the `int` `-23` where `char` is signed and to `233` where it is unsigned. -/
theorem intToChar_examples :
    (intToChar (-128) 353).val = 97 ∧ (intToChar (-128) (-159)).val = 97 ∧
    charToInt (intToChar (-128) 233) = -23 ∧ charToInt (intToChar 0 233) = 233 := by
  decide

/-- The traversal over `int` values outside the range of `char`: `355` and `-149` are
narrowed to the letters `c` and `k`, so the pattern `ck` is reported at offset `0`. -/
theorem narrowing_example :
    matchAs (intToChar (-128)) exampleAutomatonC (fun _ _ => false) [355, -149] =
      some [([asChar (-128) 'c', asChar (-128) 'k'], 0)] := by
  decide

/-- C12, cross-representation matching: on a platform whose `char` values start at `lo`
(signed or unsigned `char`), for every prepared automaton over `char` patterns, every
callback and every `char` sequence `s`, `match` over the `int` sequence obtained by
copying each `char` of `s` to an `int` (the call of `next` narrowing each `int` back to a
`char`) returns, and makes exactly the invocations of `match` over `s`: the same patterns
at the same offsets in the same order. -/
theorem cross_representation_matching (lo : Int) (a : AhoCorasick (CChar lo))
    (hr : Reachable a) (hp : a.m_prepaired = true) (f : List (CChar lo) → Int → Bool)
    (s : List (CChar lo)) :
    ∃ tr : List (List (CChar lo) × Int), a.match_ f s = some tr ∧
      matchAs (intToChar lo) a f (s.map charToInt) = some tr := by
  refine ⟨_, hr.match_trace hp f s, ?_⟩
  rw [matchAs_eq, List.map_map]
  have : intToChar lo ∘ charToInt = id := funext (intToChar_charToInt lo)
  rw [this, List.map_id]
  exact hr.match_trace hp f s

theorem cross_representation_matching_witness :
    ∃ tr : List (List (CChar (-128)) × Int),
      exampleAutomatonC.match_ (fun _ _ => false) (exampleInput.map (asChar (-128))) =
        some tr ∧
      matchAs (intToChar (-128)) exampleAutomatonC (fun _ _ => false)
        ((exampleInput.map (asChar (-128))).map charToInt) = some tr :=
  cross_representation_matching (-128) exampleAutomatonC
    (Reachable.new.addPatterns_reachable _).matcher_getD.1
    (Reachable.new.addPatterns_reachable _).matcher_getD.2
    (fun _ _ => false) (exampleInput.map (asChar (-128)))

/-- C13, match is stateless and read-only: on every prepared automaton, for every callback
(with a state of its own, which it may change at every invocation) and every input, a
`match` call returns and the automaton after the call, which the call was given and
handed on through every `next`, is the automaton before it: states with their failure
transitions and output lists, pattern collection and flag.  For a callback whose answers
do not depend on its own state the invocations are those of `match` from the root for the
function of its answers, whatever the callback state; so in a sequence of calls that
starts and ends with such a callback and the same input, with any calls in between, each
made on the automaton the previous call left, the automaton at the end is the automaton
at the start and the first and the last call make the same invocations. -/
theorem match_read_only [LinearOrder α] (σ : Type) (a : AhoCorasick α) (hr : Reachable a)
    (hp : a.m_prepaired = true) :
    (∀ (f : σ → List α → Int → σ × Bool) (s : List α) (c : σ),
      ∃ (c1 : σ) (tr : List (List α × Int)), matchS a f s c = some (a, c1, tr)) ∧
    (∀ (f : σ → List α → Int → σ × Bool) (s : List α) (c0 c : σ),
      (∀ (c1 c2 : σ) (p : List α) (i : Int), (f c1 p i).2 = (f c2 p i).2) →
      ∃ (c1 : σ) (tr : List (List α × Int)), matchS a f s c = some (a, c1, tr) ∧
        a.match_ (fun p k => (f c0 p k).2) s = some tr ∧
        matchLoop a.heap (fun p k => (f c0 p k).2) s 0 0 = some tr) ∧
    (∀ (f : σ → List α → Int → σ × Bool) (s : List α) (c : σ)
        (between : List ((σ → List α → Int → σ × Bool) × List α)),
      (∀ (c1 c2 : σ) (p : List α) (i : Int), (f c1 p i).2 = (f c2 p i).2) →
      ∃ (c1 : σ) (tr : List (List α × Int)) (trs : List (List (List α × Int))),
        matchCallsS a ((f, s) :: between ++ [(f, s)]) c =
          some (a, c1, tr :: trs ++ [tr]) ∧
        trs.length = between.length) := by
  refine ⟨fun f s c => hr.matchS_frame hp f s c, fun f s c0 c hf => ?_,
    fun f s c between hf => ?_⟩
  · obtain ⟨c1, tr, h1, h2⟩ := hr.matchS_trace hp f hf c0 s c
    refine ⟨c1, tr, h1, h2, ?_⟩
    rw [← h2]; simp only [AhoCorasick.match_, hp, if_true]
  · obtain ⟨c1, tr, h1, h2⟩ := hr.matchS_trace hp f hf c s c
    obtain ⟨c2, trs, h3, h4⟩ := hr.matchCallsS_last hp f hf c s tr h2 between c1
    refine ⟨c2, tr, trs, ?_, h4⟩
    have e : (f, s) :: between ++ [(f, s)] = (f, s) :: (between ++ [(f, s)]) := rfl
    rw [e]
    simp only [matchCallsS, h1, h3]
    rfl

theorem match_read_only_witness :
    (∀ (f : Nat → List Char → Int → Nat × Bool) (s : List Char) (c : Nat),
      ∃ (c1 : Nat) (tr : List (List Char × Int)),
        matchS exampleAutomaton f s c = some (exampleAutomaton, c1, tr)) ∧
    (∀ (f : Nat → List Char → Int → Nat × Bool) (s : List Char) (c0 c : Nat),
      (∀ (c1 c2 : Nat) (p : List Char) (i : Int), (f c1 p i).2 = (f c2 p i).2) →
      ∃ (c1 : Nat) (tr : List (List Char × Int)),
        matchS exampleAutomaton f s c = some (exampleAutomaton, c1, tr) ∧
        exampleAutomaton.match_ (fun p k => (f c0 p k).2) s = some tr ∧
        matchLoop exampleAutomaton.heap (fun p k => (f c0 p k).2) s 0 0 = some tr) ∧
    (∀ (f : Nat → List Char → Int → Nat × Bool) (s : List Char) (c : Nat)
        (between : List ((Nat → List Char → Int → Nat × Bool) × List Char)),
      (∀ (c1 c2 : Nat) (p : List Char) (i : Int), (f c1 p i).2 = (f c2 p i).2) →
      ∃ (c1 : Nat) (tr : List (List Char × Int)) (trs : List (List (List Char × Int))),
        matchCallsS exampleAutomaton ((f, s) :: between ++ [(f, s)]) c =
          some (exampleAutomaton, c1, tr :: trs ++ [tr]) ∧
        trs.length = between.length) :=
  match_read_only Nat exampleAutomaton exampleAutomaton_reachable (by decide)

/-- C14, failure links are longest proper suffixes: on every reachable automaton
`matcher()` returns an automaton with the same states and the same trie in which every
non-root state `N` has a path `π`, the only sequence that leads to `N`, and a failure
transition, which is the state of a proper suffix `σ` of `π` that is a path of the trie;
every proper suffix of `π` that is a path of the trie is a suffix of `σ` and at most as
long; and the failure transition is the root when no non-empty proper suffix is a path,
in particular for the children of the root. -/
theorem failure_links_longest_proper_suffix [LinearOrder α] (a : AhoCorasick α)
    (hr : Reachable a) :
    ∃ a1 : AhoCorasick α, a.matcher = some a1 ∧ a1.heap.length = a.heap.length ∧
      (∀ ρ : List α, findState a1.heap ρ 0 = findState a.heap ρ 0) ∧
      ∀ N : Nat, N < a1.heap.length → N ≠ 0 →
        ∃ (st : State α) (t : Nat) (π σ : List α), a1.heap[N]? = some st ∧
          findState a1.heap π 0 = some N ∧
          (∀ π1 : List α, findState a1.heap π1 0 = some N → π1 = π) ∧
          st.m_failTransition = some t ∧ findState a1.heap σ 0 = some t ∧
          σ <:+ π ∧ σ ≠ π ∧
          (∀ ρ : List α, ρ <:+ π → ρ ≠ π → (findState a1.heap ρ 0).isSome = true →
            ρ <:+ σ ∧ ρ.length ≤ σ.length) ∧
          ((∀ ρ : List α, ρ <:+ π → ρ ≠ π → ρ ≠ [] → findState a1.heap ρ 0 = none) →
            t = 0) ∧
          (π.length = 1 → t = 0) := by
  obtain ⟨path, inv⟩ := hr.exists_inv
  obtain ⟨a1, e1, inv1, f1, -, s1⟩ := inv.prepare_inv
  have hr1 : Reachable a1 := hr.matcher e1
  refine ⟨a1, e1, s1.1.symm, fun ρ => s1.findState ρ 0, fun N hN hN0 => ?_⟩
  obtain ⟨π, hπ⟩ := hr1.node_path hN
  obtain ⟨st, t, σ, h1, h2, -, h4, h5, h6, -, h8, h9, h10⟩ := hr1.fail_spec f1 hπ hN0
  refine ⟨st, t, π, σ, h1, hπ, fun π1 h => ?_, h2, h4, h5, h6, h8, h9, h10⟩
  rw [← (inv1.wf.findState_iff.1 h).2, ← (inv1.wf.findState_iff.1 hπ).2]

theorem failure_links_longest_proper_suffix_witness :
    ∃ a1 : AhoCorasick Char, (AhoCorasick.new.addPatterns examplePatterns).matcher = some a1 ∧
      a1.heap.length = (AhoCorasick.new.addPatterns examplePatterns).heap.length ∧
      (∀ ρ : List Char, findState a1.heap ρ 0 =
        findState (AhoCorasick.new.addPatterns examplePatterns).heap ρ 0) ∧
      ∀ N : Nat, N < a1.heap.length → N ≠ 0 →
        ∃ (st : State Char) (t : Nat) (π σ : List Char), a1.heap[N]? = some st ∧
          findState a1.heap π 0 = some N ∧
          (∀ π1 : List Char, findState a1.heap π1 0 = some N → π1 = π) ∧
          st.m_failTransition = some t ∧ findState a1.heap σ 0 = some t ∧
          σ <:+ π ∧ σ ≠ π ∧
          (∀ ρ : List Char, ρ <:+ π → ρ ≠ π → (findState a1.heap ρ 0).isSome = true →
            ρ <:+ σ ∧ ρ.length ≤ σ.length) ∧
          ((∀ ρ : List Char, ρ <:+ π → ρ ≠ π → ρ ≠ [] → findState a1.heap ρ 0 = none) →
            t = 0) ∧
          (π.length = 1 → t = 0) :=
  failure_links_longest_proper_suffix (AhoCorasick.new.addPatterns examplePatterns)
    (Reachable.new.addPatterns_reachable examplePatterns)

/-- C15, output sets are suffix closures: on every reachable automaton, prepared before or
not, `matcher()` returns an automaton with the same states and the same pattern
collection in which every state `N` has a path `π`, the only sequence that leads to `N`,
and a pattern is in the output list of `N` exactly when it is a registered pattern that
is a suffix of `π`, which is exactly when it is a registered pattern whose own state is
reached from `N` by following failure transitions zero or more times. -/
theorem output_sets_suffix_closure [LinearOrder α] (a : AhoCorasick α) (hr : Reachable a) :
    ∃ a1 : AhoCorasick α, a.matcher = some a1 ∧ a1.m_patterns = a.m_patterns ∧
      a1.heap.length = a.heap.length ∧
      ∀ N : Nat, N < a1.heap.length →
        ∃ (st : State α) (π : List α), a1.heap[N]? = some st ∧
          findState a1.heap π 0 = some N ∧
          (∀ π1 : List α, findState a1.heap π1 0 = some N → π1 = π) ∧
          ∀ p : List α,
            (p ∈ st.m_patterns ↔ p ∈ a1.m_patterns ∧ p <:+ π) ∧
            ((p ∈ a1.m_patterns ∧ p <:+ π) ↔
              ∃ M : Nat, Relation.ReflTransGen (failStep a1.heap) N M ∧
                p ∈ a1.m_patterns ∧ findState a1.heap p 0 = some M) := by
  obtain ⟨path, inv⟩ := hr.exists_inv
  obtain ⟨a1, e1, inv1, f1, hpat, s1⟩ := inv.prepare_inv
  have hr1 : Reachable a1 := hr.matcher e1
  refine ⟨a1, e1, hpat, s1.1.symm, fun N hN => ?_⟩
  obtain ⟨π, hπ⟩ := hr1.node_path hN
  obtain ⟨st, h1, h2⟩ := hr1.outputs_spec f1 hπ
  refine ⟨st, π, h1, hπ, fun π1 h => ?_, h2⟩
  rw [← (inv1.wf.findState_iff.1 h).2, ← (inv1.wf.findState_iff.1 hπ).2]

theorem output_sets_suffix_closure_witness :
    ∃ a1 : AhoCorasick Char, (exampleAutomaton.addPattern ['u', 'i']).matcher = some a1 ∧
      a1.m_patterns = (exampleAutomaton.addPattern ['u', 'i']).m_patterns ∧
      a1.heap.length = (exampleAutomaton.addPattern ['u', 'i']).heap.length ∧
      ∀ N : Nat, N < a1.heap.length →
        ∃ (st : State Char) (π : List Char), a1.heap[N]? = some st ∧
          findState a1.heap π 0 = some N ∧
          (∀ π1 : List Char, findState a1.heap π1 0 = some N → π1 = π) ∧
          ∀ p : List Char,
            (p ∈ st.m_patterns ↔ p ∈ a1.m_patterns ∧ p <:+ π) ∧
            ((p ∈ a1.m_patterns ∧ p <:+ π) ↔
              ∃ M : Nat, Relation.ReflTransGen (failStep a1.heap) N M ∧
                p ∈ a1.m_patterns ∧ findState a1.heap p 0 = some M) :=
  output_sets_suffix_closure (exampleAutomaton.addPattern ['u', 'i'])
    (exampleAutomaton_reachable.addPattern ['u', 'i'])

/-- C16, transition function: on every prepared automaton, for every state `N` with path
`π` and every element `e`, `next` returns the child of `N` labelled `e` when there is one,
else the root when `N` is the root, else what `next` returns on the failure transition of
`N`; the state returned is the state of the longest suffix of `π` followed by `e` that is
a path of the trie; and for every callback and input, `match` assigns to its variable
`state` one value for every element it consumes (all the elements when the callback never
answers true), and the value after the elements `s[0..j]` is the state of the longest
suffix of `s[0..j]` that is a path of the trie. -/
theorem transition_function [LinearOrder α] (a : AhoCorasick α) (hr : Reachable a)
    (hp : a.m_prepaired = true) :
    (∀ (π : List α) (N : Nat) (e : α), findState a.heap π 0 = some N →
      (∀ c : Nat, findNext a.heap N e = some c →
        State.next a.heap a.heap.length N e = some c) ∧
      (findNext a.heap N e = none → N = 0 →
        State.next a.heap a.heap.length N e = some 0) ∧
      (findNext a.heap N e = none → N ≠ 0 →
        ∃ (st : State α) (t : Nat), a.heap[N]? = some st ∧
          st.m_failTransition = some t ∧
          State.next a.heap a.heap.length N e = State.next a.heap a.heap.length t e) ∧
      ∃ (M : Nat) (ρ : List α), State.next a.heap a.heap.length N e = some M ∧
        findState a.heap ρ 0 = some M ∧ ρ <:+ π ++ [e] ∧
        ∀ ρ1 : List α, ρ1 <:+ π ++ [e] → (findState a.heap ρ1 0).isSome = true →
          ρ1 <:+ ρ ∧ ρ1.length ≤ ρ.length) ∧
    (∀ (f : List α → Int → Bool) (s : List α),
      ∃ (tr : List (List α × Int)) (states : List Nat),
        matchLog a f s = some (tr, states) ∧ a.match_ f s = some tr ∧
        states.length ≤ s.length ∧
        ((∀ x ∈ tr, f x.1 x.2 = false) → states.length = s.length) ∧
        ∀ (j M : Nat), states[j]? = some M →
          ∃ ρ : List α, findState a.heap ρ 0 = some M ∧ ρ <:+ s.take (j + 1) ∧
            ∀ ρ1 : List α, ρ1 <:+ s.take (j + 1) →
              (findState a.heap ρ1 0).isSome = true →
              ρ1 <:+ ρ ∧ ρ1.length ≤ ρ.length) := by
  constructor
  · intro π N e hN
    have hlen := (hr.next_spec hp hN e (π.length + 1) (Nat.lt_succ_self _)).2
    obtain ⟨c1, c2, c3⟩ := hr.next_cases hp hN e a.heap.length hlen
    obtain ⟨-, ρ, l1, l2, l3⟩ := hr.lss_longest (π ++ [e])
    exact ⟨c1, c2, c3, _, ρ, (hr.next_spec hp hN e a.heap.length hlen).1, l1, l2, l3⟩
  · intro f s
    obtain ⟨tr, states, h1, h2, h3, h4, h5⟩ := hr.matchLog_spec hp f s
    refine ⟨tr, states, h1, h2, h3, h4, fun j M hj => ?_⟩
    obtain ⟨-, ρ, l1, l2, l3⟩ := hr.lss_longest (s.take (j + 1))
    rw [h5 j M hj]
    exact ⟨ρ, l1, l2, l3⟩

theorem transition_function_witness :
    (∀ (π : List Char) (N : Nat) (e : Char), findState exampleAutomaton.heap π 0 = some N →
      (∀ c : Nat, findNext exampleAutomaton.heap N e = some c →
        State.next exampleAutomaton.heap exampleAutomaton.heap.length N e = some c) ∧
      (findNext exampleAutomaton.heap N e = none → N = 0 →
        State.next exampleAutomaton.heap exampleAutomaton.heap.length N e = some 0) ∧
      (findNext exampleAutomaton.heap N e = none → N ≠ 0 →
        ∃ (st : State Char) (t : Nat), exampleAutomaton.heap[N]? = some st ∧
          st.m_failTransition = some t ∧
          State.next exampleAutomaton.heap exampleAutomaton.heap.length N e =
            State.next exampleAutomaton.heap exampleAutomaton.heap.length t e) ∧
      ∃ (M : Nat) (ρ : List Char),
        State.next exampleAutomaton.heap exampleAutomaton.heap.length N e = some M ∧
        findState exampleAutomaton.heap ρ 0 = some M ∧ ρ <:+ π ++ [e] ∧
        ∀ ρ1 : List Char, ρ1 <:+ π ++ [e] →
          (findState exampleAutomaton.heap ρ1 0).isSome = true →
          ρ1 <:+ ρ ∧ ρ1.length ≤ ρ.length) ∧
    (∀ (f : List Char → Int → Bool) (s : List Char),
      ∃ (tr : List (List Char × Int)) (states : List Nat),
        matchLog exampleAutomaton f s = some (tr, states) ∧
        exampleAutomaton.match_ f s = some tr ∧
        states.length ≤ s.length ∧
        ((∀ x ∈ tr, f x.1 x.2 = false) → states.length = s.length) ∧
        ∀ (j M : Nat), states[j]? = some M →
          ∃ ρ : List Char, findState exampleAutomaton.heap ρ 0 = some M ∧
            ρ <:+ s.take (j + 1) ∧
            ∀ ρ1 : List Char, ρ1 <:+ s.take (j + 1) →
              (findState exampleAutomaton.heap ρ1 0).isSome = true →
              ρ1 <:+ ρ ∧ ρ1.length ≤ ρ.length) :=
  transition_function exampleAutomaton exampleAutomaton_reachable (by decide)

/-- C17, prepared-state invariant: in every automaton reachable by `addPattern` and
`matcher()` calls, when the flag is set every non-root state has a failure transition,
which is a state of the trie whose path is strictly shorter than the path of the state;
the failure transition of the root is the root and the output list of the root is empty;
and `matcher()` returns an automaton with the flag set, on which `match` returns for every
callback and input and on which `next` returns a state of the trie from every state, the
recursion ending within any bound above the depth of the state. -/
theorem prepared_state_invariant [LinearOrder α] (a : AhoCorasick α) (hr : Reachable a) :
    (a.m_prepaired = true →
      ∀ N : Nat, N < a.heap.length → N ≠ 0 →
        ∃ (st : State α) (t : Nat) (π σ : List α), a.heap[N]? = some st ∧
          st.m_failTransition = some t ∧ t < a.heap.length ∧
          findState a.heap π 0 = some N ∧ findState a.heap σ 0 = some t ∧
          σ.length < π.length) ∧
    (∃ r : State α, a.heap[0]? = some r ∧ r.m_failTransition = some 0 ∧
      r.m_patterns = []) ∧
    ∃ a1 : AhoCorasick α, a.matcher = some a1 ∧ a1.m_prepaired = true ∧
      (∀ (f : List α → Int → Bool) (s : List α),
        ∃ tr : List (List α × Int), a1.match_ f s = some tr) ∧
      ∀ (N : Nat) (π : List α) (e : α), findState a1.heap π 0 = some N →
        π.length < a1.heap.length ∧
        ∃ M : Nat, M < a1.heap.length ∧
          ∀ fuel : Nat, π.length < fuel → State.next a1.heap fuel N e = some M := by
  refine ⟨fun hp N hN hN0 => ?_, ?_, ?_⟩
  · obtain ⟨π, hπ⟩ := hr.node_path hN
    obtain ⟨st, t, σ, h1, h2, h3, h4, -, -, h7, -⟩ := hr.fail_spec hp hπ hN0
    exact ⟨st, t, π, σ, h1, h2, h3, hπ, h4, h7⟩
  · obtain ⟨r, h1, -, h3, h4⟩ := hr.root_spec
    exact ⟨r, h1, h3, h4⟩
  · obtain ⟨a1, e1, hr1, hp1, -⟩ := hr.matcher_total
    refine ⟨a1, e1, hp1, fun f s => ⟨_, hr1.match_trace hp1 f s⟩, fun N π e hN => ?_⟩
    refine ⟨(hr1.next_spec hp1 hN e (π.length + 1) (Nat.lt_succ_self _)).2, _,
      (hr1.lss_longest (π ++ [e])).1, fun fuel hf => (hr1.next_spec hp1 hN e fuel hf).1⟩

theorem prepared_state_invariant_witness :
    (exampleAutomaton.m_prepaired = true →
      ∀ N : Nat, N < exampleAutomaton.heap.length → N ≠ 0 →
        ∃ (st : State Char) (t : Nat) (π σ : List Char),
          exampleAutomaton.heap[N]? = some st ∧
          st.m_failTransition = some t ∧ t < exampleAutomaton.heap.length ∧
          findState exampleAutomaton.heap π 0 = some N ∧
          findState exampleAutomaton.heap σ 0 = some t ∧
          σ.length < π.length) ∧
    (∃ r : State Char, exampleAutomaton.heap[0]? = some r ∧ r.m_failTransition = some 0 ∧
      r.m_patterns = []) ∧
    ∃ a1 : AhoCorasick Char, exampleAutomaton.matcher = some a1 ∧ a1.m_prepaired = true ∧
      (∀ (f : List Char → Int → Bool) (s : List Char),
        ∃ tr : List (List Char × Int), a1.match_ f s = some tr) ∧
      ∀ (N : Nat) (π : List Char) (e : Char), findState a1.heap π 0 = some N →
        π.length < a1.heap.length ∧
        ∃ M : Nat, M < a1.heap.length ∧
          ∀ fuel : Nat, π.length < fuel → State.next a1.heap fuel N e = some M :=
  prepared_state_invariant exampleAutomaton exampleAutomaton_reachable

/-- C18, breadth-first preparation order: on every reachable automaton that is not
prepared, `prepare` returns and its `prepareState` calls, logged in call order with the
heap at the time of each call, are as follows: every non-root state is passed exactly
once; pass number `i` of the level loop passes exactly the states of depth `i + 1`, so
along the log the depth never decreases; at each call every state strictly shallower than
the state passed is as in the prepared automaton; and the failure transition that the
call sets is such a state, so it has its final failure transition and output list when
its outputs are copied, and it is the failure transition the state has in the prepared
automaton. -/
theorem breadth_first_preparation [LinearOrder α] (a : AhoCorasick α) (hr : Reachable a)
    (hflag : a.m_prepaired = false) :
    ∃ (a1 : AhoCorasick α) (log : List (List (Nat × List (State α)))),
      prepareLog a = some (a1, log) ∧ a.matcher = some a1 ∧
      (log.flatten.map Prod.fst).Nodup ∧
      (∀ N, N ∈ log.flatten.map Prod.fst ↔ N ≠ 0 ∧ N < a.heap.length) ∧
      (∀ (i : Nat) (pass : List (Nat × List (State α))), log[i]? = some pass →
        ∀ N, N ∈ pass.map Prod.fst ↔
          ∃ π : List α, π.length = i + 1 ∧ findState a.heap π 0 = some N) ∧
      log.flatten.Pairwise (fun x y => ∀ π ρ : List α, findState a.heap π 0 = some x.1 →
        findState a.heap ρ 0 = some y.1 → π.length ≤ ρ.length) ∧
      (∀ x ∈ log.flatten, ∀ (π ρ : List α) (k : Nat), findState a.heap π 0 = some x.1 →
        findState a.heap ρ 0 = some k → ρ.length < π.length → x.2[k]? = a1.heap[k]?) ∧
      (∀ x ∈ log.flatten, ∃ (h2 : List (State α)) (st : State α) (t : Nat) (π σ : List α),
        prepareState x.2 x.1 = some h2 ∧ h2[x.1]? = some st ∧
        st.m_failTransition = some t ∧
        findState a.heap π 0 = some x.1 ∧ findState a.heap σ 0 = some t ∧
        σ.length < π.length ∧ x.2[t]? = a1.heap[t]? ∧
        ∃ st1 : State α, a1.heap[x.1]? = some st1 ∧ st1.m_failTransition = some t) := by
  obtain ⟨a1, log, h1, h2, -, h4, -, -, h7, h8, h9, h10, h11⟩ := hr.prepareLog_spec hflag
  refine ⟨a1, log, h1, h2, h7, h8, fun i pass hi => (h4 i pass hi).1, h9, h10, ?_⟩
  intro x hx
  obtain ⟨r, st, t, π, σ, p1, -, p3, -, p5, p6, p7, p8, p9, p10⟩ := h11 x hx
  exact ⟨r.1, st, t, π, σ, p3, p5, p6, p1, p7, p8, p9, p10⟩

theorem breadth_first_preparation_witness :
    ∃ (a1 : AhoCorasick Char) (log : List (List (Nat × List (State Char)))),
      prepareLog (AhoCorasick.new.addPatterns examplePatterns) = some (a1, log) ∧
      (AhoCorasick.new.addPatterns examplePatterns).matcher = some a1 ∧
      (log.flatten.map Prod.fst).Nodup ∧
      (∀ N, N ∈ log.flatten.map Prod.fst ↔
        N ≠ 0 ∧ N < (AhoCorasick.new.addPatterns examplePatterns).heap.length) ∧
      (∀ (i : Nat) (pass : List (Nat × List (State Char))), log[i]? = some pass →
        ∀ N, N ∈ pass.map Prod.fst ↔
          ∃ π : List Char, π.length = i + 1 ∧
            findState (AhoCorasick.new.addPatterns examplePatterns).heap π 0 = some N) ∧
      log.flatten.Pairwise (fun x y => ∀ π ρ : List Char,
        findState (AhoCorasick.new.addPatterns examplePatterns).heap π 0 = some x.1 →
        findState (AhoCorasick.new.addPatterns examplePatterns).heap ρ 0 = some y.1 →
        π.length ≤ ρ.length) ∧
      (∀ x ∈ log.flatten, ∀ (π ρ : List Char) (k : Nat),
        findState (AhoCorasick.new.addPatterns examplePatterns).heap π 0 = some x.1 →
        findState (AhoCorasick.new.addPatterns examplePatterns).heap ρ 0 = some k →
        ρ.length < π.length → x.2[k]? = a1.heap[k]?) ∧
      (∀ x ∈ log.flatten, ∃ (h2 : List (State Char)) (st : State Char) (t : Nat)
          (π σ : List Char),
        prepareState x.2 x.1 = some h2 ∧ h2[x.1]? = some st ∧
        st.m_failTransition = some t ∧
        findState (AhoCorasick.new.addPatterns examplePatterns).heap π 0 = some x.1 ∧
        findState (AhoCorasick.new.addPatterns examplePatterns).heap σ 0 = some t ∧
        σ.length < π.length ∧ x.2[t]? = a1.heap[t]? ∧
        ∃ st1 : State Char, a1.heap[x.1]? = some st1 ∧ st1.m_failTransition = some t) :=
  breadth_first_preparation (AhoCorasick.new.addPatterns examplePatterns)
    (Reachable.new.addPatterns_reachable examplePatterns) (by decide)

/-- C19, preparation terminates: on every reachable automaton `prepare` returns, making
no pass when the flag is set; when it is not set, the number of passes of the level loop
is the greatest depth of a state plus one, a pass is empty exactly when no state has its
depth, which is the case for the last pass only, and in every `prepareState` call the
suffix-search loop runs at most `k - 1` times for a state of depth `k` and the call
returns. -/
theorem preparation_terminates [LinearOrder α] (a : AhoCorasick α) (hr : Reachable a) :
    ∃ (a1 : AhoCorasick α) (log : List (List (Nat × List (State α)))),
      prepareLog a = some (a1, log) ∧ a.prepare = some a1 ∧
      (a.m_prepaired = true → log = []) ∧
      (a.m_prepaired = false →
        (∀ (N : Nat) (π : List α), findState a.heap π 0 = some N →
          π.length + 1 ≤ log.length) ∧
        (∃ (N : Nat) (π : List α), findState a.heap π 0 = some N ∧
          π.length + 1 = log.length) ∧
        (∀ (i : Nat) (pass : List (Nat × List (State α))), log[i]? = some pass →
          (pass = [] ↔ ¬ ∃ (N : Nat) (π : List α), π.length = i + 1 ∧
            findState a.heap π 0 = some N) ∧
          (pass = [] ↔ i + 1 = log.length)) ∧
        ∀ x ∈ log.flatten, ∃ (r : List (State α) × Nat) (π : List α),
          findState a.heap π 0 = some x.1 ∧ prepareStateIters x.2 x.1 = some r ∧
          prepareState x.2 x.1 = some r.1 ∧ r.2 ≤ π.length - 1) := by
  cases hflag : a.m_prepaired with
  | true =>
    refine ⟨a, [], ?_, Inv.prepare_of_prepared hflag, fun _ => rfl, fun h => by cases h⟩
    simp only [prepareLog, hflag, if_true]
  | false =>
    obtain ⟨a1, log, h1, h2, -, h4, h5, h6, -, -, -, -, h11⟩ := hr.prepareLog_spec hflag
    refine ⟨a1, log, h1, h2, (fun h => by cases h), fun _ => ⟨h5, h6, ?_, ?_⟩⟩
    · intro i pass hi
      obtain ⟨q1, q2⟩ := h4 i pass hi
      refine ⟨⟨fun hnil => ?_, fun hno => ?_⟩, q2⟩
      · rintro ⟨N, π, hπ, hN⟩
        have := (q1 N).2 ⟨π, hπ, hN⟩
        rw [hnil] at this; simp at this
      · cases hp : pass with
        | nil => rfl
        | cons y ys =>
          exfalso
          have hmem : y.1 ∈ pass.map Prod.fst := by rw [hp]; simp
          obtain ⟨π, hπ, hN⟩ := (q1 y.1).1 hmem
          exact hno ⟨y.1, π, hπ, hN⟩
    · intro x hx
      obtain ⟨r, st, t, π, σ, p1, p2, p3, p4, -⟩ := h11 x hx
      exact ⟨r, π, p1, p2, p3, p4⟩

theorem preparation_terminates_witness :
    ∃ (a1 : AhoCorasick Char) (log : List (List (Nat × List (State Char)))),
      prepareLog (AhoCorasick.new.addPatterns examplePatterns) = some (a1, log) ∧
      (AhoCorasick.new.addPatterns examplePatterns).prepare = some a1 ∧
      ((AhoCorasick.new.addPatterns examplePatterns).m_prepaired = true → log = []) ∧
      ((AhoCorasick.new.addPatterns examplePatterns).m_prepaired = false →
        (∀ (N : Nat) (π : List Char),
          findState (AhoCorasick.new.addPatterns examplePatterns).heap π 0 = some N →
          π.length + 1 ≤ log.length) ∧
        (∃ (N : Nat) (π : List Char),
          findState (AhoCorasick.new.addPatterns examplePatterns).heap π 0 = some N ∧
          π.length + 1 = log.length) ∧
        (∀ (i : Nat) (pass : List (Nat × List (State Char))), log[i]? = some pass →
          (pass = [] ↔ ¬ ∃ (N : Nat) (π : List Char), π.length = i + 1 ∧
            findState (AhoCorasick.new.addPatterns examplePatterns).heap π 0 = some N) ∧
          (pass = [] ↔ i + 1 = log.length)) ∧
        ∀ x ∈ log.flatten, ∃ (r : List (State Char) × Nat) (π : List Char),
          findState (AhoCorasick.new.addPatterns examplePatterns).heap π 0 = some x.1 ∧
          prepareStateIters x.2 x.1 = some r ∧
          prepareState x.2 x.1 = some r.1 ∧ r.2 ≤ π.length - 1) :=
  preparation_terminates (AhoCorasick.new.addPatterns examplePatterns)
    (Reachable.new.addPatterns_reachable examplePatterns)

/-- C20 as stated fails: on the prepared automaton of `example.cpp`, `addPattern` of the
empty pattern returns before the flag is cleared, so the automaton stays prepared. -/
theorem prepared_flag_refuted :
    ¬ ∀ (a : AhoCorasick Char) (p : List Char), Reachable a →
      (a.addPattern p).m_prepaired = false := by
  intro h
  exact absurd (h exampleAutomaton [] exampleAutomaton_reachable) (by decide)

/-- C20 amended, the prepared flag: a new automaton is not prepared; on every reachable
automaton, `addPattern` of a non-empty pattern leaves the flag cleared, `addPattern` of
the empty pattern leaves the flag as it was, and `matcher()` returns with the flag
set. -/
theorem prepared_flag_machine [LinearOrder α] (a : AhoCorasick α) (hr : Reachable a) :
    (AhoCorasick.new : AhoCorasick α).m_prepaired = false ∧
    (∀ P : List α, P ≠ [] → (a.addPattern P).m_prepaired = false) ∧
    (a.addPattern []).m_prepaired = a.m_prepaired ∧
    ∃ a1 : AhoCorasick α, a.matcher = some a1 ∧ a1.m_prepaired = true := by
  obtain ⟨path, inv⟩ := hr.exists_inv
  refine ⟨rfl, fun P hP => ?_, by rw [addPattern_nil inv.wf], ?_⟩
  · obtain ⟨-, -, -, -, hflag, -⟩ := addPattern_cons inv.wf inv.rootFail hP
    exact hflag
  · obtain ⟨a1, e1, -, hp1, -⟩ := hr.matcher_total
    exact ⟨a1, e1, hp1⟩

theorem prepared_flag_machine_witness :
    (AhoCorasick.new : AhoCorasick Char).m_prepaired = false ∧
    (∀ P : List Char, P ≠ [] → (exampleAutomaton.addPattern P).m_prepaired = false) ∧
    (exampleAutomaton.addPattern []).m_prepaired = exampleAutomaton.m_prepaired ∧
    ∃ a1 : AhoCorasick Char, exampleAutomaton.matcher = some a1 ∧ a1.m_prepaired = true :=
  prepared_flag_machine exampleAutomaton exampleAutomaton_reachable

end AhoCorasick
